import Mathlib

/-!
Verification of the MassFlow spectral similarity and curation engine
(`yogimass/similarity/processing.py`, `metrics.py`, `backends.py`,
`library.py`, `library_io.py`, `curation.py`, `networking/network.py`).

The Python modules under study are embedded shallowly over exact rationals:
float arithmetic is idealized as arithmetic in the ordered field of the
rationals, with square roots (which leave the rationals) handled by an
interpretation layer into the reals.  A NaN intensity is modelled as the
value `none` of an `Option` type.  Stable sorts (Python `list.sort`,
`np.argsort` with stable kind) are modelled as sorts by a lexicographic key
that includes the original position, which determines the permutation
uniquely; `np.argsort`'s default unstable sort on the final m/z pass is
idealized the same way.
-/

namespace MassFlow

/-- Maximum of a list of rationals, mirroring `np.max` on the nonempty lists it
is applied to in the source (`0` on the empty list, which the source guards). -/
def maxQ : List ℚ → ℚ
  | [] => 0
  | x :: xs => xs.foldl max x

namespace Processing

/-- A mass peak: (m/z value, intensity). -/
abbrev Peak := ℚ × ℚ

/-- A `matchms.Spectrum` as used by `SpectrumProcessor`: a peak array where an
intensity may be NaN (modelled as `none`), plus an opaque metadata token that
every operation passes through unchanged (`clone.metadata` in the source). -/
structure Spec where
  peaks : List (ℚ × Option ℚ)
  meta : ℕ
deriving DecidableEq, Repr

/-- NaN-intensity peaks dropped (`mz[valid_mask]`, `intensities[valid_mask]`).
When no intensity is NaN this is the identity embedding of the peak list. -/
def clean (s : Spec) : List Peak :=
  s.peaks.filterMap (fun p => p.2.map (fun i => (p.1, i)))

/-- The `SpectrumProcessor` dataclass configuration.  `align_tolerance` and
`float_dtype` are omitted: alignment is not exercised (`reference_mz = None`)
and dtype casting is the identity in the exact-arithmetic model.  The
`normalization` string is modelled as an enumeration, so the
invalid-string branch of `normalize` is unrepresentable. -/
inductive NormMode | tic | basepeak
deriving DecidableEq, Repr

/-- Configuration fields of `SpectrumProcessor` (defaults as in the source). -/
structure ProcCfg where
  min_relative_intensity : ℚ := 1/100
  min_absolute_intensity : ℚ := 0
  max_peaks : Option ℕ := some 500
  mz_dedup_tolerance : Option ℚ := none
  normalization : Option NormMode := none
deriving DecidableEq, Repr

/-- Elementwise `np.allclose(a, b)` with numpy defaults
`rtol = 1e-5`, `atol = 1e-8` (callers guarantee equal lengths). -/
def allcloseB (a b : List ℚ) : Bool :=
  (a.zip b).all (fun p => decide (|p.1 - p.2| ≤ 1/100000000 + (1/100000) * |p.2|))

/-- Key order used to model the stable ascending `np.argsort` by intensity in
the top-N selection: by intensity, ties by original position. -/
def intPosLe (a b : ℕ × Peak) : Prop :=
  a.2.2 < b.2.2 ∨ (a.2.2 = b.2.2 ∧ a.1 ≤ b.1)

instance : DecidableRel intPosLe := fun a b => by unfold intPosLe; infer_instance

/-- Ascending order on the original positions (`np.sort(kept_indices)`). -/
def posLe (a b : ℕ × Peak) : Prop := a.1 ≤ b.1

instance : DecidableRel posLe := fun a b => by unfold posLe; infer_instance

/-- Key order for sorting peaks by m/z, ties by position. -/
def mzPosLe (a b : ℕ × Peak) : Prop :=
  a.2.1 < b.2.1 ∨ (a.2.1 = b.2.1 ∧ a.1 ≤ b.1)

instance : DecidableRel mzPosLe := fun a b => by unfold mzPosLe; infer_instance

/-- Sort a peak list by ascending m/z (`mz[np.argsort(mz)]`), order of equal
m/z values fixed by original position. -/
def sortPeaksByMz (l : List Peak) : List Peak :=
  (List.insertionSort mzPosLe l.enum).map (·.2)

/-- Apex of a deduplication group: the peak of maximal intensity, ties resolved
to the first in group order (`np.argmax`). -/
def apexOf : List Peak → Peak
  | [] => (0, 0)
  | x :: xs => xs.foldl (fun best p => if best.2 < p.2 then p else best) x

/-- The grouping loop of `_dedup_mz_window`: scan the m/z-sorted peaks, a peak
joins the current group iff its m/z minus the m/z of the group's last element
is at most the tolerance. -/
def groupsLoop (tol : ℚ) (cur : List Peak) : List Peak → List (List Peak)
  | [] => [cur]
  | x :: xs =>
    if x.1 - (cur.getLastD (0, 0)).1 ≤ tol then groupsLoop tol (cur ++ [x]) xs
    else cur :: groupsLoop tol [x] xs

/-- `_dedup_mz_window`: sort by m/z, group adjacent peaks, keep each group's
apex.  Empty input returns empty arrays. -/
def dedup_mz_window (l : List Peak) (tol : ℚ) : List Peak :=
  match sortPeaksByMz l with
  | [] => []
  | x :: xs => ((groupsLoop tol [x] xs).map apexOf)

/-- The grouping rule described by the claim under test (C3): a peak joins the
current group iff its m/z differs from the group's FIRST element by at most
the tolerance. -/
def firstGroupsLoop (tol : ℚ) (cur : List Peak) : List Peak → List (List Peak)
  | [] => [cur]
  | x :: xs =>
    if x.1 - (cur.headD (0, 0)).1 ≤ tol then firstGroupsLoop tol (cur ++ [x]) xs
    else cur :: firstGroupsLoop tol [x] xs

/-- Claimed deduplication: grouping anchored at each group's first element. -/
def dedupByFirst (l : List Peak) (tol : ℚ) : List Peak :=
  match sortPeaksByMz l with
  | [] => []
  | x :: xs => ((firstGroupsLoop tol [x] xs).map apexOf)

/-- Reference grouping for the amended claim, built by a structurally different
recursion: break the sorted peak list before every peak whose m/z gap to the
immediately preceding peak exceeds the tolerance. -/
def gapSplit (tol : ℚ) : List Peak → List (List Peak)
  | [] => []
  | x :: xs =>
    match gapSplit tol xs with
    | [] => [[x]]
    | [] :: gs => [x] :: [] :: gs
    | (y :: g) :: gs =>
      if y.1 - x.1 ≤ tol then (x :: y :: g) :: gs else [x] :: (y :: g) :: gs

/-- Reference apex for the amended claim: the first peak of the group whose
intensity equals the group maximum. -/
def apexSpec (g : List Peak) : Peak :=
  (g.find? (fun p => p.2 = maxQ (g.map (·.2)))).getD (0, 0)

/-- Reference deduplication for the amended claim: gap-based grouping of the
sorted list, first-maximal-intensity peak of each group. -/
def dedupGapRef (l : List Peak) (tol : ℚ) : List Peak :=
  (gapSplit tol (sortPeaksByMz l)).map apexSpec

/-- The noise threshold:
`max(max_intensity * min_relative_intensity, min_absolute_intensity)`. -/
def thresholdOf (cfg : ProcCfg) (maxI : ℚ) : ℚ :=
  max (maxI * cfg.min_relative_intensity) cfg.min_absolute_intensity

/-- `keep_mask` / `kept_indices`: peaks (paired with their original indices)
whose intensity reaches the threshold, in ascending index order. -/
def keptStage (cfg : ProcCfg) (cl : List Peak) : List (ℕ × Peak) :=
  cl.enum.filter (fun q => thresholdOf cfg (maxQ (cl.map (·.2))) ≤ q.2.2)

/-- The top-N cap: when more than `max_peaks` peaks survive, keep the
`max_peaks` of highest intensity (stable ascending argsort by intensity,
reversed, truncated) and restore ascending index order. -/
def capStage (cfg : ProcCfg) (kept : List (ℕ × Peak)) : List (ℕ × Peak) :=
  match cfg.max_peaks with
  | some n =>
    if n < kept.length then
      List.insertionSort posLe (((List.insertionSort intPosLe kept).reverse).take n)
    else kept
  | none => kept

/-- The optional m/z-window deduplication step. -/
def dedupStage (cfg : ProcCfg) (l : List Peak) : List Peak :=
  match cfg.mz_dedup_tolerance with
  | some tol => if 0 < tol then dedup_mz_window l tol else l
  | none => l

/-- The surviving peak list before renormalization. -/
def survivors (cfg : ProcCfg) (cl : List Peak) : List Peak :=
  dedupStage cfg ((capStage cfg (keptStage cfg cl)).map (·.2))

/-- The no-op test: same count as the cleaned input and `np.allclose` m/z. -/
def unchangedB (np cl : List Peak) : Prop :=
  np.length = cl.length ∧ allcloseB (np.map (·.1)) (cl.map (·.1)) = true

instance : ∀ np cl, Decidable (unchangedB np cl) := fun np cl => by
  unfold unchangedB; infer_instance

/-- Renormalization of retained intensities by the maximum kept intensity
(`if new_intensities.size: ... if max_kept > 0: divide`; an empty list has
`maxQ` 0 and is left unchanged, like the source's size guard). -/
def renormStage (l : List Peak) : List Peak :=
  if 0 < maxQ (l.map (·.2)) then l.map (fun p => (p.1, p.2 / maxQ (l.map (·.2)))) else l

/-- `SpectrumProcessor.filter_noise`.  Raising `ValueError` is modelled by
`Except.error`; every `return` of a clone or a freshly built `Spectrum` is an
`Except.ok`. -/
def filter_noise (cfg : ProcCfg) (s : Spec) : Except String Spec :=
  if s.peaks.isEmpty then .ok s
  else if (clean s).isEmpty then .ok ⟨[], s.meta⟩
  else if (clean s).any (fun p => p.2 < 0) then
    .error "Negative intensity values are not allowed"
  else if maxQ ((clean s).map (·.2)) = 0 then .ok s
  else if (capStage cfg (keptStage cfg (clean s))).isEmpty then .ok ⟨[], s.meta⟩
  else if unchangedB (survivors cfg (clean s)) (clean s) then .ok s
  else
    .ok ⟨(sortPeaksByMz (renormStage (survivors cfg (clean s)))).map (fun p => (p.1, some p.2)),
      s.meta⟩

/-- `SpectrumProcessor.normalize`: optional TIC or base-peak normalization
after dropping NaN peaks and rejecting negative intensities.  In the basepeak
branch a nonempty spectrum whose peaks are all NaN reaches `np.max` on an
empty array, which raises an unguarded `ValueError` (the TIC branch survives
this case because `np.sum` of an empty array is `0.0`). -/
def normalize (cfg : ProcCfg) (s : Spec) : Except String Spec :=
  if s.peaks.isEmpty then .ok s
  else if (clean s).any (fun p => p.2 < 0) then
    .error "Negative intensity values are not allowed"
  else
    match cfg.normalization with
    | some .tic =>
      if ((clean s).map (·.2)).sum = 0 then .ok s
      else .ok ⟨(clean s).map (fun p => (p.1, some (p.2 / ((clean s).map (·.2)).sum))), s.meta⟩
    | some .basepeak =>
      if (clean s).isEmpty then
        .error "zero-size array to reduction operation maximum which has no identity"
      else if maxQ ((clean s).map (·.2)) = 0 then .ok s
      else .ok ⟨(clean s).map (fun p => (p.1, some (p.2 / maxQ ((clean s).map (·.2))))), s.meta⟩
    | none => .ok ⟨(clean s).map (fun p => (p.1, some p.2)), s.meta⟩

/-- `SpectrumProcessor.process` with `reference_mz = None`: optional
normalization first, then noise filtering. -/
def process (cfg : ProcCfg) (s : Spec) : Except String Spec :=
  match cfg.normalization with
  | some _ => normalize cfg s >>= filter_noise cfg
  | none => filter_noise cfg s

/-- Maximum intensity of a spectrum, over its non-NaN peaks. -/
def maxIntensity (s : Spec) : ℚ := maxQ ((clean s).map (·.2))

end Processing

namespace Metrics

open Processing (Peak)

/-- Round to the nearest integer, ties to even (IEEE / `np.round` semantics). -/
def roundHalfEven (q : ℚ) : ℤ :=
  let f := ⌊q⌋
  if q - f < 1/2 then f
  else if 1/2 < q - f then f + 1
  else if f % 2 = 0 then f else f + 1

/-- `np.round(x, decimals=3)`: banker's rounding at the third decimal. -/
def round3 (q : ℚ) : ℚ := (roundHalfEven (q * 1000) : ℚ) / 1000

/-- Add `v` to key `k` of a Python-dict association list
(`vec[mass] = vec.get(mass, 0.0) + intensity`): update the existing binding
or append a fresh one. -/
def addTo : List (ℚ × ℚ) → ℚ → ℚ → List (ℚ × ℚ)
  | [], k, v => [(k, v)]
  | (k1, v1) :: rest, k, v =>
    if k1 = k then (k1, v1 + v) :: rest else (k1, v1) :: addTo rest k v

/-- `_spectrum_to_vector_map` with the default 3 decimals: the
`{rounded_mz: summed intensity}` dictionary, in first-encounter key order. -/
def vecMap (peaks : List Peak) : List (ℚ × ℚ) :=
  peaks.foldl (fun m p => addTo m (round3 p.1) p.2) []

/-- Dictionary lookup with default `0.0` (`a.get(k, 0.0)`). -/
def lookupQ (m : List (ℚ × ℚ)) (k : ℚ) : ℚ :=
  ((m.find? (fun e => e.1 = k)).map (·.2)).getD 0

/-- Sorted union of the key sets of two maps (`sorted(set(a) | set(b))`). -/
def unionKeys (a b : List (ℚ × ℚ)) : List ℚ :=
  List.insertionSort (· ≤ ·) ((a.map (·.1)) ++ (b.map (·.1))).dedup

/-- Dot product of the two maps over the union of their keys. -/
def dotQ (a b : List (ℚ × ℚ)) : ℚ :=
  ((unionKeys a b).map (fun k => lookupQ a k * lookupQ b k)).sum

/-- Squared L2 norm of a map's values, laid out over the union keys as in
`_cosine_from_maps` (keys outside the map contribute 0). -/
def normSqQ (a b : List (ℚ × ℚ)) (m : List (ℚ × ℚ)) : ℚ :=
  ((unionKeys a b).map (fun k => lookupQ m k * lookupQ m k)).sum

/-- `_cosine_from_maps`: 0 for an empty map or a zero denominator, otherwise
the dot product divided by the product of the L2 norms. -/
noncomputable def cosine_from_maps (a b : List (ℚ × ℚ)) : ℝ :=
  if a = [] ∨ b = [] then 0
  else if normSqQ a b a * normSqQ a b b = 0 then 0
  else (dotQ a b : ℝ) / (Real.sqrt (normSqQ a b a) * Real.sqrt (normSqQ a b b))

/-- `cosine_similarity`: the plain cosine of two spectra, computed on the
rounded-m/z binned maps.  The `tolerance` argument of the source is unused. -/
noncomputable def cosine_similarity (a b : List Peak) : ℝ :=
  cosine_from_maps (vecMap a) (vecMap b)

/-- Follows the words of the spec (§4.2, Simple binned cosine): round every
m/z to 3 decimals, sum colliding intensities per key. -/
def specVal (peaks : List Peak) (k : ℚ) : ℚ :=
  ((peaks.filter (fun p => round3 p.1 = k)).map (·.2)).sum

/-- Follows the words of the spec: the distinct rounded-m/z keys of a
spectrum. -/
def specKeys (peaks : List Peak) : List ℚ :=
  (peaks.map (fun p => round3 p.1)).dedup

/-- Follows the words of the spec: squared L2 norm of a binned sparse map. -/
def specNormSq (peaks : List Peak) : ℚ :=
  ((specKeys peaks).map (fun k => specVal peaks k * specVal peaks k)).sum

/-- Follows the words of the spec (§4.2, Simple binned cosine): dot product
over the union of keys divided by the product of L2 norms, 0 if either norm
is 0. -/
noncomputable def binnedCosineSpec (a b : List Peak) : ℝ :=
  if specNormSq a = 0 ∨ specNormSq b = 0 then 0
  else
    (((specKeys a ++ specKeys b).dedup.map (fun k => specVal a k * specVal b k)).sum : ℝ) /
      (Real.sqrt (specNormSq a) * Real.sqrt (specNormSq b))

/-- Candidate peak pairs of the spec's greedy matching (§4.2, step 2): all
index pairs (i, j) with `|mz_A[i] - mz_B[j]| ≤ τ`, plain (unshifted) case. -/
def greedyCandidates (a b : List Peak) (tol : ℚ) : List ((ℕ × Peak) × (ℕ × Peak)) :=
  a.enum.flatMap (fun p => (b.enum.filter (fun q => |p.2.1 - q.2.1| ≤ tol)).map (fun q => (p, q)))

/-- Spec ordering of candidate pairs (§4.2, step 4): descending pair score
`intensity_A[i] * intensity_B[j]`, ties by ascending i then ascending j. -/
def candLe (x y : (ℕ × Peak) × (ℕ × Peak)) : Prop :=
  y.1.2.2 * y.2.2.2 < x.1.2.2 * x.2.2.2 ∨
    (y.1.2.2 * y.2.2.2 = x.1.2.2 * x.2.2.2 ∧
      (x.1.1 < y.1.1 ∨ (x.1.1 = y.1.1 ∧ x.2.1 ≤ y.2.1)))

instance : DecidableRel candLe := fun a b => by unfold candLe; infer_instance

/-- Greedy acceptance (§4.2, step 5): accept in order, skipping any pair whose
i or j index is already used. -/
def greedyAccept : List ((ℕ × Peak) × (ℕ × Peak)) → List ℕ → List ℕ →
    List ((ℕ × Peak) × (ℕ × Peak))
  | [], _, _ => []
  | c :: rest, usedI, usedJ =>
    if c.1.1 ∈ usedI ∨ c.2.1 ∈ usedJ then greedyAccept rest usedI usedJ
    else c :: greedyAccept rest (c.1.1 :: usedI) (c.2.1 :: usedJ)

/-- Accepted pairs of the spec's greedy peak matching, plain-cosine case. -/
def greedyPairs (a b : List Peak) (tol : ℚ) : List ((ℕ × Peak) × (ℕ × Peak)) :=
  greedyAccept (List.insertionSort candLe (greedyCandidates a b tol)) [] []

/-- The spec's greedy peak-matching similarity score (§4.2, step 6):
`Σ sqrt(intensity_A[i] * intensity_B[j])` over accepted pairs, divided by
`sqrt(Σ intensity_A[k]^2) * sqrt(Σ intensity_B[k]^2)`. -/
noncomputable def greedyScore (a b : List Peak) (tol : ℚ) : ℝ :=
  ((greedyPairs a b tol).map (fun c => Real.sqrt ((c.1.2.2 : ℝ) * c.2.2.2))).sum /
    (Real.sqrt (((a.map (fun p : Peak => p.2 * p.2)).sum : ℚ) : ℝ) *
      Real.sqrt (((b.map (fun p : Peak => p.2 * p.2)).sum : ℚ) : ℝ))

/-- Sparse string-keyed vector (Spec2Vec-style token weights). -/
abbrev Vec := List (String × ℚ)

/-- Lookup with default 0 in a sparse string-keyed vector. -/
def lookupS (m : Vec) (k : String) : ℚ :=
  ((m.find? (fun e => e.1 = k)).map (·.2)).getD 0

/-- Union of key sets of two sparse vectors (`set(vector_a) | set(vector_b)`,
as a deduplicated list; summation order is irrelevant to the value). -/
def unionKeyS (a b : Vec) : List String :=
  ((a.map (·.1)) ++ (b.map (·.1))).dedup

/-- Dot product of two sparse vectors over the union of their keys. -/
def dotS (a b : Vec) : ℚ := ((unionKeyS a b).map (fun k => lookupS a k * lookupS b k)).sum

/-- Squared L2 norm of a sparse vector (`sum(value * value)`). -/
def normSqS (a : Vec) : ℚ := (a.map (fun e => e.2 * e.2)).sum

/-- Exact representation of a cosine score: a pair `(d, n)` with `n > 0`
denoting the real number `d / sqrt n`.  `cosine_from_vectors` values are of
this shape with `d` the dot product and `n` the product of the squared
norms; the source's early-exit zeros are represented as `(0, 1)`. -/
def Score : Type := { p : ℚ × ℚ // 0 < p.2 }

instance : DecidableEq Score := by unfold Score; infer_instance

/-- The real number denoted by an exact score. -/
noncomputable def Score.val (s : Score) : ℝ := (s.1.1 : ℝ) / Real.sqrt s.1.2

/-- The exact score `q / sqrt 1 = q` of a plain rational threshold. -/
def Score.ofQ (q : ℚ) : Score := ⟨(q, 1), one_pos⟩

/-- Decidable comparison of exact scores, by sign analysis and
cross-multiplied squares. -/
def Score.le (x y : Score) : Prop :=
  (x.1.1 ≤ 0 ∧ 0 ≤ y.1.1) ∨
    (0 < x.1.1 ∧ 0 < y.1.1 ∧ x.1.1 * x.1.1 * y.1.2 ≤ y.1.1 * y.1.1 * x.1.2) ∨
    (x.1.1 < 0 ∧ y.1.1 < 0 ∧ y.1.1 * y.1.1 * x.1.2 ≤ x.1.1 * x.1.1 * y.1.2)

instance : DecidableRel Score.le := fun a b => by unfold Score.le; infer_instance

/-- `cosine_from_vectors` as an exact score: 0 for empty inputs or a zero
denominator, otherwise `dot / sqrt(normSq_a * normSq_b)`. -/
def cosine_from_vectors (a b : Vec) : Score :=
  if a = [] ∨ b = [] then Score.ofQ 0
  else if h : normSqS a * normSqS b = 0 then Score.ofQ 0
  else ⟨(dotS a b, normSqS a * normSqS b), by
    rcases lt_trichotomy (normSqS a * normSqS b) 0 with hlt | heq | hgt
    · exact absurd hlt (not_lt.mpr (mul_nonneg
        (List.sum_nonneg (by intro q hq; simp only [List.mem_map] at hq
                             obtain ⟨e, _, rfl⟩ := hq; exact mul_self_nonneg _))
        (List.sum_nonneg (by intro q hq; simp only [List.mem_map] at hq
                             obtain ⟨e, _, rfl⟩ := hq; exact mul_self_nonneg _))))
    · exact absurd heq h
    · exact hgt⟩

/-- Strict version of the exact-score comparison. -/
def Score.lt (x y : Score) : Prop := Score.le x y ∧ ¬ Score.le y x

instance : DecidableRel Score.lt := fun a b => by unfold Score.lt; infer_instance

end Metrics

/-- All ordered pairs (i, j) with i before j, in double-loop order
(`for idx ...: for jdx in range(idx + 1, ...)`). -/
def orderedPairs {α : Type} : List α → List (α × α)
  | [] => []
  | x :: xs => (xs.map (fun y => (x, y))) ++ orderedPairs xs

/-! String primitives.  Python string comparison, lowering, splitting and
integer parsing are modelled structurally over the character list, which the
CPython semantics (code-point lexicographic order, ASCII case mapping)
match. -/

/-- Lexicographic comparison of character lists (Python `str <=`). -/
def charsLe : List Char → List Char → Bool
  | [], _ => true
  | _ :: _, [] => false
  | a :: as, b :: bs => if a < b then true else if b < a then false else charsLe as bs

/-- Python `<=` on strings. -/
def strLe (x y : String) : Prop := charsLe x.data y.data = true

instance : DecidableRel strLe := fun a b => by unfold strLe; infer_instance

/-- Python `<` on strings. -/
def strLt (x y : String) : Prop := ¬ charsLe y.data x.data = true

instance : DecidableRel strLt := fun a b => by unfold strLt; infer_instance

/-- ASCII lower-casing of one character (`str.lower` on the identifiers the
source handles). -/
def asciiLower (c : Char) : Char :=
  if 65 ≤ c.toNat ∧ c.toNat ≤ 90 then Char.ofNat (c.toNat + 32) else c

/-- `str.lower`. -/
def lowerStr (s : String) : String := ⟨s.data.map asciiLower⟩

/-- `text.split(".")` over the character list. -/
def splitOnDot : List Char → List (List Char)
  | [] => [[]]
  | c :: cs =>
    if c = '.' then [] :: splitOnDot cs
    else
      match splitOnDot cs with
      | [] => [[c]]
      | p :: ps => (c :: p) :: ps

/-- Python `int(part)` on a digit string: an optional sign followed by at
least one decimal digit; anything else raises (modelled as `none`). -/
def parseIntChars (cs : List Char) : Option ℤ :=
  let digits : List Char → Option ℕ := fun ds =>
    if ds = [] then none
    else if ds.all (fun d => '0' ≤ d ∧ d ≤ '9') then
      some (ds.foldl (fun acc d => 10 * acc + (d.toNat - 48)) 0)
    else none
  match cs with
  | '-' :: rest => (digits rest).map (fun n => -(n : ℤ))
  | '+' :: rest => (digits rest).map (fun n => (n : ℤ))
  | _ => (digits cs).map (fun n => (n : ℤ))

namespace Backends

open Metrics

/-- `LibraryEntry`: stored spectrum with a precomputed sparse vector.
Metadata values are modelled as string lists, enough to hold the only
metadata value curation writes (`merged_ids`). -/
structure LibraryEntry where
  identifier : String
  precursor_mz : Option ℚ
  metadata : List (String × List String)
  vector : Vec
deriving DecidableEq, Inhabited, Repr

/-- `SearchHit`: an entry together with its cosine score. -/
structure SearchHit where
  entry : LibraryEntry
  score : Score
deriving DecidableEq

/-- Order modelling `hits.sort(key=lambda item: item.score, reverse=True)`:
a stable descending sort, i.e. sort by (score descending, position
ascending). -/
def hitDescLe (a b : ℕ × SearchHit) : Prop :=
  Score.lt b.2.score a.2.score ∨
    (Score.le a.2.score b.2.score ∧ Score.le b.2.score a.2.score ∧ a.1 ≤ b.1)

instance : DecidableRel hitDescLe := fun a b => by unfold hitDescLe; infer_instance

/-- `NaiveSpectrumIndex.query`: score every stored entry, keep scores at least
`min_score`, sort stably by descending score, truncate to `top_n`. -/
def NaiveSpectrumIndex.query (entries : List LibraryEntry) (vector : Vec)
    (top_n : ℕ) (min_score : ℚ) : List SearchHit :=
  let hits := (entries.map (fun e => SearchHit.mk e (cosine_from_vectors e.vector vector))).filter
    (fun h => Score.le (Score.ofQ min_score) h.score)
  ((List.insertionSort hitDescLe hits.enum).map (·.2)).take top_n

/-- The index implementations that `create_index_backend` can construct. -/
inductive BackendKind | naive | annoy
deriving DecidableEq, Repr

/-- The `name` attribute of a backend class. -/
def BackendKind.name : BackendKind → String
  | .naive => "naive"
  | .annoy => "annoy"

/-- `create_index_backend` selection logic.  `annoyAvailable` models whether
the optional `annoy` import succeeds; the `faiss` branch logs a warning and
builds a `NaiveSpectrumIndex`. -/
def create_index_backend (nm : String) (annoyAvailable : Bool) : Except String BackendKind :=
  let normalized := lowerStr nm
  if normalized = "naive" then .ok .naive
  else if normalized = "annoy" then
    if annoyAvailable then .ok .annoy
    else .error "Annoy backend requires annoy; install with pip install yogimass[annoy]."
  else if normalized = "faiss" then .ok .naive
  else .error ("Unsupported search backend: " ++ nm)

/-- `LocalSpectralLibrary.search` with the default naive backend: it builds a
`NaiveSpectrumIndex` over `iter_entries()` (adding entries in storage order)
and delegates to its `query`. -/
def LocalSpectralLibrary.search (entries : List LibraryEntry) (vector : Vec)
    (top_n : ℕ) (min_score : ℚ) : List SearchHit :=
  NaiveSpectrumIndex.query entries vector top_n min_score

/-- Concrete entry used to witness the search-ordering theorem. -/
def exEntryA : LibraryEntry :=
  { identifier := "a", precursor_mz := none, metadata := [], vector := [("x", 1)] }

end Backends

namespace Library

/-- A stored entry record, abstracted to its identifier: the per-field
reconstruction done by `_iter_json_entries` is irrelevant to schema-version
behaviour. -/
abbrev EntryRec := String

/-- Shapes a parsed JSON library document can take, as distinguished by
`_json_entries` and `read_schema_version`: a bare list of records, a dict
with optional `schema_version` and `entries` keys, or anything else. -/
inductive JsonDoc
  | list (entries : List EntryRec)
  | dict (schema_version : Option String) (entries : Option (List EntryRec))
  | other
deriving DecidableEq

/-- The module-level `SCHEMA_VERSION` constant. -/
def SCHEMA_VERSION : String := "1.0"

/-- `_json_entries`: extract the record list from a parsed document. -/
def json_entries : JsonDoc → List EntryRec
  | .list es => es
  | .dict _ (some es) => es
  | .dict _ none => []
  | .other => []

/-- `_iter_json_entries`: read a document and yield a `LibraryEntry` per
record.  No schema-version inspection happens on this path. -/
def iter_json_entries (doc : JsonDoc) : List EntryRec := json_entries doc

/-- `_write_json`: wrap the records in a payload carrying `SCHEMA_VERSION`. -/
def write_json (records : List EntryRec) : JsonDoc :=
  .dict (some SCHEMA_VERSION) (some records)

/-- `read_schema_version` (from `library_io.py`), JSON branch: the
`schema_version` key of a dict document, `None` otherwise. -/
def read_schema_version : JsonDoc → Option String
  | .dict v _ => v
  | _ => none

/-- `_parse_version`: split on dots, parse each part as an integer, parts
that fail to parse become 0. -/
def parse_version (text : String) : List ℤ :=
  (splitOnDot text.data).map (fun part => (parseIntChars part).getD 0)

/-- Python tuple `<` on the parsed version tuples (lexicographic, a strict
prefix is smaller). -/
def tupLt : List ℤ → List ℤ → Bool
  | _, [] => false
  | [], _ :: _ => true
  | a :: as, b :: bs => if a < b then true else if b < a then false else tupLt as bs

/-- `assert_schema_compatible`: accept documents without a version, reject
documents whose parsed version is strictly older than the parsed minimum. -/
def assert_schema_compatible (doc : JsonDoc) (minimum_version : String) : Except String Unit :=
  match read_schema_version doc with
  | none => .ok ()
  | some v =>
    if tupLt (parse_version v) (parse_version minimum_version) then
      .error ("Library schema version " ++ v ++ " is older than supported minimum "
        ++ minimum_version ++ ".")
    else .ok ()

end Library

namespace Network

open Metrics

/-- A graph node; of its fields only the identifier is consumed by the edge
builders themselves (the rest feeds `_compute_similarity`, which is
abstracted as the `sim` parameter below). -/
structure SpectrumNode where
  identifier : String
deriving DecidableEq, Repr

/-- `SimilarityEdge`. -/
structure SimilarityEdge where
  source : String
  target : String
  similarity : Score
  metric : String
deriving DecidableEq

/-- `tuple(sorted((source, target)))`. -/
def sortPairStr (a b : String) : String × String := if strLe a b then (a, b) else (b, a)

/-- `_edge_key`: the unordered pair when undirected, the oriented pair
otherwise. -/
def edge_key (src tgt : String) (undirected : Bool) : String × String :=
  if undirected then sortPairStr src tgt else (src, tgt)

/-- The shared seen-pairs emission loop of `_threshold_edges` and
`_knn_edges`: emit an edge per candidate whose key is unseen, recording the
key.  Candidate generation in the source never consults `seen_pairs`, so
flattening the loops into one candidate list preserves behaviour exactly. -/
def dedupEmit (metric : String) (undirected : Bool) :
    List (String × String × Score) → List (String × String) → List SimilarityEdge
  | [], _ => []
  | (s, t, sc) :: rest, seen =>
    if edge_key s t undirected ∈ seen then dedupEmit metric undirected rest seen
    else
      { source := if undirected then (edge_key s t undirected).1 else s,
        target := if undirected then (edge_key s t undirected).2 else t,
        similarity := sc, metric := metric } ::
        dedupEmit metric undirected rest (edge_key s t undirected :: seen)

/-- `_threshold_edges`, parametric in the similarity function that
`_compute_similarity` dispatches to: every i < j pair scoring at least the
threshold, deduplicated through the seen-pairs set. -/
def threshold_edges (nodes : List SpectrumNode) (sim : SpectrumNode → SpectrumNode → Score)
    (metric : String) (threshold : ℚ) (undirected : Bool) : List SimilarityEdge :=
  dedupEmit metric undirected
    ((orderedPairs nodes).filterMap (fun pr =>
      let sc := sim pr.1 pr.2
      if Score.le (Score.ofQ threshold) sc then some (pr.1.identifier, pr.2.identifier, sc)
      else none)) []

/-- Order modelling `scores.sort(key=lambda item: item[1], reverse=True)`:
stable descending by score. -/
def knnLe (a b : ℕ × (String × Score)) : Prop :=
  Score.lt b.2.2 a.2.2 ∨ (Score.le a.2.2 b.2.2 ∧ Score.le b.2.2 a.2.2 ∧ a.1 ≤ b.1)

instance : DecidableRel knnLe := fun a b => by unfold knnLe; infer_instance

/-- `_knn_edges`, parametric in the similarity function: per node, score all
other nodes (by index, so a node is never compared to itself), sort stably by
descending score, take the k best, drop non-positive scores, then emit
through the shared seen-pairs set. -/
def knn_edges (nodes : List SpectrumNode) (sim : SpectrumNode → SpectrumNode → Score)
    (metric : String) (k : ℕ) (undirected : Bool) : Except String (List SimilarityEdge) :=
  if k = 0 then .error "k-NN mode requires k greater than 0."
  else .ok (dedupEmit metric undirected
    (nodes.enum.flatMap (fun p =>
      let scores := (nodes.enum.filter (fun q => q.1 ≠ p.1)).map
        (fun q => (q.2.identifier, sim p.2 q.2))
      (((List.insertionSort knnLe scores.enum).map (·.2)).take k).filterMap
        (fun ts => if Score.le ts.2 (Score.ofQ 0) then none
                   else some (p.2.identifier, ts.1, ts.2)))) [])

end Network

namespace Curation

open Metrics Backends

/-- `QualityThresholds` (defaults as in the source). -/
structure QualityThresholds where
  min_peaks : ℕ := 3
  min_total_ion_current : ℚ := 1/20
  max_single_peak_fraction : ℚ := 9/10
  require_precursor_mz : Bool := true
deriving DecidableEq, Repr

/-- `QualityResult` of `score_quality`. -/
structure QualityResult where
  identifier : String
  num_peaks : ℕ
  total_ion_current : ℚ
  max_intensity : ℚ
  single_peak_fraction : ℚ
  has_precursor : Bool
  issues : List String
  quality_score : ℚ
deriving DecidableEq, Inhabited, Repr

/-- `score_quality`: heuristics over the stored vector plus the quality
score formula, halved when the precursor is missing. -/
def score_quality (entry : LibraryEntry) (thresholds : QualityThresholds) : QualityResult :=
  let vector := entry.vector
  let num_peaks := vector.length
  let total_ion_current := (vector.map (·.2)).sum
  let max_intensity := maxQ (vector.map (·.2))
  let single_peak_fraction := if 0 < total_ion_current then max_intensity / total_ion_current else 0
  let has_precursor := entry.precursor_mz.isSome
  let issues :=
    (if thresholds.require_precursor_mz && !has_precursor then ["missing_precursor_mz"] else []) ++
    (if num_peaks < thresholds.min_peaks then ["too_few_peaks"] else []) ++
    (if total_ion_current < thresholds.min_total_ion_current then ["low_total_ion_current"] else []) ++
    (if thresholds.max_single_peak_fraction < single_peak_fraction then ["single_peak_dominance"] else [])
  let qs := (total_ion_current + 1) * (1 - single_peak_fraction) *
    (1 + (num_peaks : ℚ) / ((max thresholds.min_peaks 1 : ℕ) : ℚ))
  { identifier := entry.identifier, num_peaks := num_peaks,
    total_ion_current := total_ion_current, max_intensity := max_intensity,
    single_peak_fraction := single_peak_fraction, has_precursor := has_precursor,
    issues := issues,
    quality_score := if has_precursor then qs else qs * (1/2) }

/-- The adjacency admission test of `detect_duplicate_groups`: both entries
carry a precursor and a nonempty vector, precursor gap within tolerance,
cosine at least the similarity threshold. -/
def admissible (precursor_tolerance similarity_threshold : ℚ) (l r : LibraryEntry) : Bool :=
  match l.precursor_mz, r.precursor_mz with
  | some pl, some pr =>
    l.vector ≠ [] && r.vector ≠ [] && decide (|pl - pr| ≤ precursor_tolerance) &&
      decide (Score.le (Score.ofQ similarity_threshold) (cosine_from_vectors l.vector r.vector))
  | _, _ => false

/-- `adjacency[id].add(nid)` over an association-list adjacency map. -/
def addNeighbor (adj : List (String × List String)) (id nid : String) :
    List (String × List String) :=
  adj.map (fun kv => if kv.1 = id then (kv.1, kv.2 ++ [nid]) else kv)

/-- The adjacency map of `detect_duplicate_groups`: one (initially empty)
bucket per entry in input order, with both directions of every admissible
i < j pair added. -/
def buildAdjacency (entries : List LibraryEntry) (precursor_tolerance similarity_threshold : ℚ) :
    List (String × List String) :=
  (orderedPairs entries).foldl
    (fun adj pr =>
      if admissible precursor_tolerance similarity_threshold pr.1 pr.2 then
        addNeighbor (addNeighbor adj pr.1.identifier pr.2.identifier) pr.2.identifier pr.1.identifier
      else adj)
    (entries.map (fun e => (e.identifier, ([] : List String))))

/-- `adjacency[current]` lookup (empty list for an unknown key). -/
def adjLookup (adj : List (String × List String)) (id : String) : List String :=
  ((adj.find? (fun kv => kv.1 = id)).map (·.2)).getD []

/-- The inner `while stack:` DFS of `detect_duplicate_groups`.  The loop is
fueled: callers pass fuel exceeding the maximal number of iterations (each
iteration pops one element, and at most `1 + total adjacency size` elements
are ever pushed per call, since a node's neighbours are pushed only on its
first visit).  Running out of fuel returns the state reached so far. -/
def dfsLoop (adj : String → List String) :
    ℕ → List String → List String → List String → List String × List String
  | 0, _, visited, comp => (visited, comp)
  | _ + 1, [], visited, comp => (visited, comp)
  | fuel + 1, current :: stack, visited, comp =>
    if current ∈ visited then dfsLoop adj fuel stack visited comp
    else dfsLoop adj fuel (((adj current).filter (fun x => ¬ x ∈ visited)).reverse ++ stack)
      (current :: visited) (current :: comp)

/-- The outer `for node, neighbors in adjacency.items():` loop: start a DFS
at each unvisited node with a nonempty neighbour set, keep the sorted
component when it has more than one element. -/
def componentsLoop (adj : String → List String) (fuel : ℕ) :
    List (String × List String) → List String → List (List String)
  | [], _ => []
  | (node, neighbors) :: rest, visited =>
    if node ∈ visited ∨ neighbors = [] then componentsLoop adj fuel rest visited
    else
      let r := dfsLoop adj fuel [node] visited []
      if 1 < r.2.length then
        (List.insertionSort strLe r.2) :: componentsLoop adj fuel rest r.1
      else componentsLoop adj fuel rest r.1

/-- `detect_duplicate_groups`: connected components of size above 1 of the
admissibility graph, each sorted. -/
def detect_duplicate_groups (entries : List LibraryEntry)
    (precursor_tolerance similarity_threshold : ℚ) : List (List String) :=
  let adjacency := buildAdjacency entries precursor_tolerance similarity_threshold
  let fuel := (adjacency.map (fun kv => kv.2.length)).sum + entries.length + 2
  componentsLoop (adjLookup adjacency) fuel adjacency []

/-- Curation decision actions. -/
inductive DecisionAction | keep | drop | merge
deriving DecidableEq, Repr

/-- `CurationDecision`. -/
structure CurationDecision where
  identifier : String
  action : DecisionAction
  reason : Option String := none
  representative : Option String := none
  merged_ids : Option (List String) := none
  quality_score : Option ℚ := none
deriving DecidableEq, Repr

/-- `DuplicateGroup`. -/
structure DuplicateGroup where
  representative : String
  members : List String
deriving DecidableEq, Repr

/-- The summary dict of `curate_entries` (fixed-parameter echo fields and the
drop-reason histogram omitted). -/
structure CurationSummary where
  total : ℕ
  kept : ℕ
  dropped : ℕ
  merged_groups : ℕ
  merged_entries : ℕ
deriving DecidableEq, Repr

/-- `CurationResult` (the per-entry quality dict is reproducible from
`score_quality` and is omitted). -/
structure CurationResult where
  curated_entries : List LibraryEntry
  decisions : List CurationDecision
  duplicate_groups : List DuplicateGroup
  summary : CurationSummary
deriving DecidableEq, Repr

/-- The sort key of `_choose_representative`:
`(quality_score, total_ion_current, num_peaks, identifier)`. -/
def repKey (q : QualityResult) (id : String) : ℚ × ℚ × ℕ × String :=
  (q.quality_score, q.total_ion_current, q.num_peaks, id)

/-- Strict lexicographic order on representative keys (Python tuple `<` on
equal-length 4-tuples). -/
def repKeyLt (a b : ℚ × ℚ × ℕ × String) : Prop :=
  a.1 < b.1 ∨ (a.1 = b.1 ∧ (a.2.1 < b.2.1 ∨ (a.2.1 = b.2.1 ∧
    (a.2.2.1 < b.2.2.1 ∨ (a.2.2.1 = b.2.2.1 ∧ strLt a.2.2.2 b.2.2.2)))))

instance : DecidableRel repKeyLt := fun a b => by unfold repKeyLt; infer_instance

/-- `_choose_representative`: Python `max` with the tuple key, which returns
the first element attaining the maximum (`none` models the `ValueError` on an
empty group, which `curate_entries` never triggers). -/
def choose_representative (qual : String → QualityResult) :
    List LibraryEntry → Option LibraryEntry
  | [] => none
  | x :: xs => some (xs.foldl
      (fun best e =>
        if repKeyLt (repKey (qual best.identifier) best.identifier)
            (repKey (qual e.identifier) e.identifier) then e else best) x)

/-- `metadata["merged_ids"] = v` over the association-list metadata model. -/
def setMeta (m : List (String × List String)) (k : String) (v : List String) :
    List (String × List String) :=
  if m.any (fun kv => kv.1 = k) then m.map (fun kv => if kv.1 = k then (k, v) else kv)
  else m ++ [(k, v)]

/-- Accumulated output of the duplicate-group loop of `curate_entries`. -/
structure GroupAcc where
  curated : List LibraryEntry
  decisions : List CurationDecision
  dupGroups : List DuplicateGroup
  handled : List String
deriving DecidableEq

/-- The `for group_ids in duplicate_groups_ids:` loop of `curate_entries`:
pick representatives, tag their metadata, emit keep and merge decisions. -/
def groupStage (entries : List LibraryEntry) (qual : String → QualityResult) :
    List (List String) → GroupAcc
  | [] => ⟨[], [], [], []⟩
  | g :: gs =>
    let group_entries := g.filterMap (fun id => entries.find? (fun e => e.identifier = id))
    let rep := (choose_representative qual group_entries).getD default
    let merged_ids := (group_entries.map (·.identifier)).filter (fun id => id ≠ rep.identifier)
    let metadata :=
      if merged_ids ≠ [] then
        setMeta rep.metadata "merged_ids"
          (List.insertionSort strLe (rep.identifier :: merged_ids))
      else rep.metadata
    let repDecision : CurationDecision :=
      { identifier := rep.identifier, action := .keep,
        representative := some rep.identifier,
        merged_ids := some (List.insertionSort strLe merged_ids),
        quality_score := some (qual rep.identifier).quality_score,
        reason := if merged_ids ≠ [] then some "representative_duplicate" else none }
    let mergeDecisions := merged_ids.map (fun mid =>
      ({ identifier := mid, action := .merge, representative := some rep.identifier,
         reason := some "duplicate",
         quality_score := some (qual mid).quality_score } : CurationDecision))
    let rest := groupStage entries qual gs
    ⟨{ rep with metadata := metadata } :: rest.curated,
      repDecision :: (mergeDecisions ++ rest.decisions),
      ⟨rep.identifier, List.insertionSort strLe g⟩ :: rest.dupGroups,
      g ++ rest.handled⟩

/-- The `quality_results` dictionary of `curate_entries`, as a lookup
function (default is never reached on the identifiers the code queries). -/
def qualOf (entries : List LibraryEntry) (thresholds : QualityThresholds) :
    String → QualityResult :=
  fun id => (((entries.map (fun e => (e.identifier, score_quality e thresholds))).find?
    (fun kv => kv.1 = id)).map (·.2)).getD default

/-- The `drop_ids` set of `curate_entries`: identifiers of entries with at
least one quality issue (Python set iteration modelled in entry order). -/
def drop_ids (entries : List LibraryEntry) (thresholds : QualityThresholds) : List String :=
  (entries.filter (fun e => (score_quality e thresholds).issues ≠ [])).map (·.identifier)

/-- The `candidates` list of `curate_entries`. -/
def candidates (entries : List LibraryEntry) (thresholds : QualityThresholds) :
    List LibraryEntry :=
  entries.filter (fun e => ¬ e.identifier ∈ drop_ids entries thresholds)

/-- The duplicate groups computed by `curate_entries`. -/
def groupsOf (entries : List LibraryEntry) (thresholds : QualityThresholds)
    (precursor_tolerance similarity_threshold : ℚ) : List (List String) :=
  detect_duplicate_groups (candidates entries thresholds)
    precursor_tolerance similarity_threshold

/-- The accumulated output of the duplicate-group loop of `curate_entries`. -/
def groupAcc (entries : List LibraryEntry) (thresholds : QualityThresholds)
    (precursor_tolerance similarity_threshold : ℚ) : GroupAcc :=
  groupStage entries (qualOf entries thresholds)
    (groupsOf entries thresholds precursor_tolerance similarity_threshold)

/-- The entries kept by the second (`keep`) loop of `curate_entries`. -/
def passEntries (entries : List LibraryEntry) (thresholds : QualityThresholds)
    (precursor_tolerance similarity_threshold : ℚ) : List LibraryEntry :=
  entries.filter (fun e =>
    ¬ e.identifier ∈ (groupAcc entries thresholds
      precursor_tolerance similarity_threshold).handled ∧
    ¬ e.identifier ∈ drop_ids entries thresholds)

/-- `curate_entries` (thresholds and tolerances passed directly; the config
dict parsing that produces them is out of scope).  The drop-decision loop
iterates Python's `drop_ids` set, modelled in entry order. -/
def curate_entries (entries : List LibraryEntry) (thresholds : QualityThresholds)
    (precursor_tolerance similarity_threshold : ℚ) : CurationResult :=
  let qual := qualOf entries thresholds
  let ga := groupAcc entries thresholds precursor_tolerance similarity_threshold
  let pe := passEntries entries thresholds precursor_tolerance similarity_threshold
  let passDecisions := pe.map (fun e =>
    ({ identifier := e.identifier, action := .keep,
       quality_score := some (qual e.identifier).quality_score } : CurationDecision))
  let dropDecisions := (drop_ids entries thresholds).map (fun did =>
    ({ identifier := did, action := .drop,
       reason := some (String.intercalate ";" (qual did).issues),
       quality_score := some (qual did).quality_score } : CurationDecision))
  let curated := ga.curated ++ pe
  { curated_entries := curated,
    decisions := ga.decisions ++ passDecisions ++ dropDecisions,
    duplicate_groups := ga.dupGroups,
    summary :=
      { total := entries.length, kept := curated.length,
        dropped := (drop_ids entries thresholds).length,
        merged_groups := ga.dupGroups.length,
        merged_entries := (ga.dupGroups.map (fun dg => dg.members.length - 1)).sum } }

end Curation

/-! Helper lemmas about `maxQ`. -/

theorem foldl_max_init_le (xs : List ℚ) (a : ℚ) : a ≤ xs.foldl max a := by
  induction xs generalizing a with
  | nil => exact le_refl a
  | cons y ys ih => exact le_trans (le_max_left a y) (ih (max a y))

theorem foldl_max_mem_le {x : ℚ} (xs : List ℚ) (a : ℚ) (hx : x ∈ xs) : x ≤ xs.foldl max a := by
  induction xs generalizing a with
  | nil => cases hx
  | cons y ys ih =>
    rcases List.mem_cons.mp hx with rfl | hm
    · exact le_trans (le_max_right a x) (foldl_max_init_le ys (max a x))
    · exact ih (max a y) hm

theorem foldl_max_mem (xs : List ℚ) (a : ℚ) : xs.foldl max a ∈ a :: xs := by
  induction xs generalizing a with
  | nil => exact List.mem_singleton.mpr rfl
  | cons y ys ih =>
    have h := ih (max a y)
    rcases List.mem_cons.mp h with he | hm
    · rcases max_choice a y with h1 | h1
      · exact List.mem_cons.mpr (Or.inl (he.trans h1))
      · exact List.mem_cons.mpr (Or.inr (List.mem_cons.mpr (Or.inl (he.trans h1))))
    · exact List.mem_cons.mpr (Or.inr (List.mem_cons.mpr (Or.inr hm)))

theorem le_maxQ {x : ℚ} {l : List ℚ} (hx : x ∈ l) : x ≤ maxQ l := by
  cases l with
  | nil => cases hx
  | cons y ys =>
    rcases List.mem_cons.mp hx with rfl | hm
    · exact foldl_max_init_le ys x
    · exact foldl_max_mem_le ys y hm

theorem maxQ_mem {l : List ℚ} (h : l ≠ []) : maxQ l ∈ l := by
  cases l with
  | nil => exact absurd rfl h
  | cons y ys => exact foldl_max_mem ys y

theorem maxQ_cons_cons (a b : ℚ) (l : List ℚ) : maxQ (a :: b :: l) = maxQ (max a b :: l) := rfl

theorem maxQ_eq_of_mem_iff {l m : List ℚ} (hl : l ≠ []) (hm : m ≠ [])
    (h : ∀ x, x ∈ l ↔ x ∈ m) : maxQ l = maxQ m :=
  le_antisymm (le_maxQ ((h _).mp (maxQ_mem hl))) (le_maxQ ((h _).mpr (maxQ_mem hm)))

/-! Claim C3: the deduplication grouping rule. -/

namespace Processing

theorem gapSplit_cons (tol : ℚ) (x : Peak) (xs : List Peak) :
    ∃ g gs, gapSplit tol (x :: xs) = (x :: g) :: gs := by
  show ∃ g gs,
    (match gapSplit tol xs with
      | [] => [[x]]
      | [] :: gs => [x] :: [] :: gs
      | (y :: g) :: gs =>
        if y.1 - x.1 ≤ tol then (x :: y :: g) :: gs else [x] :: (y :: g) :: gs) = (x :: g) :: gs
  rcases gapSplit tol xs with _ | ⟨_ | ⟨y, g⟩, gs⟩
  · exact ⟨[], [], rfl⟩
  · exact ⟨[], [] :: gs, rfl⟩
  · by_cases h : y.1 - x.1 ≤ tol
    · exact ⟨y :: g, gs, by simp [h]⟩
    · exact ⟨[], (y :: g) :: gs, by simp [h]⟩

theorem groupsLoop_eq_gapSplit (tol : ℚ) :
    ∀ (xs pre : List Peak) (p : Peak),
      groupsLoop tol (pre ++ [p]) xs =
        match gapSplit tol (p :: xs) with
        | [] => [pre ++ [p]]
        | g :: gs => (pre ++ g) :: gs := by
  intro xs
  induction xs with
  | nil =>
    intro pre p
    show [pre ++ [p]] = _
    simp [gapSplit]
  | cons x xs ih =>
    intro pre p
    obtain ⟨g0, gs0, hx⟩ := gapSplit_cons tol x xs
    have hlast : (pre ++ [p]).getLastD (0, 0) = p := by
      simp [List.getLastD_concat]
    show (if x.1 - ((pre ++ [p]).getLastD (0, 0)).1 ≤ tol then
            groupsLoop tol ((pre ++ [p]) ++ [x]) xs
          else (pre ++ [p]) :: groupsLoop tol [x] xs) = _
    have hsplit :
        gapSplit tol (p :: x :: xs) =
          if x.1 - p.1 ≤ tol then (p :: x :: g0) :: gs0 else [p] :: (x :: g0) :: gs0 := by
      show (match gapSplit tol (x :: xs) with
        | [] => [[p]]
        | [] :: gs => [p] :: [] :: gs
        | (y :: g) :: gs =>
          if y.1 - p.1 ≤ tol then (p :: y :: g) :: gs else [p] :: (y :: g) :: gs) = _
      rw [hx]
    rw [hlast, hsplit]
    by_cases hle : x.1 - p.1 ≤ tol
    · rw [if_pos hle, if_pos hle]
      have := ih (pre ++ [p]) x
      rw [hx] at this
      rw [this]
      simp
    · rw [if_neg hle, if_neg hle]
      have := ih [] x
      rw [hx] at this
      simp at this
      rw [this]

theorem groupsLoop_singleton_eq (tol : ℚ) (x : Peak) (xs : List Peak) :
    groupsLoop tol [x] xs = gapSplit tol (x :: xs) := by
  obtain ⟨g, gs, hx⟩ := gapSplit_cons tol x xs
  have := groupsLoop_eq_gapSplit tol xs [] x
  rw [hx] at this
  simpa [hx] using this

theorem gapSplit_groups_ne_nil (tol : ℚ) :
    ∀ (l : List Peak), ∀ g ∈ gapSplit tol l, g ≠ [] := by
  intro l
  induction l with
  | nil => intro g hg; cases hg
  | cons x xs ih =>
    intro g hg
    have hmatch : gapSplit tol (x :: xs) =
        match gapSplit tol xs with
        | [] => [[x]]
        | [] :: gs => [x] :: [] :: gs
        | (y :: g) :: gs =>
          if y.1 - x.1 ≤ tol then (x :: y :: g) :: gs else [x] :: (y :: g) :: gs := rfl
    rcases he : gapSplit tol xs with _ | ⟨_ | ⟨y, g1⟩, gs⟩
    · have hv : gapSplit tol (x :: xs) = [[x]] := by rw [hmatch, he]
      rw [hv] at hg
      simp at hg; simp [hg]
    · exact absurd rfl (ih [] (by rw [he]; exact List.mem_cons_self _ _))
    · have hv : gapSplit tol (x :: xs) =
          if y.1 - x.1 ≤ tol then (x :: y :: g1) :: gs else [x] :: (y :: g1) :: gs := by
        rw [hmatch, he]
      rw [hv] at hg
      by_cases hle : y.1 - x.1 ≤ tol
      · rw [if_pos hle] at hg
        rcases List.mem_cons.mp hg with rfl | hm
        · simp
        · exact ih g (by rw [he]; exact List.mem_cons.mpr (Or.inr hm))
      · rw [if_neg hle] at hg
        rcases List.mem_cons.mp hg with rfl | hm
        · simp
        · exact ih g (by rw [he]; exact hm)

theorem argmax_find (xs : List Peak) (x : Peak) :
    (x :: xs).find? (fun p => p.2 = maxQ ((x :: xs).map (·.2))) =
      some (xs.foldl (fun best p => if best.2 < p.2 then p else best) x) := by
  induction xs generalizing x with
  | nil =>
    simp [maxQ, List.find?]
  | cons y ys ih =>
    have hmax2 : maxQ ((x :: y :: ys).map (·.2)) = maxQ ((max x.2 y.2) :: ys.map (·.2)) := by
      simp only [List.map_cons]
      exact maxQ_cons_cons _ _ _
    by_cases hxy : x.2 < y.2
    · have hfold : (y :: ys).foldl (fun best p => if best.2 < p.2 then p else best) x =
          ys.foldl (fun best p => if best.2 < p.2 then p else best) y := by
        simp [List.foldl, hxy]
      have hm : maxQ ((x :: y :: ys).map (·.2)) = maxQ ((y :: ys).map (·.2)) := by
        rw [hmax2, max_eq_right (le_of_lt hxy)]
        simp [List.map_cons]
      have hxne : ¬ (x.2 = maxQ ((x :: y :: ys).map (·.2))) := by
        rw [hm]
        intro hcon
        have : y.2 ≤ x.2 := by
          rw [hcon]
          exact le_maxQ (by simp)
        exact absurd hxy (not_lt.mpr this)
      rw [hfold]
      rw [show ((x :: y :: ys).find? (fun p => p.2 = maxQ ((x :: y :: ys).map (·.2)))) =
        ((y :: ys).find? (fun p => p.2 = maxQ ((x :: y :: ys).map (·.2)))) from by
          rw [List.find?_cons_of_neg _ (by simpa using hxne)]]
      rw [hm]
      exact ih y
    · have hfold : (y :: ys).foldl (fun best p => if best.2 < p.2 then p else best) x =
          ys.foldl (fun best p => if best.2 < p.2 then p else best) x := by
        simp [List.foldl, hxy]
      have hm : maxQ ((x :: y :: ys).map (·.2)) = maxQ ((x :: ys).map (·.2)) := by
        rw [hmax2, max_eq_left (not_lt.mp hxy)]
        simp [List.map_cons]
      rw [hfold, hm]
      by_cases hxm : x.2 = maxQ ((x :: ys).map (·.2))
      · rw [List.find?_cons_of_pos _ (by simpa using hxm)]
        have := ih (x := x)
        rw [List.find?_cons_of_pos _ (by simpa using hxm)] at this
        exact this
      · have hxlt : x.2 < maxQ ((x :: ys).map (·.2)) :=
          lt_of_le_of_ne (le_maxQ (by simp)) hxm
        have hyne : ¬ (y.2 = maxQ ((x :: ys).map (·.2))) := by
          intro hcon
          have : x.2 < y.2 := by rw [hcon]; exact hxlt
          exact hxy this
        rw [List.find?_cons_of_neg _ (by simpa using hxm),
          List.find?_cons_of_neg _ (by simpa using hyne)]
        have := ih (x := x)
        rw [List.find?_cons_of_neg _ (by simpa using hxm)] at this
        exact this

theorem apexOf_eq_apexSpec {g : List Peak} (h : g ≠ []) : apexOf g = apexSpec g := by
  cases g with
  | nil => exact absurd rfl h
  | cons x xs =>
    unfold apexSpec
    rw [argmax_find]
    rfl

unseal Rat.mul Rat.add Rat.sub Rat.inv in
/-- Claim C3, counterexample: with sorted m/z values 0, 0.01, 0.02 and
tolerance 0.01, the source's `_dedup_mz_window` chains all three peaks into
one group (each consecutive gap is within tolerance) and keeps one peak,
while the claimed first-element-anchored grouping splits after 0.01 and
keeps two peaks. -/
theorem claim_C3_counterexample :
    dedup_mz_window [(0, 1), (1/100, 2), (2/100, 3)] (1/100) ≠
      dedupByFirst [(0, 1), (1/100, 2), (2/100, 3)] (1/100) := by decide

/-- Claim C3 (amended): when `mz_dedup_tolerance` is set, `_dedup_mz_window`
sorts by m/z and sweeps left to right, where a peak joins the current group
iff its m/z differs from the group's LAST (most recently added) element —
equivalently, from the immediately preceding peak in sorted order — by at
most the tolerance; from each group only the apex (maximum-intensity) peak
is kept, ties resolved in favor of the first peak in scan order.  Stated
as: the source function equals the reference that splits the sorted list at
consecutive gaps above tolerance and keeps each group's first
maximal-intensity peak. -/
theorem claim_C3_amended_dedup (l : List Peak) (tol : ℚ) :
    dedup_mz_window l tol = dedupGapRef l tol := by
  rcases hs : sortPeaksByMz l with _ | ⟨x, xs⟩
  · have h1 : dedup_mz_window l tol = [] := by unfold dedup_mz_window; rw [hs]
    have h2 : dedupGapRef l tol = [] := by unfold dedupGapRef; rw [hs]; simp [gapSplit]
    rw [h1, h2]
  · have h1 : dedup_mz_window l tol = (groupsLoop tol [x] xs).map apexOf := by
      unfold dedup_mz_window; rw [hs]
    have h2 : dedupGapRef l tol = (gapSplit tol (x :: xs)).map apexSpec := by
      unfold dedupGapRef; rw [hs]
    rw [h1, h2, groupsLoop_singleton_eq]
    exact List.map_congr_left
      (fun g hg => apexOf_eq_apexSpec (gapSplit_groups_ne_nil tol (x :: xs) g hg))

end Processing

/-! Claim C6: backend selection. -/

deriving instance DecidableEq for Except

namespace Backends

/-- Claim C6, counterexample: requesting the `faiss` backend does not raise
and does not construct a backend named `faiss`: `create_index_backend`
silently (up to a log warning) substitutes the naive linear-scan index. -/
theorem claim_C6_counterexample :
    create_index_backend "faiss" true = .ok .naive ∧ BackendKind.name .naive ≠ "faiss" := by
  decide

/-- Claim C6 (amended): backend selection is case-insensitive on the name;
`naive` and `annoy` construct exactly the named backend (`annoy` raising
an ImportError when the optional dependency is unavailable), and any unknown
name raises a configuration error — but `faiss` is an exception: it logs a
warning and falls back to the naive index instead of failing. -/
theorem claim_C6_amended (nm : String) (avail : Bool) :
    (∀ k, create_index_backend nm avail = .ok k →
      BackendKind.name k = lowerStr nm ∨ (lowerStr nm = "faiss" ∧ k = .naive)) ∧
    (lowerStr nm = "annoy" → avail = false →
      ∃ msg, create_index_backend nm avail = .error msg) ∧
    (lowerStr nm ≠ "naive" → lowerStr nm ≠ "annoy" → lowerStr nm ≠ "faiss" →
      create_index_backend nm avail = .error ("Unsupported search backend: " ++ nm)) := by
  by_cases h1 : lowerStr nm = "naive"
  · have he : create_index_backend nm avail = .ok .naive := by
      unfold create_index_backend; rw [if_pos h1]
    refine ⟨?_, ?_, ?_⟩
    · intro k hk; rw [he] at hk; cases hk; exact Or.inl (by rw [h1]; rfl)
    · intro h2 _; exact absurd (h1.symm.trans h2) (by decide)
    · intro hn _ _; exact absurd h1 hn
  · by_cases h2 : lowerStr nm = "annoy"
    · have he : create_index_backend nm avail =
          (if avail then .ok .annoy
           else .error "Annoy backend requires annoy; install with pip install yogimass[annoy].") := by
        unfold create_index_backend; rw [if_neg h1, if_pos h2]
      cases avail with
      | true =>
        refine ⟨?_, ?_, ?_⟩
        · intro k hk
          rw [he, if_pos rfl] at hk; cases hk; exact Or.inl (by rw [h2]; rfl)
        · intro _ hff; exact absurd hff (by decide)
        · intro _ hn _; exact absurd h2 hn
      | false =>
        refine ⟨?_, ?_, ?_⟩
        · intro k hk
          rw [he] at hk
          simp only [Bool.false_eq_true, if_false] at hk
          cases hk
        · intro _ _
          refine ⟨"Annoy backend requires annoy; install with pip install yogimass[annoy].", ?_⟩
          rw [he]
          simp
        · intro _ hn _; exact absurd h2 hn
    · by_cases h3 : lowerStr nm = "faiss"
      · have he : create_index_backend nm avail = .ok .naive := by
          unfold create_index_backend; rw [if_neg h1, if_neg h2, if_pos h3]
        refine ⟨?_, ?_, ?_⟩
        · intro k hk; rw [he] at hk; cases hk; exact Or.inr ⟨h3, rfl⟩
        · intro hc _; exact absurd (h3.symm.trans hc) (by decide)
        · intro _ _ hn; exact absurd h3 hn
      · have he : create_index_backend nm avail =
            .error ("Unsupported search backend: " ++ nm) := by
          unfold create_index_backend; rw [if_neg h1, if_neg h2, if_neg h3]
        refine ⟨?_, ?_, ?_⟩
        · intro k hk; rw [he] at hk; cases hk
        · intro hc _; exact absurd hc h2
        · intro _ _ _; exact he

/-- Witness for the amended C6 theorem at the concrete name `naive`. -/
theorem claim_C6_witness :
    BackendKind.name .naive = lowerStr "naive" ∨ (lowerStr "naive" = "faiss" ∧ BackendKind.naive = .naive) :=
  (claim_C6_amended "naive" true).1 .naive (by decide)

end Backends

/-! Claim C7: schema versions. -/

namespace Library

theorem tupLt_iff_lex : ∀ (a b : List ℤ), tupLt a b = true ↔ List.Lex (· < ·) a b := by
  intro a
  induction a with
  | nil =>
    intro b
    cases b with
    | nil => simp [tupLt, List.Lex.not_nil_right]
    | cons y ys => simp [tupLt]; exact List.Lex.nil
  | cons x xs ih =>
    intro b
    cases b with
    | nil => simp [tupLt, List.Lex.not_nil_right]
    | cons y ys =>
      show (if x < y then true else if y < x then false else tupLt xs ys) = true ↔ _
      by_cases hxy : x < y
      · simp only [if_pos hxy]
        simp only [true_iff]
        exact List.Lex.rel hxy
      · rw [if_neg hxy]
        by_cases hyx : y < x
        · simp only [if_pos hyx]
          constructor
          · intro hc; cases hc
          · intro hlex
            cases hlex with
            | rel hr => exact absurd hr hxy
            | cons h => exact absurd rfl (ne_of_gt hyx)
        · rw [if_neg hyx]
          have hxeq : x = y := le_antisymm (not_lt.mp hyx) (not_lt.mp hxy)
          subst hxeq
          rw [ih ys]
          exact (List.Lex.cons_iff).symm

/-- Claim C7, counterexample: a JSON store whose `schema_version` (0.5) is
strictly older than the writer constant `SCHEMA_VERSION` (1.0) is read
normally by `_iter_json_entries`, which returns its entries; the plain
reading path performs no schema-version check at all and cannot fail. -/
theorem claim_C7_counterexample :
    tupLt (parse_version "0.5") (parse_version SCHEMA_VERSION) = true ∧
      iter_json_entries (JsonDoc.dict (some "0.5") (some ["entry-1"])) = ["entry-1"] := by
  decide

/-- Claim C7 (amended): every store written by `_write_json` carries the
`schema_version` marker, and the separate compatibility check
`assert_schema_compatible` (in `library_io.py`, not invoked by the entry
readers) fails with a descriptive error exactly when the store's parsed
version is lexicographically older than the caller-specified minimum;
newer/equal — and missing or unparseable — versions are accepted.  The entry
readers themselves (`_iter_json_entries`) never inspect the version. -/
theorem claim_C7_amended (doc : JsonDoc) (minimum : String) :
    (∀ recs, read_schema_version (write_json recs) = some SCHEMA_VERSION) ∧
    (read_schema_version doc = none → assert_schema_compatible doc minimum = .ok ()) ∧
    (∀ v, read_schema_version doc = some v →
      (List.Lex (· < ·) (parse_version v) (parse_version minimum) →
        ∃ msg, assert_schema_compatible doc minimum = .error msg) ∧
      (¬ List.Lex (· < ·) (parse_version v) (parse_version minimum) →
        assert_schema_compatible doc minimum = .ok ())) := by
  refine ⟨fun recs => rfl, fun hn => ?_, fun v hv => ?_⟩
  · unfold assert_schema_compatible
    rw [hn]
  · have hs : assert_schema_compatible doc minimum =
        (if tupLt (parse_version v) (parse_version minimum) = true then
          .error ("Library schema version " ++ v ++ " is older than supported minimum "
            ++ minimum ++ ".")
        else .ok ()) := by
      unfold assert_schema_compatible; rw [hv]
    refine ⟨fun hlex => ?_, fun hnlex => ?_⟩
    · rw [hs, if_pos ((tupLt_iff_lex _ _).mpr hlex)]
      exact ⟨_, rfl⟩
    · rw [hs, if_neg (fun hc => hnlex ((tupLt_iff_lex _ _).mp hc))]

/-- Witness for the amended C7 theorem: an old store (version 0.5) is
rejected by the compatibility check against minimum 1.0. -/
theorem claim_C7_witness :
    ∃ msg, assert_schema_compatible (JsonDoc.dict (some "0.5") (some [])) "1.0" = .error msg :=
  ((claim_C7_amended (JsonDoc.dict (some "0.5") (some [])) "1.0").2.2 "0.5" rfl).1
    ((tupLt_iff_lex _ _).mp (by decide))

end Library

/-! Exact-score interpretation: the decidable comparator `Score.le` computes
the ordering of the denoted real numbers `d / sqrt n`. -/

namespace Metrics

theorem Score.val_ofQ (q : ℚ) : (Score.ofQ q).val = (q : ℝ) := by
  unfold Score.val Score.ofQ
  norm_num [Real.sqrt_one]

theorem Score.le_iff_val (x y : Score) : Score.le x y ↔ Score.val x ≤ Score.val y := by
  obtain ⟨⟨d1, n1⟩, h1⟩ := x
  obtain ⟨⟨d2, n2⟩, h2⟩ := y
  have hn1 : (0 : ℝ) < (n1 : ℝ) := by exact_mod_cast h1
  have hn2 : (0 : ℝ) < (n2 : ℝ) := by exact_mod_cast h2
  have hs1 : (0 : ℝ) < Real.sqrt n1 := Real.sqrt_pos.mpr hn1
  have hs2 : (0 : ℝ) < Real.sqrt n2 := Real.sqrt_pos.mpr hn2
  have e1 : Real.sqrt n1 * Real.sqrt n1 = (n1 : ℝ) := Real.mul_self_sqrt hn1.le
  have e2 : Real.sqrt n2 * Real.sqrt n2 = (n2 : ℝ) := Real.mul_self_sqrt hn2.le
  show ((d1 ≤ 0 ∧ 0 ≤ d2) ∨ (0 < d1 ∧ 0 < d2 ∧ d1 * d1 * n2 ≤ d2 * d2 * n1) ∨
      (d1 < 0 ∧ d2 < 0 ∧ d2 * d2 * n1 ≤ d1 * d1 * n2)) ↔
    (d1 : ℝ) / Real.sqrt n1 ≤ (d2 : ℝ) / Real.sqrt n2
  rw [div_le_div_iff₀ hs1 hs2]
  constructor
  · rintro (⟨ha, hb⟩ | ⟨ha, hb, hc⟩ | ⟨ha, hb, hc⟩)
    · have ha' : (d1 : ℝ) ≤ 0 := by exact_mod_cast ha
      have hb' : (0 : ℝ) ≤ (d2 : ℝ) := by exact_mod_cast hb
      nlinarith [Real.sqrt_nonneg (n1 : ℝ), Real.sqrt_nonneg (n2 : ℝ)]
    · have ha' : (0 : ℝ) < (d1 : ℝ) := by exact_mod_cast ha
      have hb' : (0 : ℝ) < (d2 : ℝ) := by exact_mod_cast hb
      have hc' : (d1 : ℝ) * d1 * n2 ≤ (d2 : ℝ) * d2 * n1 := by exact_mod_cast hc
      have hd1 : (0 : ℝ) ≤ (d1 : ℝ) * Real.sqrt n2 := mul_nonneg ha'.le (Real.sqrt_nonneg _)
      have hd2 : (0 : ℝ) ≤ (d2 : ℝ) * Real.sqrt n1 := mul_nonneg hb'.le (Real.sqrt_nonneg _)
      refine (mul_self_le_mul_self_iff hd1 hd2).mpr ?_
      calc ((d1 : ℝ) * Real.sqrt n2) * ((d1 : ℝ) * Real.sqrt n2)
          = (d1 : ℝ) * d1 * (Real.sqrt n2 * Real.sqrt n2) := by ring
        _ = (d1 : ℝ) * d1 * n2 := by rw [e2]
        _ ≤ (d2 : ℝ) * d2 * n1 := hc'
        _ = (d2 : ℝ) * d2 * (Real.sqrt n1 * Real.sqrt n1) := by rw [e1]
        _ = ((d2 : ℝ) * Real.sqrt n1) * ((d2 : ℝ) * Real.sqrt n1) := by ring
    · have ha' : (d1 : ℝ) < 0 := by exact_mod_cast ha
      have hb' : (d2 : ℝ) < 0 := by exact_mod_cast hb
      have hc' : (d2 : ℝ) * d2 * n1 ≤ (d1 : ℝ) * d1 * n2 := by exact_mod_cast hc
      have hd1 : (0 : ℝ) ≤ -((d2 : ℝ) * Real.sqrt n1) := by
        nlinarith [Real.sqrt_nonneg (n1 : ℝ)]
      have hd2 : (0 : ℝ) ≤ -((d1 : ℝ) * Real.sqrt n2) := by
        nlinarith [Real.sqrt_nonneg (n2 : ℝ)]
      have key : -((d2 : ℝ) * Real.sqrt n1) ≤ -((d1 : ℝ) * Real.sqrt n2) := by
        refine (mul_self_le_mul_self_iff hd1 hd2).mpr ?_
        calc (-((d2 : ℝ) * Real.sqrt n1)) * (-((d2 : ℝ) * Real.sqrt n1))
            = (d2 : ℝ) * d2 * (Real.sqrt n1 * Real.sqrt n1) := by ring
          _ = (d2 : ℝ) * d2 * n1 := by rw [e1]
          _ ≤ (d1 : ℝ) * d1 * n2 := hc'
          _ = (d1 : ℝ) * d1 * (Real.sqrt n2 * Real.sqrt n2) := by rw [e2]
          _ = (-((d1 : ℝ) * Real.sqrt n2)) * (-((d1 : ℝ) * Real.sqrt n2)) := by ring
      linarith
  · intro hle
    rcases le_or_lt d1 0 with ha | ha
    · rcases le_or_lt 0 d2 with hb | hb
      · exact Or.inl ⟨ha, hb⟩
      · rcases eq_or_lt_of_le ha with heq | hlt
        · exfalso
          have hb' : (d2 : ℝ) < 0 := by exact_mod_cast hb
          have hz : (d1 : ℝ) = 0 := by exact_mod_cast heq
          rw [hz] at hle
          nlinarith
        · refine Or.inr (Or.inr ⟨hlt, hb, ?_⟩)
          have ha' : (d1 : ℝ) < 0 := by exact_mod_cast hlt
          have hb' : (d2 : ℝ) < 0 := by exact_mod_cast hb
          have hd1 : (0 : ℝ) ≤ -((d2 : ℝ) * Real.sqrt n1) := by
            nlinarith [Real.sqrt_nonneg (n1 : ℝ)]
          have key := mul_self_le_mul_self hd1 (by linarith :
            -((d2 : ℝ) * Real.sqrt n1) ≤ -((d1 : ℝ) * Real.sqrt n2))
          have : (d2 : ℝ) * d2 * n1 ≤ (d1 : ℝ) * d1 * n2 := by
            calc (d2 : ℝ) * d2 * n1 = (d2 : ℝ) * d2 * (Real.sqrt n1 * Real.sqrt n1) := by rw [e1]
              _ = (-((d2 : ℝ) * Real.sqrt n1)) * (-((d2 : ℝ) * Real.sqrt n1)) := by ring
              _ ≤ (-((d1 : ℝ) * Real.sqrt n2)) * (-((d1 : ℝ) * Real.sqrt n2)) := key
              _ = (d1 : ℝ) * d1 * (Real.sqrt n2 * Real.sqrt n2) := by ring
              _ = (d1 : ℝ) * d1 * n2 := by rw [e2]
          exact_mod_cast this
    · rcases le_or_lt d2 0 with hb | hb
      · exfalso
        have ha' : (0 : ℝ) < (d1 : ℝ) := by exact_mod_cast ha
        have hb' : (d2 : ℝ) ≤ 0 := by exact_mod_cast hb
        nlinarith
      · refine Or.inr (Or.inl ⟨ha, hb, ?_⟩)
        have ha' : (0 : ℝ) < (d1 : ℝ) := by exact_mod_cast ha
        have hd1 : (0 : ℝ) ≤ (d1 : ℝ) * Real.sqrt n2 := mul_nonneg ha'.le (Real.sqrt_nonneg _)
        have key := mul_self_le_mul_self hd1 hle
        have : (d1 : ℝ) * d1 * n2 ≤ (d2 : ℝ) * d2 * n1 := by
          calc (d1 : ℝ) * d1 * n2 = (d1 : ℝ) * d1 * (Real.sqrt n2 * Real.sqrt n2) := by rw [e2]
            _ = ((d1 : ℝ) * Real.sqrt n2) * ((d1 : ℝ) * Real.sqrt n2) := by ring
            _ ≤ ((d2 : ℝ) * Real.sqrt n1) * ((d2 : ℝ) * Real.sqrt n1) := key
            _ = (d2 : ℝ) * d2 * (Real.sqrt n1 * Real.sqrt n1) := by ring
            _ = (d2 : ℝ) * d2 * n1 := by rw [e1]
        exact_mod_cast this

theorem Score.lt_iff_val (x y : Score) : Score.lt x y ↔ Score.val x < Score.val y := by
  unfold Score.lt
  rw [Score.le_iff_val, Score.le_iff_val]
  exact ⟨fun h => lt_of_le_not_le h.1 h.2, fun h => ⟨h.le, not_le.mpr h⟩⟩

theorem Score.le_total' (x y : Score) : Score.le x y ∨ Score.le y x := by
  rw [Score.le_iff_val, Score.le_iff_val]
  exact le_total _ _

theorem Score.le_trans' {x y z : Score} (h1 : Score.le x y) (h2 : Score.le y z) :
    Score.le x z := by
  rw [Score.le_iff_val] at h1 h2 ⊢
  exact le_trans h1 h2

end Metrics

/-! Claim C5: search result ordering, filtering and truncation. -/

namespace Backends

open Metrics

theorem hitDescLe_total (a b : ℕ × SearchHit) : hitDescLe a b ∨ hitDescLe b a := by
  unfold hitDescLe
  rcases lt_trichotomy (Score.val a.2.score) (Score.val b.2.score) with h | h | h
  · exact Or.inr (Or.inl ((Score.lt_iff_val _ _).mpr h))
  · have hab : Score.le a.2.score b.2.score := (Score.le_iff_val _ _).mpr h.le
    have hba : Score.le b.2.score a.2.score := (Score.le_iff_val _ _).mpr h.ge
    rcases le_total a.1 b.1 with hp | hp
    · exact Or.inl (Or.inr ⟨hab, hba, hp⟩)
    · exact Or.inr (Or.inr ⟨hba, hab, hp⟩)
  · exact Or.inl (Or.inl ((Score.lt_iff_val _ _).mpr h))

theorem hitDescLe_trans {a b c : ℕ × SearchHit} (h1 : hitDescLe a b) (h2 : hitDescLe b c) :
    hitDescLe a c := by
  unfold hitDescLe at h1 h2 ⊢
  simp only [Score.lt_iff_val, Score.le_iff_val] at h1 h2 ⊢
  rcases h1 with h1 | ⟨h1a, h1b, h1c⟩ <;> rcases h2 with h2 | ⟨h2a, h2b, h2c⟩
  · exact Or.inl (lt_trans h2 h1)
  · exact Or.inl (lt_of_le_of_lt h2b h1)
  · exact Or.inl (lt_of_lt_of_le h2 h1b)
  · exact Or.inr ⟨le_trans h1a h2a, le_trans h2b h1b, le_trans h1c h2c⟩

/-- Claim C5 (amended): for every stored entry list, query vector, `top_n`
and `min_score`, `NaiveSpectrumIndex.query` (to which
`LocalSpectralLibrary.search` delegates) returns only hits of stored entries
with their cosine score, keeps exactly the hits whose score is at least
`min_score` (hits equal to `min_score` are included), sorts them by
descending score with score ties kept in STORED-ENTRY order (not ascending
identifier), and truncates to at most `top_n`. -/
theorem claim_C5_amended (entries : List LibraryEntry) (vector : Vec)
    (top_n : ℕ) (min_score : ℚ) :
    (∀ h ∈ NaiveSpectrumIndex.query entries vector top_n min_score,
      h.entry ∈ entries ∧ h.score = cosine_from_vectors h.entry.vector vector ∧
        (min_score : ℝ) ≤ Score.val h.score) ∧
    List.Sorted (fun a b : SearchHit => Score.val b.score ≤ Score.val a.score)
      (NaiveSpectrumIndex.query entries vector top_n min_score) ∧
    (NaiveSpectrumIndex.query entries vector top_n min_score).length ≤ top_n ∧
    LocalSpectralLibrary.search entries vector top_n min_score =
      NaiveSpectrumIndex.query entries vector top_n min_score := by
  haveI instTot : IsTotal (ℕ × SearchHit) hitDescLe := ⟨hitDescLe_total⟩
  haveI instTrans : IsTrans (ℕ × SearchHit) hitDescLe := ⟨fun _ _ _ => hitDescLe_trans⟩
  refine ⟨?_, ?_, ?_, rfl⟩
  · intro h hres
    unfold NaiveSpectrumIndex.query at hres
    have h1 : h ∈ (List.insertionSort hitDescLe
        (((entries.map (fun e => SearchHit.mk e (cosine_from_vectors e.vector vector))).filter
          (fun h => Score.le (Score.ofQ min_score) h.score)).enum)).map (·.2) :=
      List.mem_of_mem_take hres
    obtain ⟨p, hp, hph⟩ := List.mem_map.mp h1
    have hp2 : p ∈ ((entries.map
        (fun e => SearchHit.mk e (cosine_from_vectors e.vector vector))).filter
          (fun h => Score.le (Score.ofQ min_score) h.score)).enum :=
      (List.mem_insertionSort hitDescLe).mp hp
    have hp3 : p.2 ∈ (entries.map
        (fun e => SearchHit.mk e (cosine_from_vectors e.vector vector))).filter
          (fun h => Score.le (Score.ofQ min_score) h.score) := by
      have := List.enum_map_snd ((entries.map
        (fun e => SearchHit.mk e (cosine_from_vectors e.vector vector))).filter
          (fun h => Score.le (Score.ofQ min_score) h.score))
      rw [← this]
      exact List.mem_map_of_mem _ hp2
    rw [hph] at hp3
    obtain ⟨hmem, hpred⟩ := List.mem_filter.mp hp3
    obtain ⟨e, he, hfe⟩ := List.mem_map.mp hmem
    have hscore : Score.le (Score.ofQ min_score) h.score := of_decide_eq_true hpred
    refine ⟨?_, ?_, ?_⟩
    · rw [← hfe]; exact he
    · rw [← hfe]
    · have := (Score.le_iff_val _ _).mp hscore
      rwa [Score.val_ofQ] at this
  · unfold NaiveSpectrumIndex.query
    have hsorted := List.sorted_insertionSort hitDescLe
      (((entries.map (fun e => SearchHit.mk e (cosine_from_vectors e.vector vector))).filter
        (fun h => Score.le (Score.ofQ min_score) h.score)).enum)
    have hmap : List.Sorted (fun a b : SearchHit => Score.val b.score ≤ Score.val a.score)
        ((List.insertionSort hitDescLe
          (((entries.map (fun e => SearchHit.mk e (cosine_from_vectors e.vector vector))).filter
            (fun h => Score.le (Score.ofQ min_score) h.score)).enum)).map (·.2)) := by
      refine List.Pairwise.map _ ?_ hsorted
      intro a b hab
      rcases hab with hlt | ⟨_, hba, _⟩
      · exact ((Score.lt_iff_val _ _).mp hlt).le
      · exact (Score.le_iff_val _ _).mp hba
    exact List.Pairwise.sublist (List.take_sublist _ _) hmap
  · unfold NaiveSpectrumIndex.query
    exact (List.length_take _ _).le.trans (min_le_left _ _)

unseal Rat.mul Rat.add Rat.sub Rat.inv in
/-- Claim C5, counterexample: two stored entries with identifiers `b` (stored
first) and `a` (stored second) and identical vectors receive identical
scores, yet the query returns them in stored order `[b, a]`, not in the
claimed ascending-identifier order `[a, b]`: Python `list.sort` is stable
and no identifier tie-break exists in the source. -/
theorem claim_C5_counterexample :
    ((NaiveSpectrumIndex.query
        [{ identifier := "b", precursor_mz := none, metadata := [], vector := [("x", 1)] },
         { identifier := "a", precursor_mz := none, metadata := [], vector := [("x", 1)] }]
        [("x", 1)] 5 0).map (fun h => h.entry.identifier) = ["b", "a"]) ∧
    cosine_from_vectors [("x", (1 : ℚ))] [("x", 1)] =
      cosine_from_vectors [("x", (1 : ℚ))] [("x", 1)] ∧
    ¬ strLe "b" "a" := by decide

unseal Rat.mul Rat.add Rat.sub Rat.inv in
/-- Witness for the amended C5 theorem at a concrete one-entry store. -/
theorem claim_C5_witness :
    (⟨exEntryA, Score.ofQ 1⟩ : SearchHit).entry ∈ [exEntryA] ∧
    (⟨exEntryA, Score.ofQ 1⟩ : SearchHit).score =
      cosine_from_vectors (⟨exEntryA, Score.ofQ 1⟩ : SearchHit).entry.vector [("x", 1)] ∧
    ((0 : ℚ) : ℝ) ≤ Score.val (⟨exEntryA, Score.ofQ 1⟩ : SearchHit).score :=
  (claim_C5_amended [exEntryA] [("x", 1)] 5 0).1 ⟨exEntryA, Score.ofQ 1⟩ (by decide)

end Backends

/-! Claim C9: undirected edge de-duplication. -/

theorem charsLe_total : ∀ a b : List Char, charsLe a b = true ∨ charsLe b a = true := by
  intro a
  induction a with
  | nil => intro b; left; rfl
  | cons x xs ih =>
    intro b
    cases b with
    | nil => right; rfl
    | cons y ys =>
      by_cases hxy : x < y
      · left; simp [charsLe, hxy]
      · by_cases hyx : y < x
        · right; simp [charsLe, hyx]
        · have h1 : charsLe (x :: xs) (y :: ys) = charsLe xs ys := by
            simp [charsLe, hxy, hyx]
          have h2 : charsLe (y :: ys) (x :: xs) = charsLe ys xs := by
            simp [charsLe, hxy, hyx]
          rw [h1, h2]
          exact ih ys

theorem strLe_total (a b : String) : strLe a b ∨ strLe b a := charsLe_total a.data b.data

namespace Network

open Metrics

theorem sortPairStr_idem (a b : String) :
    sortPairStr (sortPairStr a b).1 (sortPairStr a b).2 = sortPairStr a b := by
  unfold sortPairStr
  by_cases h : strLe a b
  · simp [h]
  · have hba : strLe b a := (strLe_total a b).resolve_left h
    simp [h, hba]

theorem dedupEmit_nodup (metric : String) :
    ∀ (cands : List (String × String × Score)) (seen : List (String × String)),
      ((dedupEmit metric true cands seen).map (fun e => sortPairStr e.source e.target)).Nodup ∧
      ∀ p ∈ (dedupEmit metric true cands seen).map (fun e => sortPairStr e.source e.target),
        p ∉ seen := by
  intro cands
  induction cands with
  | nil =>
    intro seen
    have h0 : dedupEmit metric true [] seen = [] := rfl
    rw [h0]
    exact ⟨List.nodup_nil, by simp⟩
  | cons c rest ih =>
    intro seen
    obtain ⟨s, t, sc⟩ := c
    have hstep : dedupEmit metric true ((s, t, sc) :: rest) seen =
        if edge_key s t true ∈ seen then dedupEmit metric true rest seen
        else { source := (edge_key s t true).1, target := (edge_key s t true).2,
               similarity := sc, metric := metric } ::
          dedupEmit metric true rest (edge_key s t true :: seen) := rfl
    by_cases hp : edge_key s t true ∈ seen
    · have he : dedupEmit metric true ((s, t, sc) :: rest) seen =
          dedupEmit metric true rest seen := by
        rw [hstep, if_pos hp]
      rw [he]
      exact ⟨(ih seen).1, fun p hpm => (ih seen).2 p hpm⟩
    · have he : dedupEmit metric true ((s, t, sc) :: rest) seen =
          { source := (edge_key s t true).1, target := (edge_key s t true).2,
            similarity := sc, metric := metric } ::
            dedupEmit metric true rest (edge_key s t true :: seen) := by
        rw [hstep, if_neg hp]
      have hkey : sortPairStr (edge_key s t true).1 (edge_key s t true).2 = edge_key s t true := by
        show sortPairStr (sortPairStr s t).1 (sortPairStr s t).2 = sortPairStr s t
        exact sortPairStr_idem s t
      obtain ⟨ihn, ihs⟩ := ih (edge_key s t true :: seen)
      rw [he]
      simp only [List.map_cons]
      constructor
      · refine List.nodup_cons.mpr ⟨?_, ihn⟩
        intro hcon
        rw [hkey] at hcon
        exact (ihs _ hcon) (List.mem_cons_self _ _)
      · intro p hpm
        rcases List.mem_cons.mp hpm with rfl | hm
        · rw [hkey]; exact hp
        · intro hcon
          exact (ihs p hm) (List.mem_cons.mpr (Or.inr hcon))

/-- Claim C9: in undirected mode, neither the threshold edge builder nor the
k-NN edge builder ever emits two edges with the same unordered identifier
pair: once a pair's key is in the seen set, later discoveries (including the
same pair found from both endpoints' k-NN lists) are skipped.  Stated for
every node list, every similarity function, every threshold and every k. -/
theorem claim_C9_no_duplicate_undirected_edges (nodes : List SpectrumNode)
    (sim : SpectrumNode → SpectrumNode → Score) (metric : String) (threshold : ℚ) (k : ℕ) :
    ((threshold_edges nodes sim metric threshold true).map
      (fun e => sortPairStr e.source e.target)).Nodup ∧
    (∀ edges, knn_edges nodes sim metric k true = .ok edges →
      (edges.map (fun e => sortPairStr e.source e.target)).Nodup) := by
  constructor
  · exact (dedupEmit_nodup metric _ []).1
  · intro edges he
    unfold knn_edges at he
    by_cases hk : k = 0
    · rw [if_pos hk] at he; cases he
    · rw [if_neg hk] at he
      cases he
      exact (dedupEmit_nodup metric _ []).1

unseal Rat.mul Rat.add Rat.sub Rat.inv in
/-- Witness for C9 at the spec's own test scenario: 3 nodes, `knn = 1`. -/
theorem claim_C9_witness :
    (([⟨"a", "b", Score.ofQ 1, "cosine"⟩, ⟨"a", "c", Score.ofQ 1, "cosine"⟩] :
        List SimilarityEdge).map (fun e => sortPairStr e.source e.target)).Nodup :=
  (claim_C9_no_duplicate_undirected_edges [⟨"a"⟩, ⟨"b"⟩, ⟨"c"⟩]
    (fun _ _ => Score.ofQ 1) "cosine" (8/10) 1).2
    [⟨"a", "b", Score.ofQ 1, "cosine"⟩, ⟨"a", "c", Score.ofQ 1, "cosine"⟩] (by decide)

end Network

/-! Helper lemmas for `filter_noise` (claims C2 and C4). -/

theorem maxQ_perm {l m : List ℚ} (h : l.Perm m) : maxQ l = maxQ m := by
  cases l with
  | nil =>
    have : m = [] := h.nil_eq.symm
    rw [this]
  | cons x xs =>
    have hl : (x :: xs : List ℚ) ≠ [] := by simp
    have hm : m ≠ [] := by
      intro hc; rw [hc] at h; exact hl h.eq_nil
    exact maxQ_eq_of_mem_iff hl hm (fun a => h.mem_iff)

theorem maxQ_map_div (l : List ℚ) (m : ℚ) (hm : 0 < m) :
    maxQ (l.map (fun x => x / m)) = maxQ l / m := by
  cases l with
  | nil => simp [maxQ]
  | cons x xs =>
    show (xs.map (fun x => x / m)).foldl max (x / m) = xs.foldl max x / m
    induction xs generalizing x with
    | nil => rfl
    | cons y ys ih =>
      show (ys.map (fun x => x / m)).foldl max (max (x / m) (y / m)) = _
      rw [max_div_div_right hm.le]
      exact ih (max x y)

theorem exists_enumFrom_of_mem {α : Type} {a : α} :
    ∀ (l : List α) (n : ℕ), a ∈ l → ∃ i, (i, a) ∈ l.enumFrom n := by
  intro l
  induction l with
  | nil => intro n h; cases h
  | cons x xs ih =>
    intro n h
    rcases List.mem_cons.mp h with rfl | hm
    · exact ⟨n, List.mem_cons_self _ _⟩
    · obtain ⟨i, hi⟩ := ih (n + 1) hm
      exact ⟨i, List.mem_cons.mpr (Or.inr hi)⟩

theorem exists_enum_of_mem {α : Type} {a : α} (l : List α) (h : a ∈ l) :
    ∃ i, (i, a) ∈ l.enum :=
  exists_enumFrom_of_mem l 0 h

theorem snd_mem_of_mem_enum {α : Type} {p : ℕ × α} {l : List α} (h : p ∈ l.enum) : p.2 ∈ l := by
  rw [← List.enum_map_snd l]
  exact List.mem_map_of_mem _ h

namespace Processing

theorem mzPosLe_total (a b : ℕ × Peak) : mzPosLe a b ∨ mzPosLe b a := by
  unfold mzPosLe
  rcases lt_trichotomy a.2.1 b.2.1 with h | h | h
  · exact Or.inl (Or.inl h)
  · rcases le_total a.1 b.1 with hp | hp
    · exact Or.inl (Or.inr ⟨h, hp⟩)
    · exact Or.inr (Or.inr ⟨h.symm, hp⟩)
  · exact Or.inr (Or.inl h)

theorem mzPosLe_trans {a b c : ℕ × Peak} (h1 : mzPosLe a b) (h2 : mzPosLe b c) : mzPosLe a c := by
  unfold mzPosLe at h1 h2 ⊢
  rcases h1 with h1 | ⟨h1e, h1p⟩ <;> rcases h2 with h2 | ⟨h2e, h2p⟩
  · exact Or.inl (lt_trans h1 h2)
  · exact Or.inl (h2e ▸ h1)
  · exact Or.inl (h1e ▸ h2)
  · exact Or.inr ⟨h1e.trans h2e, h1p.trans h2p⟩

theorem intPosLe_total (a b : ℕ × Peak) : intPosLe a b ∨ intPosLe b a := by
  unfold intPosLe
  rcases lt_trichotomy a.2.2 b.2.2 with h | h | h
  · exact Or.inl (Or.inl h)
  · rcases le_total a.1 b.1 with hp | hp
    · exact Or.inl (Or.inr ⟨h, hp⟩)
    · exact Or.inr (Or.inr ⟨h.symm, hp⟩)
  · exact Or.inr (Or.inl h)

theorem intPosLe_trans {a b c : ℕ × Peak} (h1 : intPosLe a b) (h2 : intPosLe b c) : intPosLe a c := by
  unfold intPosLe at h1 h2 ⊢
  rcases h1 with h1 | ⟨h1e, h1p⟩ <;> rcases h2 with h2 | ⟨h2e, h2p⟩
  · exact Or.inl (lt_trans h1 h2)
  · exact Or.inl (h2e ▸ h1)
  · exact Or.inl (h1e ▸ h2)
  · exact Or.inr ⟨h1e.trans h2e, h1p.trans h2p⟩

instance : IsTotal (ℕ × Peak) mzPosLe := ⟨mzPosLe_total⟩

instance : IsTrans (ℕ × Peak) mzPosLe := ⟨fun _ _ _ => mzPosLe_trans⟩

instance : IsTotal (ℕ × Peak) intPosLe := ⟨intPosLe_total⟩

instance : IsTrans (ℕ × Peak) intPosLe := ⟨fun _ _ _ => intPosLe_trans⟩

instance : IsTotal (ℕ × Peak) posLe := ⟨fun a b => le_total a.1 b.1⟩

instance : IsTrans (ℕ × Peak) posLe := ⟨fun _ _ _ h1 h2 => le_trans h1 h2⟩

theorem sortPeaksByMz_perm (l : List Peak) : (sortPeaksByMz l).Perm l := by
  unfold sortPeaksByMz
  have h1 : ((List.insertionSort mzPosLe l.enum).map (·.2)).Perm (l.enum.map (·.2)) :=
    (List.perm_insertionSort mzPosLe l.enum).map _
  rwa [List.enum_map_snd l] at h1

theorem sortPeaksByMz_length (l : List Peak) : (sortPeaksByMz l).length = l.length :=
  (sortPeaksByMz_perm l).length_eq

theorem sortPeaksByMz_sorted (l : List Peak) :
    (sortPeaksByMz l).Sorted (fun a b : Peak => a.1 ≤ b.1) := by
  unfold sortPeaksByMz
  refine List.Pairwise.map _ ?_ (List.sorted_insertionSort mzPosLe l.enum)
  intro a b hab
  rcases hab with h | ⟨h, _⟩
  · exact le_of_lt h
  · exact le_of_eq h

theorem pairwise_enumFrom {α : Type} {R : α → α → Prop} :
    ∀ (l : List α), l.Pairwise R → ∀ n, (l.enumFrom n).Pairwise (fun p q => R p.2 q.2) := by
  intro l
  induction l with
  | nil => intro _ _; exact List.Pairwise.nil
  | cons x xs ih =>
    intro hp n
    obtain ⟨hx, hxs⟩ := List.pairwise_cons.mp hp
    refine List.pairwise_cons.mpr ⟨?_, ih hxs (n + 1)⟩
    intro q hq
    exact hx q.2 (by
      rw [← List.enumFrom_map_snd (n + 1) xs]
      exact List.mem_map_of_mem _ hq)

theorem sortPeaksByMz_eq_self {l : List Peak}
    (h : l.Pairwise (fun a b : Peak => a.1 < b.1)) : sortPeaksByMz l = l := by
  unfold sortPeaksByMz
  have hs : (l.enum).Sorted mzPosLe := by
    refine List.Pairwise.imp ?_ (pairwise_enumFrom l h 0)
    intro p q hpq
    exact Or.inl hpq
  rw [List.Sorted.insertionSort_eq hs, List.enum_map_snd]

theorem keptStage_mem {cfg : ProcCfg} {cl : List Peak} {q : ℕ × Peak}
    (h : q ∈ keptStage cfg cl) :
    q.2 ∈ cl ∧ thresholdOf cfg (maxQ (cl.map (·.2))) ≤ q.2.2 := by
  unfold keptStage at h
  obtain ⟨hmem, hpred⟩ := List.mem_filter.mp h
  exact ⟨snd_mem_of_mem_enum hmem, of_decide_eq_true hpred⟩

theorem keptStage_exists_max {cfg : ProcCfg} {cl : List Peak} (hne : cl ≠ [])
    (hth : thresholdOf cfg (maxQ (cl.map (·.2))) ≤ maxQ (cl.map (·.2))) :
    ∃ q ∈ keptStage cfg cl, q.2.2 = maxQ (cl.map (·.2)) := by
  have hine : cl.map (·.2) ≠ [] := by
    intro hc; exact hne (List.map_eq_nil_iff.mp hc)
  obtain ⟨p, hp, hpv⟩ := List.mem_map.mp (maxQ_mem hine)
  obtain ⟨i, hi⟩ := exists_enum_of_mem cl hp
  refine ⟨(i, p), ?_, hpv⟩
  unfold keptStage
  refine List.mem_filter.mpr ⟨hi, decide_eq_true ?_⟩
  show thresholdOf cfg (maxQ (cl.map (·.2))) ≤ p.2
  rw [hpv]
  exact hth

theorem capStage_some {cfg : ProcCfg} {n : ℕ} (hm : cfg.max_peaks = some n)
    (kept : List (ℕ × Peak)) :
    capStage cfg kept =
      if n < kept.length then
        List.insertionSort posLe (((List.insertionSort intPosLe kept).reverse).take n)
      else kept := by
  unfold capStage; rw [hm]

theorem capStage_none {cfg : ProcCfg} (hm : cfg.max_peaks = none)
    (kept : List (ℕ × Peak)) : capStage cfg kept = kept := by
  unfold capStage; rw [hm]

theorem dedupStage_some {cfg : ProcCfg} {tol : ℚ} (hm : cfg.mz_dedup_tolerance = some tol)
    (l : List Peak) :
    dedupStage cfg l = if 0 < tol then dedup_mz_window l tol else l := by
  unfold dedupStage; rw [hm]

theorem dedupStage_none {cfg : ProcCfg} (hm : cfg.mz_dedup_tolerance = none)
    (l : List Peak) : dedupStage cfg l = l := by
  unfold dedupStage; rw [hm]

theorem capStage_mem {cfg : ProcCfg} {kept : List (ℕ × Peak)} {q : ℕ × Peak}
    (h : q ∈ capStage cfg kept) : q ∈ kept := by
  cases hm : cfg.max_peaks with
  | none => rwa [capStage_none hm] at h
  | some n =>
    rw [capStage_some hm] at h
    by_cases hlen : n < kept.length
    · rw [if_pos hlen] at h
      have h1 := (List.mem_insertionSort posLe).mp h
      have h2 := List.mem_of_mem_take h1
      have h3 := List.mem_reverse.mp h2
      exact (List.mem_insertionSort intPosLe).mp h3
    · rw [if_neg hlen] at h; exact h

theorem capStage_length_le {cfg : ProcCfg} {kept : List (ℕ × Peak)} {n : ℕ}
    (hm : cfg.max_peaks = some n) : (capStage cfg kept).length ≤ n := by
  rw [capStage_some hm]
  by_cases hlen : n < kept.length
  · rw [if_pos hlen]
    rw [List.length_insertionSort]
    exact (List.length_take _ _).le.trans (min_le_left _ _)
  · rw [if_neg hlen]
    exact le_of_not_lt hlen

theorem sorted_le_getLast : ∀ (L : List (ℕ × Peak)), L.Sorted intPosLe → (hne : L ≠ []) →
    ∀ q ∈ L, q.2.2 ≤ (L.getLast hne).2.2 := by
  intro L
  induction L with
  | nil => intro _ hne; exact absurd rfl hne
  | cons x xs ih =>
    intro hs hne q hq
    obtain ⟨hx, hxs⟩ := List.pairwise_cons.mp hs
    cases xs with
    | nil =>
      have : q = x := by simpa using hq
      subst this
      rfl
    | cons y ys =>
      have hxsne : (y :: ys) ≠ [] := by simp
      rw [List.getLast_cons hxsne]
      rcases List.mem_cons.mp hq with rfl | hm
      · have hrel := hx _ (List.getLast_mem hxsne)
        rcases hrel with h | ⟨h, _⟩
        · exact le_of_lt h
        · exact le_of_eq h
      · exact ih hxs hxsne q hm

theorem capStage_max {cfg : ProcCfg} {kept : List (ℕ × Peak)}
    (hcne : capStage cfg kept ≠ []) :
    maxQ ((capStage cfg kept).map (fun q => q.2.2)) = maxQ (kept.map (fun q => q.2.2)) := by
  have hkne : kept ≠ [] := by
    intro hc
    apply hcne
    cases hm : cfg.max_peaks with
    | none => rw [capStage_none hm, hc]
    | some n => rw [capStage_some hm, hc]; simp
  have hkmne : kept.map (fun q => q.2.2) ≠ [] := by
    intro hc; exact hkne (List.map_eq_nil_iff.mp hc)
  have hsub : ∀ v ∈ (capStage cfg kept).map (fun q => q.2.2),
      v ≤ maxQ (kept.map (fun q => q.2.2)) := by
    intro v hv
    obtain ⟨q, hq, rfl⟩ := List.mem_map.mp hv
    exact le_maxQ (List.mem_map_of_mem _ (capStage_mem hq))
  have hcmne : (capStage cfg kept).map (fun q => q.2.2) ≠ [] := by
    intro hc; exact hcne (List.map_eq_nil_iff.mp hc)
  refine le_antisymm (hsub _ (maxQ_mem hcmne)) ?_
  -- the maximal kept intensity is attained inside the cap
  suffices hex : ∃ q ∈ capStage cfg kept, maxQ (kept.map (fun q => q.2.2)) ≤ q.2.2 by
    obtain ⟨q, hq, hv⟩ := hex
    exact hv.trans (le_maxQ (List.mem_map_of_mem _ hq))
  cases hm : cfg.max_peaks with
  | none =>
    rw [capStage_none hm]
    obtain ⟨q, hq, hqv⟩ := List.mem_map.mp (maxQ_mem hkmne)
    exact ⟨q, hq, le_of_eq hqv.symm⟩
  | some n =>
    rw [capStage_some hm]
    by_cases hlen : n < kept.length
    · rw [if_pos hlen]
      -- the last element of the ascending intensity sort tops every kept value
      have hsne : List.insertionSort intPosLe kept ≠ [] := by
        intro hc
        have := List.length_insertionSort intPosLe kept
        rw [hc] at this
        simp at this
        exact hkne (List.length_eq_zero.mp this.symm)
      set L := List.insertionSort intPosLe kept with hL
      have hLmax : ∀ q ∈ L, q.2.2 ≤ (L.getLast hsne).2.2 :=
        sorted_le_getLast L (List.sorted_insertionSort intPosLe kept) hsne
      obtain ⟨x, rest, hrev⟩ : ∃ x rest, L.reverse = x :: rest := by
        cases hrev : L.reverse with
        | nil => exact absurd (by simpa using congrArg List.reverse hrev) hsne
        | cons x rest => exact ⟨x, rest, rfl⟩
      have hx : x = L.getLast hsne := by
        have h1 : L.reverse.head? = some x := by rw [hrev]; rfl
        rw [List.head?_reverse] at h1
        rw [List.getLast?_eq_getLast L hsne] at h1
        exact (Option.some_inj.mp h1).symm
      have hn1 : 1 ≤ n := by
        rcases Nat.eq_zero_or_pos n with rfl | h
        · exfalso
          apply hcne
          rw [capStage_some hm, if_pos hlen, ← hL, hrev]
          rfl
        · exact h
      have hlastmem : L.getLast hsne ∈ L.reverse.take n := by
        rw [hrev, ← hx]
        obtain ⟨m, rfl⟩ := Nat.exists_eq_add_of_le hn1
        rw [Nat.add_comm 1 m]
        simp [List.take_succ_cons]
      refine ⟨L.getLast hsne, ?_, ?_⟩
      · exact (List.mem_insertionSort posLe).mpr hlastmem
      · obtain ⟨q, hq, hqv⟩ := List.mem_map.mp (maxQ_mem hkmne)
        rw [← hqv]
        exact hLmax q ((List.mem_insertionSort intPosLe).mpr hq)
    · rw [if_neg hlen]
      obtain ⟨q, hq, hqv⟩ := List.mem_map.mp (maxQ_mem hkmne)
      exact ⟨q, hq, le_of_eq hqv.symm⟩

theorem gapSplit_flatten (tol : ℚ) : ∀ l : List Peak, (gapSplit tol l).flatten = l := by
  intro l
  induction l with
  | nil => rfl
  | cons x xs ih =>
    have hmatch : gapSplit tol (x :: xs) =
        match gapSplit tol xs with
        | [] => [[x]]
        | [] :: gs => [x] :: [] :: gs
        | (y :: g) :: gs =>
          if y.1 - x.1 ≤ tol then (x :: y :: g) :: gs else [x] :: (y :: g) :: gs := rfl
    rcases he : gapSplit tol xs with _ | ⟨_ | ⟨y, g1⟩, gs⟩
    · have hxs : xs = [] := by rw [← ih, he]; rfl
      subst hxs
      rfl
    · have hv : gapSplit tol (x :: xs) = [x] :: [] :: gs := by rw [hmatch, he]
      have hflat : ([] :: gs : List (List Peak)).flatten = xs := by rw [← ih, he]
      rw [hv]
      simp only [List.flatten_cons, List.nil_append, List.singleton_append] at hflat ⊢
      rw [hflat]
    · by_cases hle : y.1 - x.1 ≤ tol
      · have hv : gapSplit tol (x :: xs) = (x :: y :: g1) :: gs := by
          rw [hmatch, he]
          show (if y.1 - x.1 ≤ tol then (x :: y :: g1) :: gs else [x] :: (y :: g1) :: gs) = _
          rw [if_pos hle]
        have hflat : ((y :: g1) :: gs : List (List Peak)).flatten = xs := by rw [← ih, he]
        rw [hv]
        simp only [List.flatten_cons, List.cons_append, List.nil_append] at hflat ⊢
        rw [← hflat]
      · have hv : gapSplit tol (x :: xs) = [x] :: (y :: g1) :: gs := by
          rw [hmatch, he]
          show (if y.1 - x.1 ≤ tol then (x :: y :: g1) :: gs else [x] :: (y :: g1) :: gs) = _
          rw [if_neg hle]
        have hflat : ((y :: g1) :: gs : List (List Peak)).flatten = xs := by rw [← ih, he]
        rw [hv]
        simp only [List.flatten_cons, List.singleton_append, List.cons_append,
          List.nil_append] at hflat ⊢
        rw [← hflat]

theorem apex_foldl_mem : ∀ (xs : List Peak) (x : Peak),
    xs.foldl (fun best p => if best.2 < p.2 then p else best) x ∈ x :: xs := by
  intro xs
  induction xs with
  | nil => intro x; simp
  | cons y ys ih =>
    intro x
    have h := ih (if x.2 < y.2 then y else x)
    rcases List.mem_cons.mp h with he | hm
    · by_cases hxy : x.2 < y.2
      · rw [if_pos hxy] at he
        refine List.mem_cons.mpr (Or.inr ?_)
        rw [show (y :: ys).foldl (fun best p => if best.2 < p.2 then p else best) x =
          ys.foldl (fun best p => if best.2 < p.2 then p else best) y from by simp [hxy]]
        rw [he]
        exact List.mem_cons_self _ _
      · rw [if_neg hxy] at he
        refine List.mem_cons.mpr (Or.inl ?_)
        rw [show (y :: ys).foldl (fun best p => if best.2 < p.2 then p else best) x =
          ys.foldl (fun best p => if best.2 < p.2 then p else best) x from by simp [hxy]]
        exact he
    · refine List.mem_cons.mpr (Or.inr (List.mem_cons.mpr (Or.inr ?_)))
      rw [show (y :: ys).foldl (fun best p => if best.2 < p.2 then p else best) x =
        ys.foldl (fun best p => if best.2 < p.2 then p else best) (if x.2 < y.2 then y else x)
        from by by_cases hxy : x.2 < y.2 <;> simp [hxy]]
      exact hm

theorem apexOf_mem {g : List Peak} (h : g ≠ []) : apexOf g ∈ g := by
  cases g with
  | nil => exact absurd rfl h
  | cons x xs => exact apex_foldl_mem xs x

theorem apex_foldl_ge : ∀ (xs : List Peak) (x p : Peak), p ∈ x :: xs →
    p.2 ≤ (xs.foldl (fun best q => if best.2 < q.2 then q else best) x).2 := by
  intro xs
  induction xs with
  | nil =>
    intro x p hp
    have : p = x := by simpa using hp
    subst this; rfl
  | cons y ys ih =>
    intro x p hp
    have hstep : (y :: ys).foldl (fun best q => if best.2 < q.2 then q else best) x =
        ys.foldl (fun best q => if best.2 < q.2 then q else best) (if x.2 < y.2 then y else x) := by
      by_cases hxy : x.2 < y.2 <;> simp [hxy]
    rw [hstep]
    have hhead : ∀ z, z = x ∨ z = y →
        z.2 ≤ ((if x.2 < y.2 then y else x) : Peak).2 := by
      intro z hz
      by_cases hxy : x.2 < y.2
      · rw [if_pos hxy]
        rcases hz with rfl | rfl
        · exact le_of_lt hxy
        · rfl
      · rw [if_neg hxy]
        rcases hz with rfl | rfl
        · rfl
        · exact not_lt.mp hxy
    rcases List.mem_cons.mp hp with rfl | hp2
    · exact (hhead p (Or.inl rfl)).trans
        (ih _ _ (List.mem_cons_self _ _))
    · rcases List.mem_cons.mp hp2 with rfl | hp3
      · exact (hhead p (Or.inr rfl)).trans
          (ih _ _ (List.mem_cons_self _ _))
      · exact ih _ p (List.mem_cons.mpr (Or.inr hp3))

theorem apexOf_ge {g : List Peak} {p : Peak} (hp : p ∈ g) : p.2 ≤ (apexOf g).2 := by
  cases g with
  | nil => cases hp
  | cons x xs => exact apex_foldl_ge xs x p hp

theorem dedup_eq_map_apexOf (l : List Peak) (tol : ℚ) :
    dedup_mz_window l tol = (gapSplit tol (sortPeaksByMz l)).map apexOf := by
  rcases hs : sortPeaksByMz l with _ | ⟨x, xs⟩
  · have h1 : dedup_mz_window l tol = [] := by unfold dedup_mz_window; rw [hs]
    rw [h1]
    simp [gapSplit]
  · have h1 : dedup_mz_window l tol = (groupsLoop tol [x] xs).map apexOf := by
      unfold dedup_mz_window; rw [hs]
    rw [h1, groupsLoop_singleton_eq]

theorem dedup_mem {l : List Peak} {tol : ℚ} {p : Peak}
    (h : p ∈ dedup_mz_window l tol) : p ∈ l := by
  rw [dedup_eq_map_apexOf] at h
  obtain ⟨g, hg, rfl⟩ := List.mem_map.mp h
  have hne := gapSplit_groups_ne_nil tol (sortPeaksByMz l) g hg
  have hmem : apexOf g ∈ (gapSplit tol (sortPeaksByMz l)).flatten :=
    List.mem_flatten_of_mem hg (apexOf_mem hne)
  rw [gapSplit_flatten] at hmem
  exact (sortPeaksByMz_perm l).subset hmem

theorem dedup_ne_nil {l : List Peak} (hne : l ≠ []) (tol : ℚ) :
    dedup_mz_window l tol ≠ [] := by
  have hsne : sortPeaksByMz l ≠ [] := by
    intro hc
    have := sortPeaksByMz_length l
    rw [hc] at this
    exact hne (List.length_eq_zero.mp this.symm)
  rcases hs : sortPeaksByMz l with _ | ⟨x, xs⟩
  · exact absurd hs hsne
  · obtain ⟨g, gs, hgs⟩ := gapSplit_cons tol x xs
    rw [dedup_eq_map_apexOf, hs, hgs]
    simp

theorem flatten_length_ge {gl : List (List Peak)} (h : ∀ g ∈ gl, g ≠ []) :
    gl.length ≤ gl.flatten.length := by
  induction gl with
  | nil => simp
  | cons g gs ih =>
    have hg := h g (List.mem_cons_self _ _)
    have hgs := ih (fun g' hg' => h g' (List.mem_cons.mpr (Or.inr hg')))
    rw [List.flatten_cons, List.length_append, List.length_cons]
    have : 1 ≤ g.length := by
      cases g with
      | nil => exact absurd rfl hg
      | cons _ _ => simp
    omega

theorem dedup_length_le (l : List Peak) (tol : ℚ) :
    (dedup_mz_window l tol).length ≤ l.length := by
  rw [dedup_eq_map_apexOf, List.length_map]
  have h1 := flatten_length_ge (gapSplit_groups_ne_nil tol (sortPeaksByMz l))
  rw [gapSplit_flatten, sortPeaksByMz_length] at h1
  exact h1

theorem dedupStage_mem {cfg : ProcCfg} {l : List Peak} {p : Peak}
    (h : p ∈ dedupStage cfg l) : p ∈ l := by
  cases hm : cfg.mz_dedup_tolerance with
  | none => rwa [dedupStage_none hm] at h
  | some tol =>
    rw [dedupStage_some hm] at h
    by_cases ht : 0 < tol
    · rw [if_pos ht] at h; exact dedup_mem h
    · rwa [if_neg ht] at h

theorem dedupStage_ne_nil {cfg : ProcCfg} {l : List Peak} (hne : l ≠ []) :
    dedupStage cfg l ≠ [] := by
  cases hm : cfg.mz_dedup_tolerance with
  | none => rwa [dedupStage_none hm]
  | some tol =>
    rw [dedupStage_some hm]
    by_cases ht : 0 < tol
    · rw [if_pos ht]; exact dedup_ne_nil hne tol
    · rwa [if_neg ht]

theorem dedupStage_length_le (cfg : ProcCfg) (l : List Peak) :
    (dedupStage cfg l).length ≤ l.length := by
  cases hm : cfg.mz_dedup_tolerance with
  | none => rw [dedupStage_none hm]
  | some tol =>
    rw [dedupStage_some hm]
    by_cases ht : 0 < tol
    · rw [if_pos ht]; exact dedup_length_le l tol
    · rw [if_neg ht]

theorem dedup_max {l : List Peak} (hne : l ≠ []) (tol : ℚ) :
    maxQ ((dedup_mz_window l tol).map (·.2)) = maxQ (l.map (·.2)) := by
  have hdne : dedup_mz_window l tol ≠ [] := dedup_ne_nil hne tol
  have hdmne : (dedup_mz_window l tol).map (·.2) ≠ [] := by
    intro hc; exact hdne (List.map_eq_nil_iff.mp hc)
  have hlmne : l.map (·.2) ≠ [] := by
    intro hc; exact hne (List.map_eq_nil_iff.mp hc)
  refine le_antisymm ?_ ?_
  · obtain ⟨p, hp, hpv⟩ := List.mem_map.mp (maxQ_mem hdmne)
    rw [← hpv]
    exact le_maxQ (List.mem_map_of_mem _ (dedup_mem hp))
  · obtain ⟨p, hp, hpv⟩ := List.mem_map.mp (maxQ_mem hlmne)
    have hp2 : p ∈ (gapSplit tol (sortPeaksByMz l)).flatten := by
      rw [gapSplit_flatten]
      exact (sortPeaksByMz_perm l).symm.subset hp
    obtain ⟨g, hg, hpg⟩ := List.mem_flatten.mp hp2
    have hap : p.2 ≤ (apexOf g).2 := apexOf_ge hpg
    have hapmem : apexOf g ∈ dedup_mz_window l tol := by
      rw [dedup_eq_map_apexOf]
      exact List.mem_map_of_mem _ hg
    rw [← hpv]
    exact hap.trans (le_maxQ (List.mem_map_of_mem _ hapmem))

theorem dedupStage_max {cfg : ProcCfg} {l : List Peak} (hne : l ≠ []) :
    maxQ ((dedupStage cfg l).map (·.2)) = maxQ (l.map (·.2)) := by
  cases hm : cfg.mz_dedup_tolerance with
  | none => rw [dedupStage_none hm]
  | some tol =>
    rw [dedupStage_some hm]
    by_cases ht : 0 < tol
    · rw [if_pos ht]; exact dedup_max hne tol
    · rw [if_neg ht]

/-! Composite facts about the surviving peak list. -/

theorem keptStage_ne_nil_of_cap {cfg : ProcCfg} {cl : List Peak}
    (hcap : capStage cfg (keptStage cfg cl) ≠ []) : keptStage cfg cl ≠ [] := by
  intro hc
  apply hcap
  cases hm : cfg.max_peaks with
  | none => rw [capStage_none hm, hc]
  | some n => rw [capStage_some hm, hc]; simp

theorem threshold_le_max {cfg : ProcCfg} {cl : List Peak}
    (hcap : capStage cfg (keptStage cfg cl) ≠ []) :
    thresholdOf cfg (maxQ (cl.map (·.2))) ≤ maxQ (cl.map (·.2)) := by
  have hkne := keptStage_ne_nil_of_cap hcap
  obtain ⟨q, hq⟩ := List.exists_mem_of_ne_nil _ hkne
  obtain ⟨hmem, hth⟩ := keptStage_mem hq
  exact hth.trans (le_maxQ (List.mem_map_of_mem _ hmem))

theorem survivors_mem {cfg : ProcCfg} {cl : List Peak} {p : Peak}
    (h : p ∈ survivors cfg cl) :
    p ∈ cl ∧ thresholdOf cfg (maxQ (cl.map (·.2))) ≤ p.2 := by
  unfold survivors at h
  have h1 := dedupStage_mem h
  obtain ⟨q, hq, rfl⟩ := List.mem_map.mp h1
  exact keptStage_mem (capStage_mem hq)

theorem survivors_ne_nil {cfg : ProcCfg} {cl : List Peak}
    (hcap : capStage cfg (keptStage cfg cl) ≠ []) : survivors cfg cl ≠ [] := by
  unfold survivors
  apply dedupStage_ne_nil
  intro hc
  exact hcap (List.map_eq_nil_iff.mp hc)

theorem survivors_max {cfg : ProcCfg} {cl : List Peak}
    (hcap : capStage cfg (keptStage cfg cl) ≠ []) :
    maxQ ((survivors cfg cl).map (·.2)) = maxQ (cl.map (·.2)) := by
  have hkne := keptStage_ne_nil_of_cap hcap
  have hcm : (capStage cfg (keptStage cfg cl)).map (·.2) ≠ [] := by
    intro hc; exact hcap (List.map_eq_nil_iff.mp hc)
  unfold survivors
  rw [dedupStage_max hcm]
  have hmm : ((capStage cfg (keptStage cfg cl)).map (·.2)).map (·.2) =
      (capStage cfg (keptStage cfg cl)).map (fun q => q.2.2) := by
    rw [List.map_map]; rfl
  rw [hmm, capStage_max hcap]
  -- max over the kept stage equals the overall max
  have hsub : ∀ v ∈ (keptStage cfg cl).map (fun q => q.2.2), v ≤ maxQ (cl.map (·.2)) := by
    intro v hv
    obtain ⟨q, hq, rfl⟩ := List.mem_map.mp hv
    exact le_maxQ (List.mem_map_of_mem _ (keptStage_mem hq).1)
  have hkm : (keptStage cfg cl).map (fun q => q.2.2) ≠ [] := by
    intro hc; exact hkne (List.map_eq_nil_iff.mp hc)
  refine le_antisymm (hsub _ (maxQ_mem hkm)) ?_
  obtain ⟨q, hq, hqv⟩ := keptStage_exists_max
    (fun hc => hkne (by rw [keptStage, hc]; rfl)) (threshold_le_max hcap)
  rw [← hqv]
  exact le_maxQ (List.mem_map_of_mem _ hq)

theorem survivors_length_le {cfg : ProcCfg} {cl : List Peak} {n : ℕ}
    (hm : cfg.max_peaks = some n) : (survivors cfg cl).length ≤ n := by
  unfold survivors
  calc (dedupStage cfg ((capStage cfg (keptStage cfg cl)).map (·.2))).length
      ≤ ((capStage cfg (keptStage cfg cl)).map (·.2)).length := dedupStage_length_le _ _
    _ = (capStage cfg (keptStage cfg cl)).length := List.length_map _ _
    _ ≤ n := capStage_length_le hm

theorem renorm_eq {l : List Peak} (h : 0 < maxQ (l.map (·.2))) :
    renormStage l = l.map (fun p => (p.1, p.2 / maxQ (l.map (·.2)))) := by
  unfold renormStage
  rw [if_pos h]

theorem renorm_max {l : List Peak} (h : 0 < maxQ (l.map (·.2))) :
    maxQ ((renormStage l).map (·.2)) = 1 := by
  rw [renorm_eq h]
  have h1 : ((l.map (fun p : Peak => (p.1, p.2 / maxQ (l.map (·.2))))).map (·.2)) =
      (l.map (·.2)).map (fun x : ℚ => x / maxQ (l.map (·.2))) := by
    rw [List.map_map, List.map_map]
    rfl
  rw [h1, maxQ_map_div _ _ h]
  exact div_self (ne_of_gt h)

theorem clean_mk (l : List Peak) (m : ℕ) :
    clean ⟨l.map (fun p => (p.1, some p.2)), m⟩ = l := by
  unfold clean
  induction l with
  | nil => rfl
  | cons x xs ih =>
    simp only [List.map_cons, List.filterMap_cons] at ih ⊢
    rw [ih]
    rfl

/-- Claim C2 (amended): for spectra whose cleaned peak list has no negative
and at least one positive intensity, `filter_noise` returns either the input
spectrum unchanged (the no-op and all-zero paths), or an empty spectrum
(when the threshold or a zero `max_peaks` removes every peak), or a spectrum
whose maximum intensity is exactly 1. -/
theorem claim_C2_amended (cfg : ProcCfg) (s t : Spec)
    (hnn : ∀ p ∈ clean s, 0 ≤ p.2) (hpos : ∃ p ∈ clean s, 0 < p.2)
    (hok : filter_noise cfg s = .ok t) :
    t = s ∨ t.peaks = [] ∨ maxIntensity t = 1 := by
  obtain ⟨p0, hp0, hp0pos⟩ := hpos
  have hclne : clean s ≠ [] := fun hc => by rw [hc] at hp0; cases hp0
  have hmaxpos : 0 < maxQ ((clean s).map (·.2)) :=
    lt_of_lt_of_le hp0pos (le_maxQ (List.mem_map_of_mem _ hp0))
  have h1 : ¬ (s.peaks.isEmpty = true) := by
    intro hc
    have : s.peaks = [] := by simpa using hc
    apply hclne
    unfold clean
    rw [this]
    rfl
  have h2 : ¬ ((clean s).isEmpty = true) := by
    intro hc
    exact hclne (by simpa using hc)
  have h3 : ¬ ((clean s).any (fun p => decide (p.2 < 0)) = true) := by
    intro hc
    obtain ⟨p, hp, hpneg⟩ := List.any_eq_true.mp hc
    exact absurd (of_decide_eq_true hpneg) (not_lt.mpr (hnn p hp))
  have h4 : ¬ (maxQ ((clean s).map (·.2)) = 0) := ne_of_gt hmaxpos
  unfold filter_noise at hok
  rw [if_neg h1, if_neg h2, if_neg h3, if_neg h4] at hok
  by_cases h5 : ((capStage cfg (keptStage cfg (clean s))).isEmpty = true)
  · rw [if_pos h5] at hok
    cases hok
    exact Or.inr (Or.inl rfl)
  · rw [if_neg h5] at hok
    by_cases h6 : unchangedB (survivors cfg (clean s)) (clean s)
    · rw [if_pos h6] at hok
      cases hok
      exact Or.inl rfl
    · rw [if_neg h6] at hok
      cases hok
      refine Or.inr (Or.inr ?_)
      have hcap : capStage cfg (keptStage cfg (clean s)) ≠ [] := by
        intro hc; exact h5 (by rw [hc]; rfl)
      have hsmax : 0 < maxQ ((survivors cfg (clean s)).map (·.2)) := by
        rw [survivors_max hcap]; exact hmaxpos
      unfold maxIntensity
      rw [clean_mk]
      have hperm : ((sortPeaksByMz (renormStage (survivors cfg (clean s)))).map (·.2)).Perm
          ((renormStage (survivors cfg (clean s))).map (·.2)) :=
        (sortPeaksByMz_perm _).map _
      rw [maxQ_perm hperm]
      exact renorm_max hsmax

unseal Rat.mul Rat.add Rat.sub Rat.inv in
/-- Claim C2, counterexample: the single-peak spectrum with intensity 0.5
satisfies the claimed hypotheses, yet `filter_noise` takes the no-op path
(no peak removed, `np.allclose` holds) and returns it unchanged with
maximum intensity 0.5, not 1.0. -/
theorem claim_C2_counterexample :
    (∀ p ∈ clean ⟨[(10, some (1/2))], 0⟩, 0 ≤ p.2) ∧
    (∃ p ∈ clean ⟨[(10, some (1/2))], 0⟩, 0 < p.2) ∧
    filter_noise {} ⟨[(10, some (1/2))], 0⟩ = .ok ⟨[(10, some (1/2))], 0⟩ ∧
    maxIntensity ⟨[(10, some (1/2))], 0⟩ ≠ 1 := by decide

unseal Rat.mul Rat.add Rat.sub Rat.inv in
/-- Witness for the amended C2 theorem at an input that takes the
renormalizing path. -/
theorem claim_C2_witness :
    (⟨[(1, some 1)], 0⟩ : Spec) = ⟨[(1, some 4), (2, some (1/100))], 0⟩ ∨
    (⟨[(1, some 1)], 0⟩ : Spec).peaks = [] ∨
    maxIntensity ⟨[(1, some 1)], 0⟩ = 1 :=
  claim_C2_amended {} ⟨[(1, some 4), (2, some (1/100))], 0⟩ ⟨[(1, some 1)], 0⟩
    (by decide) (by decide) (by decide)

theorem allcloseB_refl : ∀ a : List ℚ, allcloseB a a = true := by
  intro a
  unfold allcloseB
  induction a with
  | nil => rfl
  | cons x xs ih =>
    rw [List.zip_cons_cons, List.all_cons, ih, Bool.and_true]
    show decide (|x - x| ≤ 1/100000000 + (1/100000) * |x|) = true
    refine decide_eq_true ?_
    rw [sub_self, abs_zero]
    positivity

theorem unchangedB_refl (l : List Peak) : unchangedB l l :=
  ⟨rfl, allcloseB_refl _⟩

theorem sorted_headD_le {g : List Peak} (hs : g.Sorted (fun a b : Peak => a.1 ≤ b.1))
    {p : Peak} (hp : p ∈ g) (d : Peak) : (g.headD d).1 ≤ p.1 := by
  cases g with
  | nil => cases hp
  | cons x xs =>
    rcases List.mem_cons.mp hp with rfl | hm
    · exact le_refl p.1
    · exact (List.pairwise_cons.mp hs).1 p hm

theorem sorted_le_getLastD : ∀ g : List Peak,
    g.Sorted (fun a b : Peak => a.1 ≤ b.1) →
    ∀ p ∈ g, ∀ d : Peak, p.1 ≤ (g.getLastD d).1 := by
  intro g
  induction g with
  | nil => intro _ p hp; cases hp
  | cons x xs ih =>
    intro hs p hp d
    obtain ⟨hx, hxs⟩ := List.pairwise_cons.mp hs
    rw [List.getLastD_cons]
    cases xs with
    | nil =>
      rcases List.mem_cons.mp hp with rfl | hm
      · exact le_refl p.1
      · cases hm
    | cons y ys =>
      rcases List.mem_cons.mp hp with rfl | hm
      · have h1 : p.1 ≤ y.1 := hx y (List.mem_cons_self _ _)
        have h2 := ih hxs y (List.mem_cons_self _ _) p
        exact le_trans h1 h2
      · exact ih hxs p hm x

/-- The groups cut by `gapSplit` are separated by m/z gaps exceeding the
tolerance: the head of each group is more than `tol` above the last element
of the previous group. -/
theorem gapSplit_boundaries (tol : ℚ) : ∀ l : List Peak,
    List.Chain' (fun g h : List Peak =>
      tol < (h.headD (0, 0)).1 - (g.getLastD (0, 0)).1) (gapSplit tol l) := by
  intro l
  induction l with
  | nil => exact List.chain'_nil
  | cons x xs ih =>
    have hmatch : gapSplit tol (x :: xs) =
        match gapSplit tol xs with
        | [] => [[x]]
        | [] :: gs => [x] :: [] :: gs
        | (y :: g) :: gs =>
          if y.1 - x.1 ≤ tol then (x :: y :: g) :: gs else [x] :: (y :: g) :: gs := rfl
    rcases he : gapSplit tol xs with _ | ⟨_ | ⟨y, g1⟩, gs⟩
    · have hv : gapSplit tol (x :: xs) = [[x]] := by rw [hmatch, he]
      rw [hv]
      exact List.chain'_singleton _
    · exact absurd rfl
        (gapSplit_groups_ne_nil tol xs [] (by rw [he]; exact List.mem_cons_self _ _))
    · rw [he] at ih
      by_cases hle : y.1 - x.1 ≤ tol
      · have hv : gapSplit tol (x :: xs) = (x :: y :: g1) :: gs := by
          rw [hmatch, he]
          show (if y.1 - x.1 ≤ tol then (x :: y :: g1) :: gs else [x] :: (y :: g1) :: gs) = _
          rw [if_pos hle]
        rw [hv]
        cases gs with
        | nil => exact List.chain'_singleton _
        | cons h2 hs2 =>
          obtain ⟨hedge, htail⟩ := List.chain'_cons.mp ih
          refine List.chain'_cons.mpr ⟨?_, htail⟩
          rw [List.getLastD_cons, List.getLastD_cons]
          rw [List.getLastD_cons] at hedge
          exact hedge
      · have hv : gapSplit tol (x :: xs) = [x] :: (y :: g1) :: gs := by
          rw [hmatch, he]
          show (if y.1 - x.1 ≤ tol then (x :: y :: g1) :: gs else [x] :: (y :: g1) :: gs) = _
          rw [if_neg hle]
        rw [hv]
        refine List.chain'_cons.mpr ⟨?_, ih⟩
        have h1 : ((y :: g1).headD (0, 0)) = y := rfl
        have h2 : (([x] : List Peak).getLastD (0, 0)) = x := rfl
        rw [h1, h2]
        exact not_le.mp hle

theorem gapSplit_sorted_groups (tol : ℚ) {l : List Peak}
    (hs : l.Sorted (fun a b : Peak => a.1 ≤ b.1)) :
    ∀ g ∈ gapSplit tol l, g.Sorted (fun a b : Peak => a.1 ≤ b.1) := by
  intro g hg
  have hsub : g.Sublist (gapSplit tol l).flatten := List.sublist_flatten_of_mem hg
  rw [gapSplit_flatten] at hsub
  exact List.Pairwise.sublist hsub hs

/-- Within each m/z-sorted group the apex m/z lies between the group head and
last, so apexes of consecutive groups inherit the boundary gap. -/
theorem apex_chain_of_boundaries (tol : ℚ) : ∀ gl : List (List Peak),
    (∀ g ∈ gl, g ≠ []) →
    (∀ g ∈ gl, g.Sorted (fun a b : Peak => a.1 ≤ b.1)) →
    List.Chain' (fun g h : List Peak =>
      tol < (h.headD (0, 0)).1 - (g.getLastD (0, 0)).1) gl →
    List.Chain' (fun a b : Peak => tol < b.1 - a.1) (gl.map apexOf) := by
  intro gl
  induction gl with
  | nil => intro _ _ _; exact List.chain'_nil
  | cons g gs ih =>
    intro hne hsort hch
    cases gs with
    | nil => exact List.chain'_singleton _
    | cons h2 hs2 =>
      obtain ⟨hedge, htail⟩ := List.chain'_cons.mp hch
      have hrest := ih (fun g' hg' => hne g' (List.mem_cons_of_mem _ hg'))
        (fun g' hg' => hsort g' (List.mem_cons_of_mem _ hg')) htail
      rw [List.map_cons] at hrest
      rw [List.map_cons, List.map_cons]
      refine List.chain'_cons.mpr ⟨?_, hrest⟩
      have hgne : g ≠ [] := hne g (List.mem_cons_self _ _)
      have hh2ne : h2 ≠ [] := hne h2 (List.mem_cons_of_mem _ (List.mem_cons_self _ _))
      have hgs : g.Sorted (fun a b : Peak => a.1 ≤ b.1) := hsort g (List.mem_cons_self _ _)
      have hh2s : h2.Sorted (fun a b : Peak => a.1 ≤ b.1) :=
        hsort h2 (List.mem_cons_of_mem _ (List.mem_cons_self _ _))
      have h1 : (apexOf g).1 ≤ (g.getLastD (0, 0)).1 :=
        sorted_le_getLastD g hgs (apexOf g) (apexOf_mem hgne) (0, 0)
      have hb : (h2.headD (0, 0)).1 ≤ (apexOf h2).1 :=
        sorted_headD_le hh2s (apexOf_mem hh2ne) (0, 0)
      linarith

/-- Consecutive peaks kept by `_dedup_mz_window` are always separated by more
than the tolerance. -/
theorem dedup_chain (l : List Peak) (tol : ℚ) :
    List.Chain' (fun a b : Peak => tol < b.1 - a.1) (dedup_mz_window l tol) := by
  rw [dedup_eq_map_apexOf]
  exact apex_chain_of_boundaries tol _ (gapSplit_groups_ne_nil tol _)
    (gapSplit_sorted_groups tol (sortPeaksByMz_sorted l)) (gapSplit_boundaries tol _)

theorem pairwise_of_gap_chain {tol : ℚ} (htol : 0 < tol) {l : List Peak}
    (hch : List.Chain' (fun a b : Peak => tol < b.1 - a.1) l) :
    l.Pairwise (fun a b : Peak => a.1 < b.1) := by
  have h1 : List.Chain' (fun a b : Peak => a.1 < b.1) l := by
    refine List.Chain'.imp ?_ hch
    intro a b hab
    linarith
  haveI : IsTrans Peak (fun a b : Peak => a.1 < b.1) :=
    ⟨fun _ _ _ hab hbc => lt_trans hab hbc⟩
  exact List.chain'_iff_pairwise.mp h1

/-- On a peak list whose consecutive gaps all exceed the tolerance, the gap
grouping produces only singleton groups. -/
theorem gapSplit_of_chain {tol : ℚ} : ∀ l : List Peak,
    List.Chain' (fun a b : Peak => tol < b.1 - a.1) l →
    gapSplit tol l = l.map (fun p => [p]) := by
  intro l
  induction l with
  | nil => intro _; rfl
  | cons x xs ih =>
    intro hch
    cases xs with
    | nil => rfl
    | cons y ys =>
      obtain ⟨hxy, htail⟩ := List.chain'_cons.mp hch
      have hrec := ih htail
      have hmatch : gapSplit tol (x :: y :: ys) =
          match gapSplit tol (y :: ys) with
          | [] => [[x]]
          | [] :: gs => [x] :: [] :: gs
          | (z :: g) :: gs =>
            if z.1 - x.1 ≤ tol then (x :: z :: g) :: gs else [x] :: (z :: g) :: gs := rfl
      rw [hmatch, hrec]
      show (if y.1 - x.1 ≤ tol then (x :: y :: []) :: ys.map (fun p => [p])
            else [x] :: [y] :: ys.map (fun p => [p])) = (x :: y :: ys).map (fun p => [p])
      rw [if_neg (not_le.mpr hxy)]
      rfl

/-- Deduplication is the identity on peak lists whose consecutive m/z gaps all
exceed the (positive) tolerance. -/
theorem dedup_id_of_chain {tol : ℚ} (htol : 0 < tol) {l : List Peak}
    (hch : List.Chain' (fun a b : Peak => tol < b.1 - a.1) l) :
    dedup_mz_window l tol = l := by
  have hpw : l.Pairwise (fun a b : Peak => a.1 < b.1) := pairwise_of_gap_chain htol hch
  have hmap : ∀ m : List Peak, (m.map (fun p => [p])).map apexOf = m := by
    intro m
    induction m with
    | nil => rfl
    | cons a as ihm =>
      rw [List.map_cons, List.map_cons, ihm]
      rfl
  rw [dedup_eq_map_apexOf, sortPeaksByMz_eq_self hpw, gapSplit_of_chain l hch, hmap]

/-- Rescaling intensities does not move m/z values, so m/z gap chains are
preserved. -/
theorem chain_map_fst {l : List Peak} {tol m : ℚ}
    (hch : List.Chain' (fun a b : Peak => tol < b.1 - a.1) l) :
    List.Chain' (fun a b : Peak => tol < b.1 - a.1)
      (l.map (fun p => (p.1, p.2 / m))) := by
  rw [List.chain'_map]
  exact hch

/-- With a zero absolute-intensity floor, the renormalized output of
`filter_noise` is a fixed point of `filter_noise`: the threshold scales with
the maximum, no peak count changed, the deduplicated list has no close pairs
left, and the no-op `np.allclose` test fires. -/
theorem renorm_fix (cfg : ProcCfg) (s : Spec) (habs : cfg.min_absolute_intensity = 0)
    (h3 : ¬ ((clean s).any (fun p => decide (p.2 < 0)) = true))
    (h4 : ¬ (maxQ ((clean s).map (·.2)) = 0))
    (h5 : ¬ ((capStage cfg (keptStage cfg (clean s))).isEmpty = true)) :
    filter_noise cfg
        ⟨(sortPeaksByMz (renormStage (survivors cfg (clean s)))).map (fun p => (p.1, some p.2)),
          s.meta⟩ =
      .ok ⟨(sortPeaksByMz (renormStage (survivors cfg (clean s)))).map (fun p => (p.1, some p.2)),
          s.meta⟩ := by
  have hcap : capStage cfg (keptStage cfg (clean s)) ≠ [] := fun hc => h5 (by rw [hc]; rfl)
  have hkne : keptStage cfg (clean s) ≠ [] := keptStage_ne_nil_of_cap hcap
  have hclne : clean s ≠ [] := fun hc => hkne (by rw [keptStage, hc]; rfl)
  have hnn : ∀ p ∈ clean s, 0 ≤ p.2 := fun p hp =>
    le_of_not_lt fun hneg => h3 (List.any_eq_true.mpr ⟨p, hp, decide_eq_true hneg⟩)
  have hclmapne : (clean s).map (fun p : Peak => p.2) ≠ [] := fun hc =>
    hclne (List.map_eq_nil_iff.mp hc)
  have hmaxnn : 0 ≤ maxQ ((clean s).map (·.2)) := by
    obtain ⟨p, hp, hpv⟩ := List.mem_map.mp (maxQ_mem hclmapne)
    exact hpv ▸ hnn p hp
  have hmaxpos : 0 < maxQ ((clean s).map (·.2)) := lt_of_le_of_ne hmaxnn (Ne.symm h4)
  have hSne : survivors cfg (clean s) ≠ [] := survivors_ne_nil hcap
  have hSmax : maxQ ((survivors cfg (clean s)).map (·.2)) = maxQ ((clean s).map (·.2)) :=
    survivors_max hcap
  have hSmaxpos : 0 < maxQ ((survivors cfg (clean s)).map (·.2)) := by
    rw [hSmax]; exact hmaxpos
  have hren : renormStage (survivors cfg (clean s)) =
      (survivors cfg (clean s)).map
        (fun p => (p.1, p.2 / maxQ ((survivors cfg (clean s)).map (·.2)))) :=
    renorm_eq hSmaxpos
  have hPlen : (sortPeaksByMz (renormStage (survivors cfg (clean s)))).length =
      (survivors cfg (clean s)).length := by
    rw [sortPeaksByMz_length, hren, List.length_map]
  have hPne : sortPeaksByMz (renormStage (survivors cfg (clean s))) ≠ [] := by
    intro hc
    rw [hc] at hPlen
    exact hSne (List.length_eq_zero.mp hPlen.symm)
  have hPperm : (sortPeaksByMz (renormStage (survivors cfg (clean s)))).Perm
      (renormStage (survivors cfg (clean s))) := sortPeaksByMz_perm _
  have hPmax : maxQ ((sortPeaksByMz (renormStage (survivors cfg (clean s)))).map (·.2)) = 1 := by
    rw [maxQ_perm (hPperm.map _)]
    exact renorm_max hSmaxpos
  have hPmem : ∀ p ∈ sortPeaksByMz (renormStage (survivors cfg (clean s))),
      ∃ q ∈ survivors cfg (clean s), p = (q.1, q.2 / maxQ ((clean s).map (·.2))) := by
    intro p hp
    have hp2 := hPperm.subset hp
    rw [hren] at hp2
    obtain ⟨q, hq, hqe⟩ := List.mem_map.mp hp2
    refine ⟨q, hq, ?_⟩
    rw [← hqe, hSmax]
  have hPnneg : ∀ p ∈ sortPeaksByMz (renormStage (survivors cfg (clean s))), 0 ≤ p.2 := by
    intro p hp
    obtain ⟨q, hq, rfl⟩ := hPmem p hp
    have hq2 : 0 ≤ q.2 := hnn q (survivors_mem hq).1
    exact div_nonneg hq2 (le_of_lt hmaxpos)
  have hthr : thresholdOf cfg 1 = max cfg.min_relative_intensity 0 := by
    unfold thresholdOf
    rw [habs, one_mul]
  have hPlow : ∀ p ∈ sortPeaksByMz (renormStage (survivors cfg (clean s))),
      max cfg.min_relative_intensity 0 ≤ p.2 := by
    intro p hp
    obtain ⟨q, hq, rfl⟩ := hPmem p hp
    have hq2 : thresholdOf cfg (maxQ ((clean s).map (·.2))) ≤ q.2 := (survivors_mem hq).2
    have hth : thresholdOf cfg (maxQ ((clean s).map (·.2))) =
        max (maxQ ((clean s).map (·.2)) * cfg.min_relative_intensity) 0 := by
      unfold thresholdOf; rw [habs]
    rw [hth] at hq2
    show max cfg.min_relative_intensity 0 ≤ q.2 / maxQ ((clean s).map (·.2))
    have hdiv : max (maxQ ((clean s).map (·.2)) * cfg.min_relative_intensity) 0 /
        maxQ ((clean s).map (·.2)) ≤ q.2 / maxQ ((clean s).map (·.2)) :=
      (div_le_div_iff_of_pos_right hmaxpos).mpr hq2
    have hfac : maxQ ((clean s).map (·.2)) * max cfg.min_relative_intensity 0 =
        max (maxQ ((clean s).map (·.2)) * cfg.min_relative_intensity) 0 := by
      rw [mul_max_of_nonneg _ _ hmaxnn, mul_zero]
    have hsimp : max (maxQ ((clean s).map (·.2)) * cfg.min_relative_intensity) 0 /
        maxQ ((clean s).map (·.2)) = max cfg.min_relative_intensity 0 := by
      rw [← hfac, mul_div_cancel_left₀ _ (ne_of_gt hmaxpos)]
    rw [← hsimp]
    exact hdiv
  have hkept2 : keptStage cfg (sortPeaksByMz (renormStage (survivors cfg (clean s)))) =
      (sortPeaksByMz (renormStage (survivors cfg (clean s)))).enum := by
    unfold keptStage
    rw [hPmax]
    refine List.filter_eq_self.mpr ?_
    intro q hq
    show decide (thresholdOf cfg 1 ≤ q.2.2) = true
    refine decide_eq_true ?_
    rw [hthr]
    exact hPlow q.2 (snd_mem_of_mem_enum hq)
  have henum_ne : (sortPeaksByMz (renormStage (survivors cfg (clean s)))).enum ≠ [] := by
    intro hc
    have hl := List.enum_length (l := sortPeaksByMz (renormStage (survivors cfg (clean s))))
    rw [hc] at hl
    exact hPne (List.length_eq_zero.mp (by simpa using hl.symm))
  have hcap2 : capStage cfg (sortPeaksByMz (renormStage (survivors cfg (clean s)))).enum =
      (sortPeaksByMz (renormStage (survivors cfg (clean s)))).enum := by
    cases hm : cfg.max_peaks with
    | none => exact capStage_none hm _
    | some n =>
      have hlen : ((sortPeaksByMz (renormStage (survivors cfg (clean s)))).enum).length =
          (survivors cfg (clean s)).length := by
        rw [List.enum_length, hPlen]
      have hnlt :
          ¬ (n < ((sortPeaksByMz (renormStage (survivors cfg (clean s)))).enum).length) := by
        rw [hlen]
        exact not_lt.mpr (survivors_length_le hm)
      rw [capStage_some hm, if_neg hnlt]
  have hchainP : ∀ tol : ℚ, cfg.mz_dedup_tolerance = some tol → 0 < tol →
      List.Chain' (fun a b : Peak => tol < b.1 - a.1)
        (sortPeaksByMz (renormStage (survivors cfg (clean s)))) := by
    intro tol hm htol
    have hSdef : survivors cfg (clean s) =
        dedup_mz_window ((capStage cfg (keptStage cfg (clean s))).map (·.2)) tol := by
      unfold survivors
      rw [dedupStage_some hm, if_pos htol]
    have hchS : List.Chain' (fun a b : Peak => tol < b.1 - a.1) (survivors cfg (clean s)) := by
      rw [hSdef]
      exact dedup_chain _ tol
    have hchSm : List.Chain' (fun a b : Peak => tol < b.1 - a.1)
        ((survivors cfg (clean s)).map
          (fun p => (p.1, p.2 / maxQ ((survivors cfg (clean s)).map (·.2))))) :=
      chain_map_fst hchS
    have hpw := pairwise_of_gap_chain htol hchSm
    rw [hren, sortPeaksByMz_eq_self hpw]
    exact hchSm
  have hdedup2 : dedupStage cfg (sortPeaksByMz (renormStage (survivors cfg (clean s)))) =
      sortPeaksByMz (renormStage (survivors cfg (clean s))) := by
    cases hm : cfg.mz_dedup_tolerance with
    | none => exact dedupStage_none hm _
    | some tol =>
      rw [dedupStage_some hm]
      by_cases htol : 0 < tol
      · rw [if_pos htol]
        exact dedup_id_of_chain htol (hchainP tol hm htol)
      · rw [if_neg htol]
  have hsurvdef : ∀ l : List Peak, survivors cfg l =
      dedupStage cfg ((capStage cfg (keptStage cfg l)).map (·.2)) := fun _ => rfl
  have hsurv2 : survivors cfg (sortPeaksByMz (renormStage (survivors cfg (clean s)))) =
      sortPeaksByMz (renormStage (survivors cfg (clean s))) := by
    rw [hsurvdef (sortPeaksByMz (renormStage (survivors cfg (clean s))))]
    rw [hkept2, hcap2, List.enum_map_snd]
    exact hdedup2
  have hclean2 : clean ⟨(sortPeaksByMz (renormStage (survivors cfg (clean s)))).map
      (fun p => (p.1, some p.2)), s.meta⟩ =
      sortPeaksByMz (renormStage (survivors cfg (clean s))) := clean_mk _ _
  have hc1 : ¬ ((Spec.mk ((sortPeaksByMz (renormStage (survivors cfg (clean s)))).map
      (fun p => (p.1, some p.2))) s.meta).peaks.isEmpty = true) := by
    show ¬ (((sortPeaksByMz (renormStage (survivors cfg (clean s)))).map
      (fun p => (p.1, some p.2))).isEmpty = true)
    intro hc
    have hmn : (sortPeaksByMz (renormStage (survivors cfg (clean s)))).map
        (fun p => (p.1, some p.2)) = [] := by simpa using hc
    exact hPne (List.map_eq_nil_iff.mp hmn)
  have hc2 : ¬ ((sortPeaksByMz (renormStage (survivors cfg (clean s)))).isEmpty = true) := by
    intro hc
    exact hPne (by simpa using hc)
  have hc3 : ¬ ((sortPeaksByMz (renormStage (survivors cfg (clean s)))).any
      (fun p => decide (p.2 < 0)) = true) := by
    intro hc
    obtain ⟨p, hp, hpneg⟩ := List.any_eq_true.mp hc
    exact absurd (of_decide_eq_true hpneg) (not_lt.mpr (hPnneg p hp))
  have hc4 : ¬ (maxQ ((sortPeaksByMz (renormStage (survivors cfg (clean s)))).map (·.2)) = 0) := by
    rw [hPmax]
    exact one_ne_zero
  have hc5 : ¬ ((capStage cfg (keptStage cfg
      (sortPeaksByMz (renormStage (survivors cfg (clean s)))))).isEmpty = true) := by
    rw [hkept2, hcap2]
    intro hc
    exact henum_ne (by simpa using hc)
  have hc6 : unchangedB
      (survivors cfg (sortPeaksByMz (renormStage (survivors cfg (clean s)))))
      (sortPeaksByMz (renormStage (survivors cfg (clean s)))) := by
    rw [hsurv2]
    exact unchangedB_refl _
  unfold filter_noise
  rw [hclean2]
  rw [if_neg hc1, if_neg hc2, if_neg hc3, if_neg hc4, if_neg hc5, if_pos hc6]

/-- With a zero absolute-intensity floor, `filter_noise` is idempotent on its
own successful outputs. -/
theorem filter_noise_idem (cfg : ProcCfg) (habs : cfg.min_absolute_intensity = 0)
    {s t : Spec} (hok : filter_noise cfg s = .ok t) : filter_noise cfg t = .ok t := by
  unfold filter_noise at hok
  by_cases h1 : (s.peaks.isEmpty = true)
  · rw [if_pos h1] at hok
    cases hok
    unfold filter_noise
    rw [if_pos h1]
  · rw [if_neg h1] at hok
    by_cases h2 : ((clean s).isEmpty = true)
    · rw [if_pos h2] at hok
      cases hok
      unfold filter_noise
      rw [if_pos (show (Spec.mk ([] : List (ℚ × Option ℚ)) s.meta).peaks.isEmpty = true from rfl)]
    · rw [if_neg h2] at hok
      by_cases h3 : ((clean s).any (fun p => decide (p.2 < 0)) = true)
      · rw [if_pos h3] at hok
        cases hok
      · rw [if_neg h3] at hok
        by_cases h4 : (maxQ ((clean s).map (·.2)) = 0)
        · rw [if_pos h4] at hok
          cases hok
          unfold filter_noise
          rw [if_neg h1, if_neg h2, if_neg h3, if_pos h4]
        · rw [if_neg h4] at hok
          by_cases h5 : ((capStage cfg (keptStage cfg (clean s))).isEmpty = true)
          · rw [if_pos h5] at hok
            cases hok
            unfold filter_noise
            rw [if_pos
              (show (Spec.mk ([] : List (ℚ × Option ℚ)) s.meta).peaks.isEmpty = true from rfl)]
          · rw [if_neg h5] at hok
            by_cases h6 : unchangedB (survivors cfg (clean s)) (clean s)
            · rw [if_pos h6] at hok
              cases hok
              unfold filter_noise
              rw [if_neg h1, if_neg h2, if_neg h3, if_neg h4, if_neg h5, if_pos h6]
            · rw [if_neg h6] at hok
              cases hok
              exact renorm_fix cfg s habs h3 h4 h5

/-- On the renormalizing path of `filter_noise` (no negative intensity,
nonzero maximum, nonempty capped stage), the emitted sorted renormalized peak
list is nonempty, nonnegative, and has maximum intensity exactly 1. -/
theorem renorm_out_facts (cfg : ProcCfg) (cl : List Peak)
    (h3 : ¬ (cl.any (fun p => decide (p.2 < 0)) = true))
    (h4 : ¬ (maxQ (cl.map (·.2)) = 0))
    (h5 : ¬ ((capStage cfg (keptStage cfg cl)).isEmpty = true)) :
    sortPeaksByMz (renormStage (survivors cfg cl)) ≠ [] ∧
    (∀ p ∈ sortPeaksByMz (renormStage (survivors cfg cl)), 0 ≤ p.2) ∧
    maxQ ((sortPeaksByMz (renormStage (survivors cfg cl))).map (·.2)) = 1 := by
  have hcap : capStage cfg (keptStage cfg cl) ≠ [] := fun hc => h5 (by rw [hc]; rfl)
  have hkne : keptStage cfg cl ≠ [] := keptStage_ne_nil_of_cap hcap
  have hclne : cl ≠ [] := fun hc => hkne (by rw [keptStage, hc]; rfl)
  have hnn : ∀ p ∈ cl, 0 ≤ p.2 := fun p hp =>
    le_of_not_lt fun hneg => h3 (List.any_eq_true.mpr ⟨p, hp, decide_eq_true hneg⟩)
  have hclmapne : cl.map (fun p : Peak => p.2) ≠ [] := fun hc =>
    hclne (List.map_eq_nil_iff.mp hc)
  have hmaxnn : 0 ≤ maxQ (cl.map (·.2)) := by
    obtain ⟨p, hp, hpv⟩ := List.mem_map.mp (maxQ_mem hclmapne)
    exact hpv ▸ hnn p hp
  have hmaxpos : 0 < maxQ (cl.map (·.2)) := lt_of_le_of_ne hmaxnn (Ne.symm h4)
  have hSne : survivors cfg cl ≠ [] := survivors_ne_nil hcap
  have hSmax : maxQ ((survivors cfg cl).map (·.2)) = maxQ (cl.map (·.2)) :=
    survivors_max hcap
  have hSmaxpos : 0 < maxQ ((survivors cfg cl).map (·.2)) := by
    rw [hSmax]; exact hmaxpos
  have hren : renormStage (survivors cfg cl) =
      (survivors cfg cl).map
        (fun p => (p.1, p.2 / maxQ ((survivors cfg cl).map (·.2)))) :=
    renorm_eq hSmaxpos
  have hPlen : (sortPeaksByMz (renormStage (survivors cfg cl))).length =
      (survivors cfg cl).length := by
    rw [sortPeaksByMz_length, hren, List.length_map]
  have hPne : sortPeaksByMz (renormStage (survivors cfg cl)) ≠ [] := by
    intro hc
    rw [hc] at hPlen
    exact hSne (List.length_eq_zero.mp hPlen.symm)
  have hPperm : (sortPeaksByMz (renormStage (survivors cfg cl))).Perm
      (renormStage (survivors cfg cl)) := sortPeaksByMz_perm _
  have hPmax : maxQ ((sortPeaksByMz (renormStage (survivors cfg cl))).map (·.2)) = 1 := by
    rw [maxQ_perm (hPperm.map _)]
    exact renorm_max hSmaxpos
  have hPmem : ∀ p ∈ sortPeaksByMz (renormStage (survivors cfg cl)),
      ∃ q ∈ survivors cfg cl, p = (q.1, q.2 / maxQ (cl.map (·.2))) := by
    intro p hp
    have hp2 := hPperm.subset hp
    rw [hren] at hp2
    obtain ⟨q, hq, hqe⟩ := List.mem_map.mp hp2
    refine ⟨q, hq, ?_⟩
    rw [← hqe, hSmax]
  have hPnneg : ∀ p ∈ sortPeaksByMz (renormStage (survivors cfg cl)), 0 ≤ p.2 := by
    intro p hp
    obtain ⟨q, hq, rfl⟩ := hPmem p hp
    have hq2 : 0 ≤ q.2 := hnn q (survivors_mem hq).1
    exact div_nonneg hq2 (le_of_lt hmaxpos)
  exact ⟨hPne, hPnneg, hPmax⟩

/-- Step equation for `normalize` in basepeak mode once the empty-input and
negative-intensity guards are passed. -/
theorem normalize_basepeak_eq (cfg : ProcCfg) (s : Spec)
    (hb : cfg.normalization = some NormMode.basepeak)
    (hpe : ¬ (s.peaks.isEmpty = true))
    (hneg : ¬ ((clean s).any (fun p => decide (p.2 < 0)) = true)) :
    normalize cfg s =
      if (clean s).isEmpty then
        .error "zero-size array to reduction operation maximum which has no identity"
      else if maxQ ((clean s).map (·.2)) = 0 then .ok s
      else .ok ⟨(clean s).map (fun p => (p.1, some (p.2 / maxQ ((clean s).map (·.2))))),
        s.meta⟩ := by
  unfold normalize
  rw [if_neg hpe, if_neg hneg, hb]

/-- In basepeak mode, `normalize` fixes every spectrum that is empty, has a
nonempty cleaned peak list of all-zero intensities, or consists of non-NaN
nonnegative peaks of maximum intensity exactly 1. -/
theorem normalize_basepeak_fix (cfg : ProcCfg) (t : Spec)
    (hb : cfg.normalization = some NormMode.basepeak)
    (h : t.peaks = [] ∨
      (clean t ≠ [] ∧ ¬ ((clean t).any (fun p => decide (p.2 < 0)) = true) ∧
        maxQ ((clean t).map (·.2)) = 0) ∨
      (∃ l : List Peak, l ≠ [] ∧ t.peaks = l.map (fun p => (p.1, some p.2)) ∧
        (∀ p ∈ l, 0 ≤ p.2) ∧ maxQ (l.map (·.2)) = 1)) :
    normalize cfg t = .ok t := by
  rcases h with hE | ⟨hcne, hneg, hmax⟩ | ⟨l, hlne, hpk, hnn, hmax⟩
  · unfold normalize
    rw [if_pos (by rw [hE]; rfl)]
  · have hpne : ¬ (t.peaks.isEmpty = true) := by
      intro hc
      apply hcne
      have hpk0 : t.peaks = [] := by simpa using hc
      unfold clean
      rw [hpk0]
      rfl
    rw [normalize_basepeak_eq cfg t hb hpne hneg,
      if_neg (show ¬ ((clean t).isEmpty = true) from fun hc => hcne (by simpa using hc)),
      if_pos hmax]
  · obtain ⟨pk, mt⟩ := t
    have hpk' : pk = l.map (fun p => (p.1, some p.2)) := hpk
    subst hpk'
    have hcl : clean ⟨l.map (fun p => (p.1, some p.2)), mt⟩ = l := clean_mk l mt
    have hpne : ¬ ((Spec.mk (l.map (fun p => (p.1, some p.2))) mt).peaks.isEmpty = true) := by
      show ¬ ((l.map (fun p => (p.1, some p.2))).isEmpty = true)
      intro hc
      exact hlne (by simpa using hc)
    have hneg : ¬ ((clean ⟨l.map (fun p => (p.1, some p.2)), mt⟩).any
        (fun p => decide (p.2 < 0)) = true) := by
      rw [hcl]
      intro hc
      obtain ⟨p, hp, hpneg⟩ := List.any_eq_true.mp hc
      exact absurd (of_decide_eq_true hpneg) (not_lt.mpr (hnn p hp))
    rw [normalize_basepeak_eq cfg _ hb hpne hneg, hcl,
      if_neg (show ¬ (l.isEmpty = true) from fun hc => hlne (by simpa using hc)),
      if_neg (show ¬ (maxQ (l.map (·.2)) = 0) from by rw [hmax]; exact one_ne_zero),
      hmax]
    simp only [div_one]

/-- Shape of a successful `filter_noise` result after a basepeak `normalize`
pass: empty, all-zero, or a list of non-NaN nonnegative peaks with maximum
intensity exactly 1 — in each case a spectrum that a second basepeak pass
fixes. -/
theorem basepeak_out_shape (cfg : ProcCfg) (s u t : Spec)
    (hb : cfg.normalization = some NormMode.basepeak)
    (hnu : normalize cfg s = .ok u)
    (hfu : filter_noise cfg u = .ok t) :
    t.peaks = [] ∨
    (clean t ≠ [] ∧ ¬ ((clean t).any (fun p => decide (p.2 < 0)) = true) ∧
      maxQ ((clean t).map (·.2)) = 0) ∨
    (∃ l : List Peak, l ≠ [] ∧ t.peaks = l.map (fun p => (p.1, some p.2)) ∧
      (∀ p ∈ l, 0 ≤ p.2) ∧ maxQ (l.map (·.2)) = 1) := by
  by_cases hsE : s.peaks.isEmpty = true
  · have h1 : normalize cfg s = .ok s := by
      unfold normalize
      rw [if_pos hsE]
    have hus : s = u := Except.ok.inj (h1.symm.trans hnu)
    subst hus
    have h2 : filter_noise cfg s = .ok s := by
      unfold filter_noise
      rw [if_pos hsE]
    have hst : s = t := Except.ok.inj (h2.symm.trans hfu)
    subst hst
    exact Or.inl (by simpa using hsE)
  · by_cases hnegs : (clean s).any (fun p => decide (p.2 < 0)) = true
    · have h1 : normalize cfg s = .error "Negative intensity values are not allowed" := by
        unfold normalize
        rw [if_neg hsE, if_pos hnegs]
      rw [h1] at hnu
      exact Except.noConfusion hnu
    · have hstep := normalize_basepeak_eq cfg s hb hsE hnegs
      by_cases hclE : (clean s).isEmpty = true
      · rw [hstep, if_pos hclE] at hnu
        exact Except.noConfusion hnu
      · by_cases hm0 : maxQ ((clean s).map (·.2)) = 0
        · rw [hstep, if_neg hclE, if_pos hm0] at hnu
          have hus : s = u := Except.ok.inj hnu
          subst hus
          have h2 : filter_noise cfg s = .ok s := by
            unfold filter_noise
            rw [if_neg hsE, if_neg hclE, if_neg hnegs, if_pos hm0]
          have hst : s = t := Except.ok.inj (h2.symm.trans hfu)
          subst hst
          exact Or.inr (Or.inl ⟨fun hc => hclE (by rw [hc]; rfl), hnegs, hm0⟩)
        · rw [hstep, if_neg hclE, if_neg hm0] at hnu
          have hu : (⟨(clean s).map (fun p => (p.1, some (p.2 / maxQ ((clean s).map (·.2))))),
              s.meta⟩ : Spec) = u := Except.ok.inj hnu
          subst hu
          have hnns : ∀ p ∈ clean s, 0 ≤ p.2 := fun p hp =>
            le_of_not_lt fun hneg => hnegs (List.any_eq_true.mpr ⟨p, hp, decide_eq_true hneg⟩)
          have hclne : clean s ≠ [] := fun hc => hclE (by rw [hc]; rfl)
          have hclmapne : (clean s).map (fun p : Peak => p.2) ≠ [] := fun hc =>
            hclne (List.map_eq_nil_iff.mp hc)
          have hmaxnn : 0 ≤ maxQ ((clean s).map (·.2)) := by
            obtain ⟨p, hp, hpv⟩ := List.mem_map.mp (maxQ_mem hclmapne)
            exact hpv ▸ hnns p hp
          have hmaxpos : 0 < maxQ ((clean s).map (·.2)) := lt_of_le_of_ne hmaxnn (Ne.symm hm0)
          have hupk : ((clean s).map (fun p => (p.1, some (p.2 / maxQ ((clean s).map (·.2)))))) =
              ((clean s).map (fun p => (p.1, p.2 / maxQ ((clean s).map (·.2))))).map
                (fun p => (p.1, some p.2)) := by
            rw [List.map_map]
            rfl
          rw [hupk] at hfu
          obtain ⟨l₀, hl₀⟩ : ∃ l₀, (clean s).map
              (fun p => (p.1, p.2 / maxQ ((clean s).map (·.2)))) = l₀ := ⟨_, rfl⟩
          rw [hl₀] at hfu
          have hl₀ne : l₀ ≠ [] := by
            rw [← hl₀]
            intro hc
            exact hclne (List.map_eq_nil_iff.mp hc)
          have hl₀nn : ∀ p ∈ l₀, 0 ≤ p.2 := by
            rw [← hl₀]
            intro p hp
            obtain ⟨q, hq, rfl⟩ := List.mem_map.mp hp
            exact div_nonneg (hnns q hq) (le_of_lt hmaxpos)
          have hl₀max : maxQ (l₀.map (·.2)) = 1 := by
            rw [← hl₀]
            have hmm : (((clean s).map (fun p : Peak =>
                (p.1, p.2 / maxQ ((clean s).map (·.2))))).map (·.2)) =
                ((clean s).map (·.2)).map (fun x : ℚ => x / maxQ ((clean s).map (·.2))) := by
              rw [List.map_map, List.map_map]
              rfl
            rw [hmm, maxQ_map_div _ _ hmaxpos]
            exact div_self (ne_of_gt hmaxpos)
          have hcluL : clean ⟨l₀.map (fun p => (p.1, some p.2)), s.meta⟩ = l₀ := clean_mk _ _
          have hc1 : ¬ ((Spec.mk (l₀.map (fun p => (p.1, some p.2))) s.meta).peaks.isEmpty
              = true) := by
            show ¬ ((l₀.map (fun p => (p.1, some p.2))).isEmpty = true)
            intro hc
            exact hl₀ne (by simpa using hc)
          have hc2 : ¬ (l₀.isEmpty = true) := fun hc => hl₀ne (by simpa using hc)
          have hc3 : ¬ (l₀.any (fun p => decide (p.2 < 0)) = true) := by
            intro hc
            obtain ⟨p, hp, hpneg⟩ := List.any_eq_true.mp hc
            exact absurd (of_decide_eq_true hpneg) (not_lt.mpr (hl₀nn p hp))
          have hc4 : ¬ (maxQ (l₀.map (·.2)) = 0) := by
            rw [hl₀max]
            exact one_ne_zero
          unfold filter_noise at hfu
          rw [hcluL] at hfu
          rw [if_neg hc1, if_neg hc2, if_neg hc3, if_neg hc4] at hfu
          by_cases h5 : ((capStage cfg (keptStage cfg l₀)).isEmpty = true)
          · rw [if_pos h5] at hfu
            have hte : (⟨[], s.meta⟩ : Spec) = t := Except.ok.inj hfu
            refine Or.inl ?_
            rw [← hte]
          · rw [if_neg h5] at hfu
            by_cases h6 : unchangedB (survivors cfg l₀) l₀
            · rw [if_pos h6] at hfu
              have hte : (⟨l₀.map (fun p => (p.1, some p.2)), s.meta⟩ : Spec) = t :=
                Except.ok.inj hfu
              refine Or.inr (Or.inr ⟨l₀, hl₀ne, ?_, hl₀nn, hl₀max⟩)
              rw [← hte]
            · rw [if_neg h6] at hfu
              have hte : (⟨(sortPeaksByMz (renormStage (survivors cfg l₀))).map
                  (fun p => (p.1, some p.2)), s.meta⟩ : Spec) = t := Except.ok.inj hfu
              obtain ⟨hRne, hRnn, hRmax⟩ := renorm_out_facts cfg l₀ hc3 hc4 h5
              refine Or.inr (Or.inr ⟨sortPeaksByMz (renormStage (survivors cfg l₀)),
                hRne, ?_, hRnn, hRmax⟩)
              rw [← hte]

/-- Claim C4 (amended): `process` is idempotent for every configuration with
the default zero `min_absolute_intensity` whose normalization mode is not
`tic` (no normalization, or basepeak normalization): if `process` maps `s` to
`t`, it maps `t` to `t`.  A positive absolute floor or tic normalization
breaks idempotence. -/
theorem claim_C4_amended (cfg : ProcCfg) (s t : Spec)
    (habs : cfg.min_absolute_intensity = 0)
    (hnorm : cfg.normalization ≠ some NormMode.tic)
    (hok : process cfg s = .ok t) : process cfg t = .ok t := by
  cases hmode : cfg.normalization with
  | none =>
    have hfe : ∀ u : Spec, process cfg u = filter_noise cfg u := by
      intro u
      unfold process
      rw [hmode]
    rw [hfe] at hok
    rw [hfe]
    exact filter_noise_idem cfg habs hok
  | some nm =>
    cases nm with
    | tic => exact absurd hmode hnorm
    | basepeak =>
      have hfe : ∀ u : Spec, process cfg u = normalize cfg u >>= filter_noise cfg := by
        intro u
        unfold process
        rw [hmode]
      rw [hfe] at hok
      rw [hfe]
      cases hnu : normalize cfg s with
      | error e =>
        rw [hnu] at hok
        have hok' : (Except.error e : Except String Spec) = .ok t := hok
        exact Except.noConfusion hok'
      | ok u =>
        rw [hnu] at hok
        have hfu : filter_noise cfg u = .ok t := hok
        have hft : filter_noise cfg t = .ok t := filter_noise_idem cfg habs hfu
        have hnt : normalize cfg t = .ok t :=
          normalize_basepeak_fix cfg t hmode (basepeak_out_shape cfg s u t hmode hnu hfu)
        rw [hnt]
        exact hft

unseal Rat.mul Rat.add Rat.sub Rat.inv in
/-- Claim C4, counterexample: idempotence fails both with a positive absolute
intensity floor and with tic normalization.  On intensities (2, 0.6, 0.4) with
`min_absolute_intensity` 0.5 the first pass renormalizes the two kept peaks to
1 and 0.3 and the second pass drops the 0.3 peak; with tic normalization on
intensities (100, 1.5, 0.5) the first pass drops the smallest peak and
renormalizes the rest by the base peak, so the second pass's tic rescale
changes the intensities again. -/
theorem claim_C4_counterexample :
    ((process { min_absolute_intensity := 1/2 }
        ⟨[(1, some 2), (2, some (3/5)), (3, some (2/5))], 0⟩).bind
      (process { min_absolute_intensity := 1/2 }) ≠
    process { min_absolute_intensity := 1/2 }
      ⟨[(1, some 2), (2, some (3/5)), (3, some (2/5))], 0⟩) ∧
    ((process { normalization := some NormMode.tic }
        ⟨[(1, some 100), (2, some (3/2)), (3, some (1/2))], 0⟩).bind
      (process { normalization := some NormMode.tic }) ≠
    process { normalization := some NormMode.tic }
      ⟨[(1, some 100), (2, some (3/2)), (3, some (1/2))], 0⟩) := by
  decide

unseal Rat.mul Rat.add Rat.sub Rat.inv in
/-- Witness for the amended C4 theorem with basepeak normalization, on an
input that takes the renormalizing path of the filter. -/
theorem claim_C4_witness :
    process { normalization := some NormMode.basepeak } ⟨[(2, some 1)], 0⟩ =
      .ok ⟨[(2, some 1)], 0⟩ :=
  claim_C4_amended { normalization := some NormMode.basepeak }
    ⟨[(2, some 4), (3, some (1/100))], 0⟩ ⟨[(2, some 1)], 0⟩
    rfl (by decide) (by decide)

end Processing

namespace Metrics

open Processing (Peak)

theorem lookupQ_nil (k : ℚ) : lookupQ [] k = 0 := rfl

theorem lookupQ_cons (k1 v1 : ℚ) (rest : List (ℚ × ℚ)) (k : ℚ) :
    lookupQ ((k1, v1) :: rest) k = if k1 = k then v1 else lookupQ rest k := by
  unfold lookupQ
  by_cases h : k1 = k
  · have hpa : (fun e : ℚ × ℚ => decide (e.1 = k)) (k1, v1) = true := decide_eq_true h
    rw [if_pos h,
      @List.find?_cons_of_pos (ℚ × ℚ) (fun e => decide (e.1 = k)) (k1, v1) rest hpa]
    rfl
  · have hpa : ¬ ((fun e : ℚ × ℚ => decide (e.1 = k)) (k1, v1) = true) :=
      fun hc => h (of_decide_eq_true hc)
    rw [if_neg h,
      @List.find?_cons_of_neg (ℚ × ℚ) (fun e => decide (e.1 = k)) (k1, v1) rest hpa]

theorem lookup_addTo : ∀ (m : List (ℚ × ℚ)) (k0 v k : ℚ),
    lookupQ (addTo m k0 v) k = lookupQ m k + (if k0 = k then v else 0) := by
  intro m
  induction m with
  | nil =>
    intro k0 v k
    show lookupQ [(k0, v)] k = lookupQ [] k + (if k0 = k then v else 0)
    rw [lookupQ_cons, lookupQ_nil, zero_add]
  | cons e rest ih =>
    intro k0 v k
    obtain ⟨k1, v1⟩ := e
    have hstep : addTo ((k1, v1) :: rest) k0 v =
        if k1 = k0 then (k1, v1 + v) :: rest else (k1, v1) :: addTo rest k0 v := rfl
    rw [hstep]
    by_cases h : k1 = k0
    · rw [if_pos h]
      rw [lookupQ_cons, lookupQ_cons]
      by_cases h2 : k1 = k
      · rw [if_pos h2, if_pos h2, if_pos (h.symm.trans h2)]
      · rw [if_neg h2, if_neg h2, if_neg (fun hc => h2 (h.trans hc)), add_zero]
    · rw [if_neg h]
      rw [lookupQ_cons, lookupQ_cons]
      by_cases h2 : k1 = k
      · rw [if_pos h2, if_pos h2, if_neg (fun hc => h (h2.trans hc.symm)), add_zero]
      · rw [if_neg h2, if_neg h2, ih]

theorem specVal_nil (k : ℚ) : specVal [] k = 0 := rfl

theorem specVal_cons (p : Peak) (ps : List Peak) (k : ℚ) :
    specVal (p :: ps) k = (if round3 p.1 = k then p.2 else 0) + specVal ps k := by
  unfold specVal
  rw [List.filter_cons]
  by_cases h : round3 p.1 = k
  · have hpa : (fun q : Peak => decide (round3 q.1 = k)) p = true := decide_eq_true h
    rw [if_pos hpa, List.map_cons, List.sum_cons, if_pos h]
  · have hpa : ¬ ((fun q : Peak => decide (round3 q.1 = k)) p = true) :=
      fun hc => h (of_decide_eq_true hc)
    rw [if_neg hpa, if_neg h, zero_add]

theorem lookup_vecMap : ∀ (a : List Peak) (m : List (ℚ × ℚ)) (k : ℚ),
    lookupQ (a.foldl (fun m p => addTo m (round3 p.1) p.2) m) k = lookupQ m k + specVal a k := by
  intro a
  induction a with
  | nil =>
    intro m k
    show lookupQ m k = lookupQ m k + specVal [] k
    rw [specVal_nil, add_zero]
  | cons p ps ih =>
    intro m k
    show lookupQ (ps.foldl (fun m q => addTo m (round3 q.1) q.2) (addTo m (round3 p.1) p.2)) k = _
    rw [ih, lookup_addTo, specVal_cons]
    ring

theorem lookupQ_vecMap (a : List Peak) (k : ℚ) : lookupQ (vecMap a) k = specVal a k := by
  have h := lookup_vecMap a [] k
  rw [lookupQ_nil, zero_add] at h
  exact h

theorem addTo_keys : ∀ (m : List (ℚ × ℚ)) (k0 v k : ℚ),
    (k ∈ (addTo m k0 v).map (·.1) ↔ k ∈ m.map (·.1) ∨ k = k0) := by
  intro m
  induction m with
  | nil =>
    intro k0 v k
    show k ∈ ([(k0, v)] : List (ℚ × ℚ)).map (·.1) ↔
      k ∈ ([] : List (ℚ × ℚ)).map (·.1) ∨ k = k0
    simp
  | cons e rest ih =>
    intro k0 v k
    obtain ⟨k1, v1⟩ := e
    have hstep : addTo ((k1, v1) :: rest) k0 v =
        if k1 = k0 then (k1, v1 + v) :: rest else (k1, v1) :: addTo rest k0 v := rfl
    rw [hstep]
    by_cases h : k1 = k0
    · rw [if_pos h]
      subst h
      simp only [List.map_cons, List.mem_cons]
      tauto
    · rw [if_neg h]
      simp only [List.map_cons, List.mem_cons]
      rw [ih]
      tauto

theorem vecMap_keys : ∀ (a : List Peak) (m : List (ℚ × ℚ)) (k : ℚ),
    (k ∈ (a.foldl (fun m p => addTo m (round3 p.1) p.2) m).map (·.1) ↔
      k ∈ m.map (·.1) ∨ k ∈ a.map (fun p => round3 p.1)) := by
  intro a
  induction a with
  | nil =>
    intro m k
    show k ∈ m.map (·.1) ↔ k ∈ m.map (·.1) ∨ k ∈ ([] : List Peak).map (fun p => round3 p.1)
    simp
  | cons p ps ih =>
    intro m k
    show k ∈ ((ps.foldl (fun m q => addTo m (round3 q.1) q.2)
      (addTo m (round3 p.1) p.2)).map (·.1)) ↔ _
    rw [ih, addTo_keys]
    simp only [List.map_cons, List.mem_cons]
    tauto

theorem vecMap_keys_iff (a : List Peak) (k : ℚ) :
    k ∈ (vecMap a).map (·.1) ↔ k ∈ a.map (fun p => round3 p.1) := by
  have hv : vecMap a = a.foldl (fun m p => addTo m (round3 p.1) p.2) [] := rfl
  rw [hv]
  simpa using vecMap_keys a [] k

theorem vecMap_eq_nil_iff (a : List Peak) : vecMap a = [] ↔ a = [] := by
  constructor
  · intro h
    cases ha : a with
    | nil => rfl
    | cons p ps =>
      exfalso
      have hk : round3 p.1 ∈ (vecMap a).map (·.1) := by
        rw [vecMap_keys_iff, ha]
        exact List.mem_map_of_mem _ (List.mem_cons_self _ _)
      rw [h] at hk
      cases hk
  · intro h
    rw [h]
    rfl

theorem sum_map_filter_ne_zero (f : ℚ → ℚ) : ∀ l : List ℚ,
    (l.map f).sum = ((l.filter (fun k => decide (f k ≠ 0))).map f).sum := by
  intro l
  induction l with
  | nil => rfl
  | cons x xs ih =>
    rw [List.filter_cons]
    by_cases h : f x ≠ 0
    · have hpa : (fun k => decide (f k ≠ 0)) x = true := decide_eq_true h
      rw [if_pos hpa, List.map_cons, List.map_cons, List.sum_cons, List.sum_cons, ih]
    · have hpa : ¬ ((fun k => decide (f k ≠ 0)) x = true) :=
        fun hc => h (of_decide_eq_true hc)
      rw [if_neg hpa, List.map_cons, List.sum_cons, ih]
      push_neg at h
      rw [h, zero_add]

theorem sum_map_eq_of_mem_iff {f : ℚ → ℚ} {l₁ l₂ : List ℚ} (h₁ : l₁.Nodup) (h₂ : l₂.Nodup)
    (hmem : ∀ k, f k ≠ 0 → (k ∈ l₁ ↔ k ∈ l₂)) :
    (l₁.map f).sum = (l₂.map f).sum := by
  rw [sum_map_filter_ne_zero f l₁, sum_map_filter_ne_zero f l₂]
  have hperm : (l₁.filter (fun k => decide (f k ≠ 0))).Perm
      (l₂.filter (fun k => decide (f k ≠ 0))) := by
    rw [List.perm_ext_iff_of_nodup (h₁.filter _) (h₂.filter _)]
    intro k
    rw [List.mem_filter, List.mem_filter]
    constructor
    · rintro ⟨hk, hf⟩
      exact ⟨(hmem k (of_decide_eq_true hf)).mp hk, hf⟩
    · rintro ⟨hk, hf⟩
      exact ⟨(hmem k (of_decide_eq_true hf)).mpr hk, hf⟩
  exact (hperm.map f).sum_eq

theorem unionKeys_nodup (A B : List (ℚ × ℚ)) : (unionKeys A B).Nodup := by
  unfold unionKeys
  exact ((List.perm_insertionSort _ _).nodup_iff).mpr (List.nodup_dedup _)

theorem unionKeys_mem (A B : List (ℚ × ℚ)) (k : ℚ) :
    k ∈ unionKeys A B ↔ k ∈ A.map (·.1) ∨ k ∈ B.map (·.1) := by
  unfold unionKeys
  rw [List.mem_insertionSort, List.mem_dedup, List.mem_append]

theorem specKeys_mem (a : List Peak) (k : ℚ) :
    k ∈ specKeys a ↔ k ∈ a.map (fun p => round3 p.1) := List.mem_dedup

theorem specVal_ne_zero_mem {a : List Peak} {k : ℚ} (h : specVal a k ≠ 0) :
    k ∈ a.map (fun p => round3 p.1) := by
  by_contra hc
  apply h
  unfold specVal
  have hfilt : a.filter (fun p => decide (round3 p.1 = k)) = [] := by
    rw [List.filter_eq_nil_iff]
    intro p hp hdec
    exact hc (List.mem_map.mpr ⟨p, hp, of_decide_eq_true hdec⟩)
  rw [hfilt]
  rfl

theorem normSq_left_eq_spec (a b : List Peak) :
    normSqQ (vecMap a) (vecMap b) (vecMap a) = specNormSq a := by
  unfold normSqQ specNormSq
  have hmapeq : (unionKeys (vecMap a) (vecMap b)).map
      (fun k => lookupQ (vecMap a) k * lookupQ (vecMap a) k) =
      (unionKeys (vecMap a) (vecMap b)).map (fun k => specVal a k * specVal a k) :=
    List.map_congr_left (fun k _ => by rw [lookupQ_vecMap])
  rw [hmapeq]
  refine sum_map_eq_of_mem_iff (unionKeys_nodup _ _) (List.nodup_dedup _) ?_
  intro k hk
  have hva : specVal a k ≠ 0 := fun hc => hk (by rw [hc, zero_mul])
  have hm := specVal_ne_zero_mem hva
  constructor
  · intro _
    exact (specKeys_mem a k).mpr hm
  · intro _
    rw [unionKeys_mem, vecMap_keys_iff]
    exact Or.inl hm

theorem normSq_right_eq_spec (a b : List Peak) :
    normSqQ (vecMap a) (vecMap b) (vecMap b) = specNormSq b := by
  unfold normSqQ specNormSq
  have hmapeq : (unionKeys (vecMap a) (vecMap b)).map
      (fun k => lookupQ (vecMap b) k * lookupQ (vecMap b) k) =
      (unionKeys (vecMap a) (vecMap b)).map (fun k => specVal b k * specVal b k) :=
    List.map_congr_left (fun k _ => by rw [lookupQ_vecMap])
  rw [hmapeq]
  refine sum_map_eq_of_mem_iff (unionKeys_nodup _ _) (List.nodup_dedup _) ?_
  intro k hk
  have hvb : specVal b k ≠ 0 := fun hc => hk (by rw [hc, zero_mul])
  have hm := specVal_ne_zero_mem hvb
  constructor
  · intro _
    exact (specKeys_mem b k).mpr hm
  · intro _
    rw [unionKeys_mem, vecMap_keys_iff, vecMap_keys_iff]
    exact Or.inr hm

theorem dot_eq_spec (a b : List Peak) :
    dotQ (vecMap a) (vecMap b) =
      ((specKeys a ++ specKeys b).dedup.map (fun k => specVal a k * specVal b k)).sum := by
  unfold dotQ
  have hmapeq : (unionKeys (vecMap a) (vecMap b)).map
      (fun k => lookupQ (vecMap a) k * lookupQ (vecMap b) k) =
      (unionKeys (vecMap a) (vecMap b)).map (fun k => specVal a k * specVal b k) :=
    List.map_congr_left (fun k _ => by rw [lookupQ_vecMap, lookupQ_vecMap])
  rw [hmapeq]
  refine sum_map_eq_of_mem_iff (unionKeys_nodup _ _) (List.nodup_dedup _) ?_
  intro k _
  rw [unionKeys_mem, List.mem_dedup, List.mem_append, specKeys_mem, specKeys_mem,
    vecMap_keys_iff, vecMap_keys_iff]

theorem specNormSq_of_nil (c : List Peak) (h : vecMap c = []) : specNormSq c = 0 := by
  rw [(vecMap_eq_nil_iff c).mp h]
  rfl

/-- Claim C1 (amended): the plain cosine similarity is the simple binned
cosine: bin every peak by its m/z rounded half-to-even at the third decimal,
sum intensities within a bin, and take the cosine of the two sparse bin
vectors over the union of their keys, with 0 when either norm vanishes.  The
mass tolerance plays no role. -/
theorem claim_C1_amended (a b : List Peak) : cosine_similarity a b = binnedCosineSpec a b := by
  have hna := normSq_left_eq_spec a b
  have hnb := normSq_right_eq_spec a b
  have hdot := dot_eq_spec a b
  unfold cosine_similarity cosine_from_maps binnedCosineSpec
  rw [hna, hnb, hdot]
  by_cases hz : specNormSq a = 0 ∨ specNormSq b = 0
  · rw [if_pos hz]
    by_cases hae : vecMap a = [] ∨ vecMap b = []
    · rw [if_pos hae]
    · have hprod : specNormSq a * specNormSq b = 0 := by
        rcases hz with h | h
        · rw [h, zero_mul]
        · rw [h, mul_zero]
      rw [if_neg hae, if_pos hprod]
  · rw [if_neg hz]
    push_neg at hz
    have hne : ¬ (vecMap a = [] ∨ vecMap b = []) := by
      rintro (h | h)
      · exact hz.1 (specNormSq_of_nil a h)
      · exact hz.2 (specNormSq_of_nil b h)
    rw [if_neg hne, if_neg (mul_ne_zero hz.1 hz.2)]

unseal Rat.mul Rat.add Rat.sub Rat.inv in
/-- Claim C1, counterexample: single-peak spectra at m/z 1.002 and 1.003 with
tolerance 0.005.  The greedy peak-matching reference accepts the (only) pair
and scores 1, but the code bins the two peaks into the distinct rounded keys
1.002 and 1.003, so the binned cosine is 0. -/
theorem claim_C1_counterexample :
    cosine_similarity [((1002 : ℚ)/1000, 1)] [((1003 : ℚ)/1000, 1)] = 0 ∧
    greedyScore [((1002 : ℚ)/1000, 1)] [((1003 : ℚ)/1000, 1)] (5/1000) = 1 := by
  constructor
  · have ha : vecMap [((1002 : ℚ)/1000, 1)] = [((1002 : ℚ)/1000, 1)] := by decide
    have hb : vecMap [((1003 : ℚ)/1000, 1)] = [((1003 : ℚ)/1000, 1)] := by decide
    have hdot : dotQ [((1002 : ℚ)/1000, 1)] [((1003 : ℚ)/1000, 1)] = 0 := by decide
    have hn1 : normSqQ [((1002 : ℚ)/1000, 1)] [((1003 : ℚ)/1000, 1)]
        [((1002 : ℚ)/1000, 1)] = 1 := by decide
    have hn2 : normSqQ [((1002 : ℚ)/1000, 1)] [((1003 : ℚ)/1000, 1)]
        [((1003 : ℚ)/1000, 1)] = 1 := by decide
    unfold cosine_similarity cosine_from_maps
    rw [ha, hb, hdot, hn1, hn2]
    rw [if_neg (by simp), if_neg (by norm_num)]
    norm_num
  · have hp : greedyPairs [((1002 : ℚ)/1000, 1)] [((1003 : ℚ)/1000, 1)] (5/1000) =
        [((0, ((1002 : ℚ)/1000, 1)), (0, ((1003 : ℚ)/1000, 1)))] := by decide
    have hsa : (([((1002 : ℚ)/1000, (1 : ℚ))].map (fun p : Peak => p.2 * p.2)).sum : ℚ) = 1 := by
      decide
    have hsb : (([((1003 : ℚ)/1000, (1 : ℚ))].map (fun p : Peak => p.2 * p.2)).sum : ℚ) = 1 := by
      decide
    unfold greedyScore
    rw [hp, hsa, hsb]
    norm_num [Real.sqrt_one]

end Metrics

theorem charsLe_refl : ∀ a : List Char, charsLe a a = true := by
  intro a
  induction a with
  | nil => rfl
  | cons x xs ih =>
    have hstep : charsLe (x :: xs) (x :: xs) =
        if x < x then true else if x < x then false else charsLe xs xs := rfl
    rw [hstep, if_neg (lt_irrefl x), if_neg (lt_irrefl x)]
    exact ih

theorem charsLe_trans : ∀ a b c : List Char,
    charsLe a b = true → charsLe b c = true → charsLe a c = true := by
  intro a
  induction a with
  | nil => intro b c _ _; rfl
  | cons x xs ih =>
    intro b c hab hbc
    cases b with
    | nil =>
      have hf : charsLe (x :: xs) [] = false := rfl
      rw [hf] at hab
      exact absurd hab Bool.false_ne_true
    | cons y ys =>
      cases c with
      | nil =>
        have hf : charsLe (y :: ys) [] = false := rfl
        rw [hf] at hbc
        exact absurd hbc Bool.false_ne_true
      | cons z zs =>
        have hstep1 : charsLe (x :: xs) (y :: ys) =
            if x < y then true else if y < x then false else charsLe xs ys := rfl
        have hstep2 : charsLe (y :: ys) (z :: zs) =
            if y < z then true else if z < y then false else charsLe ys zs := rfl
        have hstep3 : charsLe (x :: xs) (z :: zs) =
            if x < z then true else if z < x then false else charsLe xs zs := rfl
        rw [hstep1] at hab
        rw [hstep2] at hbc
        rw [hstep3]
        rcases lt_trichotomy x y with hxy | hxy | hxy
        · rcases lt_trichotomy y z with hyz | hyz | hyz
          · rw [if_pos (lt_trans hxy hyz)]
          · rw [if_pos (hyz ▸ hxy)]
          · rw [if_neg (not_lt.mpr (le_of_lt hyz)), if_pos hyz] at hbc
            exact absurd hbc (by decide)
        · subst hxy
          rw [if_neg (lt_irrefl x), if_neg (lt_irrefl x)] at hab
          rcases lt_trichotomy x z with hxz | hxz | hxz
          · rw [if_pos hxz]
          · subst hxz
            rw [if_neg (lt_irrefl x), if_neg (lt_irrefl x)] at hbc
            rw [if_neg (lt_irrefl x), if_neg (lt_irrefl x)]
            exact ih ys zs hab hbc
          · rw [if_neg (not_lt.mpr (le_of_lt hxz)), if_pos hxz] at hbc
            exact absurd hbc (by decide)
        · rw [if_neg (not_lt.mpr (le_of_lt hxy)), if_pos hxy] at hab
          exact absurd hab (by decide)

theorem charsLe_antisymm : ∀ a b : List Char,
    charsLe a b = true → charsLe b a = true → a = b := by
  intro a
  induction a with
  | nil =>
    intro b hab hba
    cases b with
    | nil => rfl
    | cons y ys =>
      have hf : charsLe (y :: ys) [] = false := rfl
      rw [hf] at hba
      exact absurd hba Bool.false_ne_true
  | cons x xs ih =>
    intro b hab hba
    cases b with
    | nil =>
      have hf : charsLe (x :: xs) [] = false := rfl
      rw [hf] at hab
      exact absurd hab Bool.false_ne_true
    | cons y ys =>
      have hstep1 : charsLe (x :: xs) (y :: ys) =
          if x < y then true else if y < x then false else charsLe xs ys := rfl
      have hstep2 : charsLe (y :: ys) (x :: xs) =
          if y < x then true else if x < y then false else charsLe ys xs := rfl
      rw [hstep1] at hab
      rw [hstep2] at hba
      rcases lt_trichotomy x y with hxy | hxy | hxy
      · rw [if_neg (not_lt.mpr (le_of_lt hxy)), if_pos hxy] at hba
        exact absurd hba (by decide)
      · subst hxy
        rw [if_neg (lt_irrefl x), if_neg (lt_irrefl x)] at hab hba
        rw [ih ys hab hba]
      · rw [if_neg (not_lt.mpr (le_of_lt hxy)), if_pos hxy] at hab
        exact absurd hab (by decide)

theorem strLe_antisymm (a b : String) (h1 : strLe a b) (h2 : strLe b a) : a = b := by
  have hd := charsLe_antisymm a.data b.data h1 h2
  cases a with
  | mk l =>
    cases b with
    | mk m =>
      rw [show (String.mk l).data = l from rfl, show (String.mk m).data = m from rfl] at hd
      rw [hd]

instance : IsTotal String strLe := ⟨strLe_total⟩

instance : IsTrans String strLe :=
  ⟨fun a b c hab hbc => charsLe_trans a.data b.data c.data hab hbc⟩

instance : IsAntisymm String strLe := ⟨strLe_antisymm⟩

theorem strLt_trans {a b c : String} (h1 : strLt a b) (h2 : strLt b c) : strLt a c := by
  intro hca
  rcases charsLe_total a.data b.data with hab | hba
  · exact h2 (charsLe_trans c.data a.data b.data hca hab)
  · exact h1 hba

theorem strLt_irrefl (a : String) : ¬ strLt a a := fun h => h (charsLe_refl a.data)

theorem strLt_connex {a b : String} (h1 : ¬ strLt a b) (h2 : ¬ strLt b a) : a = b := by
  unfold strLt at h1 h2
  exact strLe_antisymm a b (not_not.mp h2) (not_not.mp h1)

theorem flatten_nodup_mem_unique {α : Type} : ∀ gl : List (List α), gl.flatten.Nodup →
    ∀ g ∈ gl, ∀ g' ∈ gl, ∀ x, x ∈ g → x ∈ g' → g = g' := by
  intro gl
  induction gl with
  | nil => intro _ g hg; cases hg
  | cons h t ih =>
    intro hnd g hg g' hg' x hx hx'
    rw [List.flatten_cons] at hnd
    rcases List.mem_cons.mp hg with rfl | hgt
    · rcases List.mem_cons.mp hg' with rfl | hg't
      · rfl
      · exact absurd (List.mem_flatten_of_mem hg't hx')
          ((List.disjoint_of_nodup_append hnd) hx)
    · rcases List.mem_cons.mp hg' with rfl | hg't
      · exact absurd (List.mem_flatten_of_mem hgt hx)
          ((List.disjoint_of_nodup_append hnd) hx')
      · exact ih (List.Nodup.of_append_right hnd) g hgt g' hg't x hx hx'

theorem filter_partition_length {α : Type} (p : α → Bool) : ∀ l : List α,
    l.length = (l.filter p).length + (l.filter (fun x => !(p x))).length := by
  intro l
  induction l with
  | nil => rfl
  | cons x xs ih =>
    rw [List.filter_cons, List.filter_cons]
    cases hpx : p x
    · rw [if_neg (by decide), if_pos (by decide)]
      simp only [List.length_cons, ih]
      omega
    · rw [if_pos (by decide), if_neg (by decide)]
      simp only [List.length_cons, ih]
      omega

namespace Curation

theorem repKeyLt_trans {a b c : ℚ × ℚ × ℕ × String} (h1 : repKeyLt a b) (h2 : repKeyLt b c) :
    repKeyLt a c := by
  unfold repKeyLt at h1 h2 ⊢
  rcases h1 with h1 | ⟨e1, h1⟩ <;> rcases h2 with h2 | ⟨e2, h2⟩
  · exact Or.inl (lt_trans h1 h2)
  · exact Or.inl (by rw [← e2]; exact h1)
  · exact Or.inl (by rw [e1]; exact h2)
  · refine Or.inr ⟨e1.trans e2, ?_⟩
    rcases h1 with h1 | ⟨f1, h1⟩ <;> rcases h2 with h2 | ⟨f2, h2⟩
    · exact Or.inl (lt_trans h1 h2)
    · exact Or.inl (by rw [← f2]; exact h1)
    · exact Or.inl (by rw [f1]; exact h2)
    · refine Or.inr ⟨f1.trans f2, ?_⟩
      rcases h1 with h1 | ⟨g1, h1⟩ <;> rcases h2 with h2 | ⟨g2, h2⟩
      · exact Or.inl (lt_trans h1 h2)
      · exact Or.inl (by rw [← g2]; exact h1)
      · exact Or.inl (by rw [g1]; exact h2)
      · exact Or.inr ⟨g1.trans g2, strLt_trans h1 h2⟩

theorem repKeyLt_irrefl (a : ℚ × ℚ × ℕ × String) : ¬ repKeyLt a a := by
  unfold repKeyLt
  rintro (h | ⟨_, h | ⟨_, h | ⟨_, h⟩⟩⟩)
  · exact lt_irrefl _ h
  · exact lt_irrefl _ h
  · exact lt_irrefl _ h
  · exact strLt_irrefl _ h

theorem repKeyLt_connex : ∀ a b : ℚ × ℚ × ℕ × String,
    ¬ repKeyLt a b → ¬ repKeyLt b a → a = b := by
  rintro ⟨a1, a2, a3, a4⟩ ⟨b1, b2, b3, b4⟩ h1 h2
  unfold repKeyLt at h1 h2
  push_neg at h1 h2
  obtain ⟨hle1, h1r⟩ := h1
  obtain ⟨hle2, h2r⟩ := h2
  have e1 : a1 = b1 := le_antisymm hle2 hle1
  obtain ⟨hle1b, h1rr⟩ := h1r e1
  obtain ⟨hle2b, h2rr⟩ := h2r e1.symm
  have e2 : a2 = b2 := le_antisymm hle2b hle1b
  obtain ⟨hle1c, h1rrr⟩ := h1rr e2
  obtain ⟨hle2c, h2rrr⟩ := h2rr e2.symm
  have e3 : a3 = b3 := le_antisymm hle2c hle1c
  have e4 : a4 = b4 := strLt_connex (h1rrr e3) (h2rrr e3.symm)
  rw [e1, e2, e3, e4]

theorem repKeyLt_of_lt_not_lt {a b c : ℚ × ℚ × ℕ × String}
    (hab : repKeyLt a b) (hcb : ¬ repKeyLt c b) : repKeyLt a c := by
  by_cases hbc : repKeyLt b c
  · exact repKeyLt_trans hab hbc
  · exact (repKeyLt_connex b c hbc hcb) ▸ hab

end Curation

theorem orderedPairs_mem {α : Type} : ∀ (l : List α) (pr : α × α),
    pr ∈ orderedPairs l → pr.1 ∈ l ∧ pr.2 ∈ l := by
  intro l
  induction l with
  | nil => intro pr h; cases h
  | cons x xs ih =>
    intro pr h
    rw [show orderedPairs (x :: xs) = (xs.map (fun y => (x, y))) ++ orderedPairs xs from rfl] at h
    rcases List.mem_append.mp h with h1 | h1
    · obtain ⟨y, hy, heq⟩ := List.mem_map.mp h1
      rw [← heq]
      exact ⟨List.mem_cons_self _ _, List.mem_cons_of_mem _ hy⟩
    · obtain ⟨h1', h2'⟩ := ih pr h1
      exact ⟨List.mem_cons_of_mem _ h1', List.mem_cons_of_mem _ h2'⟩

namespace Curation

open Metrics Backends

theorem addNeighbor_keys (adj : List (String × List String)) (id nid : String) :
    (addNeighbor adj id nid).map (·.1) = adj.map (·.1) := by
  unfold addNeighbor
  rw [List.map_map]
  refine List.map_congr_left ?_
  intro kv _
  show (if kv.1 = id then (kv.1, kv.2 ++ [nid]) else kv).1 = kv.1
  by_cases h : kv.1 = id
  · rw [if_pos h]
  · rw [if_neg h]

theorem addNeighbor_values {adj : List (String × List String)} {id nid : String}
    {kv : String × List String} (h : kv ∈ addNeighbor adj id nid) :
    ∀ n ∈ kv.2, (∃ kv' ∈ adj, n ∈ kv'.2) ∨ n = nid := by
  unfold addNeighbor at h
  obtain ⟨kv0, hkv0, heq⟩ := List.mem_map.mp h
  intro n hn
  subst heq
  by_cases hc : kv0.1 = id
  · rw [if_pos hc] at hn
    rcases List.mem_append.mp hn with h1 | h1
    · exact Or.inl ⟨kv0, hkv0, h1⟩
    · exact Or.inr (by simpa using h1)
  · rw [if_neg hc] at hn
    exact Or.inl ⟨kv0, hkv0, hn⟩

theorem buildAdjacency_keys (entries : List LibraryEntry) (pt st : ℚ) :
    (buildAdjacency entries pt st).map (·.1) = entries.map (·.identifier) := by
  unfold buildAdjacency
  have hfold : ∀ (prs : List (LibraryEntry × LibraryEntry)) (adj : List (String × List String)),
      (prs.foldl (fun adj pr => if admissible pt st pr.1 pr.2 then
        addNeighbor (addNeighbor adj pr.1.identifier pr.2.identifier)
          pr.2.identifier pr.1.identifier
        else adj) adj).map (·.1) = adj.map (·.1) := by
    intro prs
    induction prs with
    | nil => intro adj; rfl
    | cons pr rest ih =>
      intro adj
      rw [List.foldl_cons, ih]
      by_cases h : admissible pt st pr.1 pr.2 = true
      · rw [if_pos h, addNeighbor_keys, addNeighbor_keys]
      · rw [if_neg h]
  rw [hfold, List.map_map]
  rfl

theorem buildAdjacency_values (entries : List LibraryEntry) (pt st : ℚ) :
    ∀ kv ∈ buildAdjacency entries pt st, ∀ n ∈ kv.2,
      ∃ e ∈ entries, e.identifier = n := by
  unfold buildAdjacency
  have hfold : ∀ (prs : List (LibraryEntry × LibraryEntry))
      (adj : List (String × List String)),
      (∀ pr ∈ prs, pr.1 ∈ entries ∧ pr.2 ∈ entries) →
      (∀ kv ∈ adj, ∀ n ∈ kv.2, ∃ e ∈ entries, e.identifier = n) →
      ∀ kv ∈ (prs.foldl (fun adj pr => if admissible pt st pr.1 pr.2 then
        addNeighbor (addNeighbor adj pr.1.identifier pr.2.identifier)
          pr.2.identifier pr.1.identifier
        else adj) adj), ∀ n ∈ kv.2, ∃ e ∈ entries, e.identifier = n := by
    intro prs
    induction prs with
    | nil => intro adj _ hadj; exact hadj
    | cons pr rest ih =>
      intro adj hprs hadj
      rw [List.foldl_cons]
      refine ih _ (fun q hq => hprs q (List.mem_cons_of_mem _ hq)) ?_
      by_cases h : admissible pt st pr.1 pr.2 = true
      · rw [if_pos h]
        intro kv hkv n hn
        obtain ⟨hp1, hp2⟩ := hprs pr (List.mem_cons_self _ _)
        rcases addNeighbor_values hkv n hn with hrec | hl
        · obtain ⟨kv', hkv', hn'⟩ := hrec
          rcases addNeighbor_values hkv' n hn' with hrec' | hl'
          · obtain ⟨kv2, hkv2, hn2⟩ := hrec'
            exact hadj kv2 hkv2 n hn2
          · exact ⟨pr.2, hp2, hl'.symm⟩
        · exact ⟨pr.1, hp1, hl.symm⟩
      · rw [if_neg h]
        exact hadj
  refine hfold _ _ (fun pr hpr => orderedPairs_mem entries pr hpr) ?_
  intro kv hkv n hn
  obtain ⟨e, _, heq⟩ := List.mem_map.mp hkv
  rw [← heq] at hn
  cases hn

theorem adjLookup_mem {adj : List (String × List String)} {id n : String}
    (h : n ∈ adjLookup adj id) : ∃ kv ∈ adj, n ∈ kv.2 := by
  unfold adjLookup at h
  rcases hf : adj.find? (fun kv => kv.1 = id) with _ | kv
  · rw [hf] at h
    cases h
  · rw [hf] at h
    exact ⟨kv, List.mem_of_find?_eq_some hf, h⟩

/-- The DFS loop appends the newly visited nodes (a duplicate-free block,
disjoint from the previously visited set, drawn from the stack or from
neighbour lists) to both the visited list and the component. -/
theorem dfsLoop_spec (adj : String → List String) (P : String → Prop)
    (hadj : ∀ y x, x ∈ adj y → P x) :
    ∀ (fuel : ℕ) (stack visited comp : List String), (∀ x ∈ stack, P x) →
      ∃ N : List String,
        dfsLoop adj fuel stack visited comp = (N ++ visited, N ++ comp) ∧
        N.Nodup ∧ (∀ x ∈ N, P x ∧ x ∉ visited) := by
  intro fuel
  induction fuel with
  | zero =>
    intro stack visited comp _
    exact ⟨[], rfl, List.nodup_nil, fun x hx => absurd hx (List.not_mem_nil x)⟩
  | succ fuel ih =>
    intro stack visited comp hP
    cases stack with
    | nil => exact ⟨[], rfl, List.nodup_nil, fun x hx => absurd hx (List.not_mem_nil x)⟩
    | cons current stack =>
      have hstep : dfsLoop adj (fuel + 1) (current :: stack) visited comp =
          if current ∈ visited then dfsLoop adj fuel stack visited comp
          else dfsLoop adj fuel
            (((adj current).filter (fun x => ¬ x ∈ visited)).reverse ++ stack)
            (current :: visited) (current :: comp) := rfl
      by_cases hv : current ∈ visited
      · rw [hstep, if_pos hv]
        exact ih stack visited comp (fun x hx => hP x (List.mem_cons_of_mem _ hx))
      · have hP2 : ∀ x ∈ ((adj current).filter (fun x => ¬ x ∈ visited)).reverse ++ stack,
            P x := by
          intro x hx
          rcases List.mem_append.mp hx with h1 | h1
          · exact hadj current x (List.mem_of_mem_filter (List.mem_reverse.mp h1))
          · exact hP x (List.mem_cons_of_mem _ h1)
        obtain ⟨N2, heq, hnd2, hprop2⟩ := ih _ (current :: visited) (current :: comp) hP2
        refine ⟨N2 ++ [current], ?_, ?_, ?_⟩
        · rw [hstep, if_neg hv, heq, List.append_assoc, List.append_assoc]
          rfl
        · rw [List.nodup_append]
          refine ⟨hnd2, List.nodup_singleton _, ?_⟩
          intro x hx hx'
          have hxc : x = current := by simpa using hx'
          exact (hprop2 x hx).2 (hxc ▸ List.mem_cons_self _ _)
        · intro x hx
          rcases List.mem_append.mp hx with h1 | h1
          · obtain ⟨hPx, hnv⟩ := hprop2 x h1
            exact ⟨hPx, fun hc => hnv (List.mem_cons_of_mem _ hc)⟩
          · have hxc : x = current := by simpa using h1
            exact ⟨hxc ▸ hP current (List.mem_cons_self _ _), hxc ▸ hv⟩

/-- The outer component loop emits sorted, pairwise-disjoint, duplicate-free
groups of size at least 2, drawn from the adjacency keys and neighbour
lists and disjoint from the initially visited set. -/
theorem componentsLoop_inv (adj : String → List String) (P : String → Prop)
    (hadj : ∀ y x, x ∈ adj y → P x) (fuel : ℕ) :
    ∀ (rest : List (String × List String)) (visited : List String),
      (∀ kv ∈ rest, P kv.1) →
      ((componentsLoop adj fuel rest visited).flatten.Nodup ∧
       (∀ x ∈ (componentsLoop adj fuel rest visited).flatten, P x ∧ x ∉ visited) ∧
       (∀ g ∈ componentsLoop adj fuel rest visited, 1 < g.length ∧ g.Sorted strLe)) := by
  intro rest
  induction rest with
  | nil =>
    intro visited _
    refine ⟨List.nodup_nil, ?_, ?_⟩
    · intro x hx
      exact absurd hx (List.not_mem_nil x)
    · intro g hg
      exact absurd hg (List.not_mem_nil g)
  | cons kv rest ih =>
    intro visited hkeys
    obtain ⟨node, neighbors⟩ := kv
    have hstep : componentsLoop adj fuel ((node, neighbors) :: rest) visited =
        if node ∈ visited ∨ neighbors = [] then componentsLoop adj fuel rest visited
        else
          if 1 < (dfsLoop adj fuel [node] visited []).2.length then
            (List.insertionSort strLe (dfsLoop adj fuel [node] visited []).2) ::
              componentsLoop adj fuel rest (dfsLoop adj fuel [node] visited []).1
          else componentsLoop adj fuel rest (dfsLoop adj fuel [node] visited []).1 := rfl
    by_cases hskip : node ∈ visited ∨ neighbors = []
    · rw [hstep, if_pos hskip]
      exact ih visited (fun kv' hkv' => hkeys kv' (List.mem_cons_of_mem _ hkv'))
    · have hPnode : P node := hkeys (node, neighbors) (List.mem_cons_self _ _)
      obtain ⟨N, heq, hndN, hpropN⟩ := dfsLoop_spec adj P hadj fuel [node] visited []
        (by intro x hx; rw [show x ∈ [node] ↔ x = node from List.mem_singleton] at hx
            exact hx ▸ hPnode)
      have h1 : (dfsLoop adj fuel [node] visited []).1 = N ++ visited := by rw [heq]
      have h2 : (dfsLoop adj fuel [node] visited []).2 = N := by rw [heq, List.append_nil]
      obtain ⟨ihnd, ihprop, ihg⟩ := ih (N ++ visited)
        (fun kv' hkv' => hkeys kv' (List.mem_cons_of_mem _ hkv'))
      by_cases hlen : 1 < (dfsLoop adj fuel [node] visited []).2.length
      · rw [hstep, if_neg hskip, if_pos hlen, h1, h2]
        refine ⟨?_, ?_, ?_⟩
        · rw [List.flatten_cons, List.nodup_append]
          refine ⟨((List.perm_insertionSort strLe N).nodup_iff).mpr hndN, ihnd, ?_⟩
          intro x hx hx'
          have hxN : x ∈ N := (List.mem_insertionSort strLe).mp hx
          exact ((ihprop x hx').2) (List.mem_append.mpr (Or.inl hxN))
        · intro x hx
          rw [List.flatten_cons] at hx
          rcases List.mem_append.mp hx with hxs | hxf
          · exact hpropN x ((List.mem_insertionSort strLe).mp hxs)
          · obtain ⟨hPx, hnx⟩ := ihprop x hxf
            exact ⟨hPx, fun hc => hnx (List.mem_append.mpr (Or.inr hc))⟩
        · intro g hg
          rcases List.mem_cons.mp hg with rfl | hgt
          · constructor
            · rw [List.length_insertionSort]
              rw [h2] at hlen
              exact hlen
            · exact List.sorted_insertionSort strLe N
          · exact ihg g hgt
      · rw [hstep, if_neg hskip, if_neg hlen, h1]
        refine ⟨ihnd, ?_, ihg⟩
        intro x hx
        obtain ⟨hPx, hnx⟩ := ihprop x hx
        exact ⟨hPx, fun hc => hnx (List.mem_append.mpr (Or.inr hc))⟩

/-- The duplicate groups of `detect_duplicate_groups`: each sorted with at
least two members drawn from the input identifiers, and all groups pairwise
disjoint and duplicate-free. -/
theorem detect_groups_facts (entries : List LibraryEntry) (pt st : ℚ) :
    (detect_duplicate_groups entries pt st).flatten.Nodup ∧
    (∀ g ∈ detect_duplicate_groups entries pt st,
      1 < g.length ∧ g.Sorted strLe ∧
      ∀ id ∈ g, ∃ e ∈ entries, e.identifier = id) := by
  have hadj : ∀ y x, x ∈ adjLookup (buildAdjacency entries pt st) y →
      ∃ e ∈ entries, e.identifier = x := by
    intro y x hx
    obtain ⟨kv, hkv, hxkv⟩ := adjLookup_mem hx
    exact buildAdjacency_values entries pt st kv hkv x hxkv
  have hkeys : ∀ kv ∈ buildAdjacency entries pt st, ∃ e ∈ entries, e.identifier = kv.1 := by
    intro kv hkv
    have h1 : kv.1 ∈ (buildAdjacency entries pt st).map (·.1) := List.mem_map_of_mem _ hkv
    rw [buildAdjacency_keys] at h1
    obtain ⟨e, he, heq⟩ := List.mem_map.mp h1
    exact ⟨e, he, heq⟩
  obtain ⟨hnd, hprop, hg⟩ := componentsLoop_inv (adjLookup (buildAdjacency entries pt st))
    (fun x => ∃ e ∈ entries, e.identifier = x) hadj
    (((buildAdjacency entries pt st).map (fun kv => kv.2.length)).sum + entries.length + 2)
    (buildAdjacency entries pt st) [] hkeys
  refine ⟨hnd, ?_⟩
  intro g hgm
  obtain ⟨hlen, hsort⟩ := hg g hgm
  refine ⟨hlen, hsort, ?_⟩
  intro id hid
  exact (hprop id (List.mem_flatten_of_mem hgm hid)).1

theorem chooseRep_foldl_mem (qual : String → QualityResult) :
    ∀ (xs : List LibraryEntry) (x : LibraryEntry),
      xs.foldl (fun best e =>
        if repKeyLt (repKey (qual best.identifier) best.identifier)
          (repKey (qual e.identifier) e.identifier) then e else best) x ∈ x :: xs := by
  intro xs
  induction xs with
  | nil => intro x; exact List.mem_cons_self _ _
  | cons y ys ih =>
    intro x
    have hstep : (y :: ys).foldl (fun best e =>
        if repKeyLt (repKey (qual best.identifier) best.identifier)
          (repKey (qual e.identifier) e.identifier) then e else best) x =
        ys.foldl (fun best e =>
          if repKeyLt (repKey (qual best.identifier) best.identifier)
            (repKey (qual e.identifier) e.identifier) then e else best)
          (if repKeyLt (repKey (qual x.identifier) x.identifier)
            (repKey (qual y.identifier) y.identifier) then y else x) := rfl
    rw [hstep]
    by_cases hxy : repKeyLt (repKey (qual x.identifier) x.identifier)
      (repKey (qual y.identifier) y.identifier)
    · rw [if_pos hxy]
      exact List.mem_cons_of_mem x (ih y)
    · rw [if_neg hxy]
      rcases List.mem_cons.mp (ih x) with he | hm
      · exact List.mem_cons.mpr (Or.inl he)
      · exact List.mem_cons_of_mem x (List.mem_cons_of_mem y hm)

theorem chooseRep_foldl_max (qual : String → QualityResult) :
    ∀ (xs : List LibraryEntry) (x r : LibraryEntry), r ∈ x :: xs →
      ¬ repKeyLt
        (repKey (qual (xs.foldl (fun best e =>
          if repKeyLt (repKey (qual best.identifier) best.identifier)
            (repKey (qual e.identifier) e.identifier) then e else best) x).identifier)
          (xs.foldl (fun best e =>
            if repKeyLt (repKey (qual best.identifier) best.identifier)
              (repKey (qual e.identifier) e.identifier) then e else best) x).identifier)
        (repKey (qual r.identifier) r.identifier) := by
  intro xs
  induction xs with
  | nil =>
    intro x r hr
    have hrx : r = x := by simpa using hr
    subst hrx
    exact repKeyLt_irrefl _
  | cons y ys ih =>
    intro x r hr
    have hstep : (y :: ys).foldl (fun best e =>
        if repKeyLt (repKey (qual best.identifier) best.identifier)
          (repKey (qual e.identifier) e.identifier) then e else best) x =
        ys.foldl (fun best e =>
          if repKeyLt (repKey (qual best.identifier) best.identifier)
            (repKey (qual e.identifier) e.identifier) then e else best)
          (if repKeyLt (repKey (qual x.identifier) x.identifier)
            (repKey (qual y.identifier) y.identifier) then y else x) := rfl
    rw [hstep]
    by_cases hxy : repKeyLt (repKey (qual x.identifier) x.identifier)
      (repKey (qual y.identifier) y.identifier)
    · rw [if_pos hxy]
      rcases List.mem_cons.mp hr with rfl | hr2
      · intro hc
        exact (ih y y (List.mem_cons_self _ _)) (repKeyLt_trans hc hxy)
      · exact ih y r hr2
    · rw [if_neg hxy]
      rcases List.mem_cons.mp hr with rfl | hr2
      · exact ih _ _ (List.mem_cons_self _ _)
      · rcases List.mem_cons.mp hr2 with rfl | hr3
        · intro hc
          exact (ih x x (List.mem_cons_self _ _)) (repKeyLt_of_lt_not_lt hc hxy)
        · exact ih x r (List.mem_cons_of_mem _ hr3)

/-- Python `max` with the representative key: returns a member of the group
that no member strictly exceeds. -/
theorem choose_representative_spec (qual : String → QualityResult)
    {l : List LibraryEntry} (hne : l ≠ []) :
    ∃ rep, choose_representative qual l = some rep ∧ rep ∈ l ∧
      ∀ r ∈ l, ¬ repKeyLt (repKey (qual rep.identifier) rep.identifier)
        (repKey (qual r.identifier) r.identifier) := by
  cases l with
  | nil => exact absurd rfl hne
  | cons x xs =>
    exact ⟨_, rfl, chooseRep_foldl_mem qual xs x, fun r hr => chooseRep_foldl_max qual xs x r hr⟩

theorem groupEntries_map_id (entries : List LibraryEntry) : ∀ g : List String,
    (∀ id ∈ g, ∃ e ∈ entries, e.identifier = id) →
    (g.filterMap (fun id => entries.find? (fun e2 => e2.identifier = id))).map
      (·.identifier) = g := by
  intro g
  induction g with
  | nil => intro _; rfl
  | cons id ids ih =>
    intro hex
    obtain ⟨e, he, heid⟩ := hex id (List.mem_cons_self _ _)
    have hfind : (entries.find? (fun e2 => e2.identifier = id)).isSome := by
      rw [List.find?_isSome]
      exact ⟨e, he, decide_eq_true heid⟩
    obtain ⟨e', he'⟩ := Option.isSome_iff_exists.mp hfind
    have hps := List.find?_some he'
    have hid' : e'.identifier = id := of_decide_eq_true hps
    rw [List.filterMap_cons, he']
    show (e' :: ids.filterMap (fun id => entries.find? (fun e2 => e2.identifier = id))).map
      (·.identifier) = id :: ids
    rw [List.map_cons, hid', ih (fun i hi => hex i (List.mem_cons_of_mem _ hi))]

theorem groupEntries_mem {entries : List LibraryEntry} {g : List String} {e : LibraryEntry}
    (h : e ∈ g.filterMap (fun id => entries.find? (fun e2 => e2.identifier = id))) :
    e ∈ entries := by
  obtain ⟨id, _, hf⟩ := List.mem_filterMap.mp h
  exact List.mem_of_find?_eq_some hf

theorem qualOf_eq (entries : List LibraryEntry) (th : QualityThresholds)
    (hnd : (entries.map (·.identifier)).Nodup) :
    ∀ e ∈ entries, qualOf entries th e.identifier = score_quality e th := by
  intro e he
  unfold qualOf
  have hfind : ∀ l : List LibraryEntry, (l.map (·.identifier)).Nodup → e ∈ l →
      (l.map (fun e2 => (e2.identifier, score_quality e2 th))).find?
        (fun kv => kv.1 = e.identifier) = some (e.identifier, score_quality e th) := by
    intro l
    induction l with
    | nil => intro _ he'; cases he'
    | cons h t ih =>
      intro hnd' he'
      rw [List.map_cons]
      rcases List.mem_cons.mp he' with rfl | het
      · have hpa : (fun kv : String × QualityResult => decide (kv.1 = e.identifier))
            (e.identifier, score_quality e th) = true := decide_eq_true rfl
        rw [@List.find?_cons_of_pos (String × QualityResult)
          (fun kv => decide (kv.1 = e.identifier)) (e.identifier, score_quality e th) _ hpa]
      · have hneq : ¬ (h.identifier = e.identifier) := by
          intro hc
          rw [List.map_cons] at hnd'
          exact ((List.pairwise_cons.mp hnd').1 e.identifier
            (List.mem_map_of_mem _ het)) hc
        have hpa : ¬ ((fun kv : String × QualityResult => decide (kv.1 = e.identifier))
            (h.identifier, score_quality h th) = true) :=
          fun hc => hneq (of_decide_eq_true hc)
        rw [@List.find?_cons_of_neg (String × QualityResult)
          (fun kv => decide (kv.1 = e.identifier)) (h.identifier, score_quality h th) _ hpa]
        refine ih ?_ het
        rw [List.map_cons] at hnd'
        exact hnd'.of_cons
  rw [hfind entries hnd he]
  rfl

theorem entries_id_inj {entries : List LibraryEntry}
    (hnd : (entries.map (·.identifier)).Nodup) :
    ∀ a ∈ entries, ∀ b ∈ entries, a.identifier = b.identifier → a = b := by
  intro a ha b hb heq
  exact List.inj_on_of_nodup_map hnd ha hb heq

theorem groupStage_handled (entries : List LibraryEntry) (qual : String → QualityResult) :
    ∀ gl : List (List String), (groupStage entries qual gl).handled = gl.flatten := by
  intro gl
  induction gl with
  | nil => rfl
  | cons g gs ih =>
    show g ++ (groupStage entries qual gs).handled = (g :: gs).flatten
    rw [ih, List.flatten_cons]

theorem groupStage_curated_length (entries : List LibraryEntry)
    (qual : String → QualityResult) :
    ∀ gl : List (List String), (groupStage entries qual gl).curated.length = gl.length := by
  intro gl
  induction gl with
  | nil => rfl
  | cons g gs ih =>
    obtain ⟨hd, hc⟩ : ∃ hd, (groupStage entries qual (g :: gs)).curated =
        hd :: (groupStage entries qual gs).curated := ⟨_, rfl⟩
    rw [hc, List.length_cons, ih, List.length_cons]

theorem groupStage_dupGroups_cons (entries : List LibraryEntry)
    (qual : String → QualityResult) (g : List String) (gs : List (List String)) :
    (groupStage entries qual (g :: gs)).dupGroups =
      ⟨((choose_representative qual (g.filterMap (fun id =>
          entries.find? (fun e2 => e2.identifier = id)))).getD default).identifier,
        List.insertionSort strLe g⟩ :: (groupStage entries qual gs).dupGroups := rfl

theorem groupStage_dupGroups_length (entries : List LibraryEntry)
    (qual : String → QualityResult) :
    ∀ gl : List (List String), (groupStage entries qual gl).dupGroups.length = gl.length := by
  intro gl
  induction gl with
  | nil => rfl
  | cons g gs ih =>
    rw [groupStage_dupGroups_cons, List.length_cons, ih, List.length_cons]

theorem groupStage_members_lengths (entries : List LibraryEntry)
    (qual : String → QualityResult) :
    ∀ gl : List (List String),
      ((groupStage entries qual gl).dupGroups.map (fun dg => dg.members.length - 1)).sum =
        (gl.map (fun g => g.length - 1)).sum := by
  intro gl
  induction gl with
  | nil => rfl
  | cons g gs ih =>
    rw [groupStage_dupGroups_cons, List.map_cons, List.sum_cons, ih,
      List.map_cons, List.sum_cons]
    simp only [List.length_insertionSort]

theorem groupStage_curated_cons (entries : List LibraryEntry)
    (qual : String → QualityResult) (g : List String) (gs : List (List String)) :
    (groupStage entries qual (g :: gs)).curated =
      { (choose_representative qual (g.filterMap (fun id =>
            entries.find? (fun e2 => e2.identifier = id)))).getD default with
          metadata :=
            if (((g.filterMap (fun id => entries.find? (fun e2 => e2.identifier = id))).map
                (·.identifier)).filter (fun id =>
                  id ≠ ((choose_representative qual (g.filterMap (fun id =>
                    entries.find? (fun e2 => e2.identifier = id)))).getD
                      default).identifier)) ≠ [] then
              setMeta ((choose_representative qual (g.filterMap (fun id =>
                entries.find? (fun e2 => e2.identifier = id)))).getD default).metadata
                "merged_ids"
                (List.insertionSort strLe
                  (((choose_representative qual (g.filterMap (fun id =>
                      entries.find? (fun e2 => e2.identifier = id)))).getD
                        default).identifier ::
                    (((g.filterMap (fun id => entries.find? (fun e2 =>
                        e2.identifier = id))).map (·.identifier)).filter (fun id =>
                      id ≠ ((choose_representative qual (g.filterMap (fun id =>
                        entries.find? (fun e2 => e2.identifier = id)))).getD
                          default).identifier))))
            else ((choose_representative qual (g.filterMap (fun id =>
              entries.find? (fun e2 => e2.identifier = id)))).getD default).metadata } ::
        (groupStage entries qual gs).curated := rfl

theorem groupStage_decisions_cons (entries : List LibraryEntry)
    (qual : String → QualityResult) (g : List String) (gs : List (List String)) :
    (groupStage entries qual (g :: gs)).decisions =
      { identifier := ((choose_representative qual (g.filterMap (fun id =>
            entries.find? (fun e2 => e2.identifier = id)))).getD default).identifier,
        action := .keep,
        representative := some ((choose_representative qual (g.filterMap (fun id =>
          entries.find? (fun e2 => e2.identifier = id)))).getD default).identifier,
        merged_ids := some (List.insertionSort strLe
          (((g.filterMap (fun id => entries.find? (fun e2 =>
              e2.identifier = id))).map (·.identifier)).filter (fun id =>
            id ≠ ((choose_representative qual (g.filterMap (fun id =>
              entries.find? (fun e2 => e2.identifier = id)))).getD default).identifier))),
        quality_score := some (qual ((choose_representative qual (g.filterMap (fun id =>
          entries.find? (fun e2 => e2.identifier = id)))).getD
            default).identifier).quality_score,
        reason := if (((g.filterMap (fun id => entries.find? (fun e2 =>
            e2.identifier = id))).map (·.identifier)).filter (fun id =>
              id ≠ ((choose_representative qual (g.filterMap (fun id =>
                entries.find? (fun e2 => e2.identifier = id)))).getD
                  default).identifier)) ≠ [] then
            some "representative_duplicate" else none } ::
      (((((g.filterMap (fun id => entries.find? (fun e2 =>
          e2.identifier = id))).map (·.identifier)).filter (fun id =>
            id ≠ ((choose_representative qual (g.filterMap (fun id =>
              entries.find? (fun e2 => e2.identifier = id)))).getD
                default).identifier)).map (fun mid =>
          ({ identifier := mid, action := .merge,
             representative := some ((choose_representative qual (g.filterMap (fun id =>
               entries.find? (fun e2 => e2.identifier = id)))).getD default).identifier,
             reason := some "duplicate",
             quality_score := some (qual mid).quality_score } : CurationDecision))) ++
        (groupStage entries qual gs).decisions) := rfl

theorem group_rep_facts (entries : List LibraryEntry) (qual : String → QualityResult)
    {g : List String} (hne : g ≠ []) (hex : ∀ id ∈ g, ∃ e ∈ entries, e.identifier = id) :
    ((choose_representative qual (g.filterMap (fun id =>
        entries.find? (fun e2 => e2.identifier = id)))).getD default) ∈
      g.filterMap (fun id => entries.find? (fun e2 => e2.identifier = id)) ∧
    (∀ r ∈ g.filterMap (fun id => entries.find? (fun e2 => e2.identifier = id)),
      ¬ repKeyLt
        (repKey (qual ((choose_representative qual (g.filterMap (fun id =>
          entries.find? (fun e2 => e2.identifier = id)))).getD default).identifier)
          ((choose_representative qual (g.filterMap (fun id =>
            entries.find? (fun e2 => e2.identifier = id)))).getD default).identifier)
        (repKey (qual r.identifier) r.identifier)) := by
  have hGEne : g.filterMap (fun id => entries.find? (fun e2 => e2.identifier = id)) ≠ [] := by
    intro hc
    have hmap := groupEntries_map_id entries g hex
    rw [hc] at hmap
    exact hne (by simpa using hmap.symm)
  obtain ⟨rep, hcr, hmem, hmax⟩ := choose_representative_spec qual hGEne
  rw [hcr]
  exact ⟨hmem, hmax⟩

theorem merged_ne_nil {g : List String} {repId : String} (hlen : 1 < g.length)
    (hnd : g.Nodup) (hmem : repId ∈ g) :
    g.filter (fun id => id ≠ repId) ≠ [] := by
  intro hc
  have hall : ∀ id ∈ g, id = repId := by
    intro id hid
    by_contra hne
    have hmemf : id ∈ g.filter (fun id => id ≠ repId) :=
      List.mem_filter.mpr ⟨hid, decide_eq_true hne⟩
    rw [hc] at hmemf
    cases hmemf
  cases g with
  | nil => simp at hlen
  | cons a t =>
    cases t with
    | nil => simp at hlen
    | cons b t2 =>
      have ha : a = repId := hall a (List.mem_cons_self _ _)
      have hb : b = repId := hall b (List.mem_cons_of_mem _ (List.mem_cons_self _ _))
      have hab : a ≠ b := (List.pairwise_cons.mp hnd).1 b (List.mem_cons_self _ _)
      exact hab (ha.trans hb.symm)

/-- Per-group facts of the duplicate-group loop: every emitted duplicate
group arises from an input group, its representative is a stored entry that
no group member strictly exceeds in the representative key order, the
representative appears in the curated list with the sorted merged-ids
metadata, and every non-representative member gets a merge decision. -/
theorem groupStage_dupGroups_facts (entries : List LibraryEntry)
    (qual : String → QualityResult) :
    ∀ gl : List (List String),
      (∀ g ∈ gl, 1 < g.length ∧ g.Nodup ∧ ∀ id ∈ g, ∃ e ∈ entries, e.identifier = id) →
      ∀ dg ∈ (groupStage entries qual gl).dupGroups,
        ∃ g ∈ gl, ∃ rep : LibraryEntry,
          rep ∈ entries ∧
          rep = (choose_representative qual (g.filterMap (fun id =>
            entries.find? (fun e2 => e2.identifier = id)))).getD default ∧
          dg.representative = rep.identifier ∧
          dg.members = List.insertionSort strLe g ∧
          rep.identifier ∈ g ∧
          (∀ x ∈ g.filterMap (fun id => entries.find? (fun e2 => e2.identifier = id)),
            ¬ repKeyLt (repKey (qual rep.identifier) rep.identifier)
              (repKey (qual x.identifier) x.identifier)) ∧
          (∀ id ∈ g, ∃ x ∈ g.filterMap (fun id2 =>
            entries.find? (fun e2 => e2.identifier = id2)), x.identifier = id) ∧
          ({ rep with metadata := (setMeta rep.metadata "merged_ids"
              (List.insertionSort strLe (rep.identifier ::
                g.filter (fun id => id ≠ rep.identifier)))) } ∈
            (groupStage entries qual gl).curated) ∧
          (∀ m ∈ g, m ≠ rep.identifier →
            ({ identifier := m, action := .merge, representative := some rep.identifier,
               reason := some "duplicate",
               quality_score := some (qual m).quality_score } : CurationDecision) ∈
              (groupStage entries qual gl).decisions) := by
  intro gl
  induction gl with
  | nil =>
    intro _ dg hdg
    rw [show (groupStage entries qual ([] : List (List String))).dupGroups = [] from rfl] at hdg
    cases hdg
  | cons g gs ih =>
    intro hH dg hdg
    obtain ⟨hlen, hnd, hex⟩ := hH g (List.mem_cons_self _ _)
    have hgne : g ≠ [] := by
      intro hc
      rw [hc] at hlen
      exact absurd hlen (by decide)
    have hmapid := groupEntries_map_id entries g hex
    obtain ⟨hrepmem, hrepmax⟩ := group_rep_facts entries qual hgne hex
    have hrepent := groupEntries_mem hrepmem
    have hrepg : ((choose_representative qual (g.filterMap (fun id =>
        entries.find? (fun e2 => e2.identifier = id)))).getD default).identifier ∈ g := by
      have h1 := List.mem_map_of_mem (fun x : LibraryEntry => x.identifier) hrepmem
      rwa [hmapid] at h1
    rw [groupStage_dupGroups_cons] at hdg
    rcases List.mem_cons.mp hdg with rfl | hdgt
    · refine ⟨g, List.mem_cons_self _ _,
        (choose_representative qual (g.filterMap (fun id =>
          entries.find? (fun e2 => e2.identifier = id)))).getD default,
        hrepent, rfl, rfl, rfl, hrepg, hrepmax, ?_, ?_, ?_⟩
      · intro id hid
        have hid2 : id ∈ (g.filterMap (fun id => entries.find? (fun e2 =>
            e2.identifier = id))).map (·.identifier) := by
          rw [hmapid]
          exact hid
        obtain ⟨x, hx, heq⟩ := List.mem_map.mp hid2
        exact ⟨x, hx, heq⟩
      · have hcur := groupStage_curated_cons entries qual g gs
        rw [hmapid] at hcur
        rw [if_pos (merged_ne_nil hlen hnd hrepg)] at hcur
        rw [hcur]
        exact List.mem_cons_self _ _
      · intro m hm hmne
        have hdec := groupStage_decisions_cons entries qual g gs
        rw [hmapid] at hdec
        rw [hdec]
        refine List.mem_cons_of_mem _ (List.mem_append.mpr (Or.inl ?_))
        refine List.mem_map.mpr ⟨m, ?_, rfl⟩
        exact List.mem_filter.mpr ⟨hm, decide_eq_true hmne⟩
    · obtain ⟨g', hg', rep, hrent, hrepeq, hdrep, hdmem, hrg', hmax', hids', hcur', hdec'⟩ :=
        ih (fun g2 hg2 => hH g2 (List.mem_cons_of_mem _ hg2)) dg hdgt
      refine ⟨g', List.mem_cons_of_mem _ hg', rep, hrent, hrepeq, hdrep, hdmem, hrg', hmax',
        hids', ?_, ?_⟩
      · rw [groupStage_curated_cons]
        exact List.mem_cons_of_mem _ hcur'
      · intro m hm hmne
        rw [groupStage_decisions_cons]
        exact List.mem_cons_of_mem _ (List.mem_append.mpr (Or.inr (hdec' m hm hmne)))

theorem groupStage_curated_ids (entries : List LibraryEntry)
    (qual : String → QualityResult) :
    ∀ gl : List (List String),
      (∀ g ∈ gl, g ≠ [] ∧ ∀ id ∈ g, ∃ e ∈ entries, e.identifier = id) →
      ∀ e' ∈ (groupStage entries qual gl).curated,
        ∃ g' ∈ gl,
          e'.identifier = ((choose_representative qual (g'.filterMap (fun id =>
            entries.find? (fun e2 => e2.identifier = id)))).getD default).identifier ∧
          e'.identifier ∈ g' := by
  intro gl
  induction gl with
  | nil =>
    intro _ e' he'
    rw [show (groupStage entries qual ([] : List (List String))).curated = [] from rfl] at he'
    cases he'
  | cons g gs ih =>
    intro hH e' he'
    obtain ⟨hgne, hex⟩ := hH g (List.mem_cons_self _ _)
    have hmapid := groupEntries_map_id entries g hex
    obtain ⟨hrepmem, _⟩ := group_rep_facts entries qual hgne hex
    have hrepg : ((choose_representative qual (g.filterMap (fun id =>
        entries.find? (fun e2 => e2.identifier = id)))).getD default).identifier ∈ g := by
      have h1 := List.mem_map_of_mem (fun x : LibraryEntry => x.identifier) hrepmem
      rwa [hmapid] at h1
    rw [groupStage_curated_cons] at he'
    rcases List.mem_cons.mp he' with rfl | het
    · exact ⟨g, List.mem_cons_self _ _, rfl, hrepg⟩
    · obtain ⟨g', hg', heq, hmem⟩ := ih (fun g2 hg2 => hH g2 (List.mem_cons_of_mem _ hg2)) e' het
      exact ⟨g', List.mem_cons_of_mem _ hg', heq, hmem⟩

theorem cons_filter_perm : ∀ (g : List String) (repId : String), g.Nodup → repId ∈ g →
    (repId :: g.filter (fun id => id ≠ repId)).Perm g := by
  intro g
  induction g with
  | nil => intro repId _ hmem; cases hmem
  | cons a t ih =>
    intro repId hnd hmem
    rcases List.mem_cons.mp hmem with rfl | hmemt
    · rw [List.filter_cons, if_neg (by simp)]
      have ht : t.filter (fun id => id ≠ repId) = t := by
        refine List.filter_eq_self.mpr ?_
        intro b hb
        refine decide_eq_true ?_
        intro hc
        exact ((List.pairwise_cons.mp hnd).1 b hb) hc.symm
      rw [ht]
    · have hane : a ≠ repId := fun hc =>
        ((List.pairwise_cons.mp hnd).1 repId hmemt) hc
      rw [List.filter_cons, if_pos (decide_eq_true hane)]
      have hperm := ih repId (List.Nodup.of_cons hnd) hmemt
      refine List.Perm.trans (List.Perm.swap a repId _) ?_
      exact hperm.cons a

theorem mergeDecisions_map_id (qual : String → QualityResult) (repId : String) :
    ∀ l : List String, ((l.map (fun mid =>
      ({ identifier := mid, action := .merge, representative := some repId,
         reason := some "duplicate",
         quality_score := some (qual mid).quality_score } : CurationDecision))).map
        (·.identifier)) = l := by
  intro l
  induction l with
  | nil => rfl
  | cons a t ih => rw [List.map_cons, List.map_cons, ih]

theorem passDecisions_map_id (qual : String → QualityResult) :
    ∀ l : List LibraryEntry, ((l.map (fun e =>
      ({ identifier := e.identifier, action := .keep,
         quality_score := some (qual e.identifier).quality_score } : CurationDecision))).map
        (·.identifier)) = l.map (·.identifier) := by
  intro l
  induction l with
  | nil => rfl
  | cons a t ih => rw [List.map_cons, List.map_cons, List.map_cons, ih]

theorem dropDecisions_map_id (qual : String → QualityResult) :
    ∀ l : List String, ((l.map (fun did =>
      ({ identifier := did, action := .drop,
         reason := some (String.intercalate ";" (qual did).issues),
         quality_score := some (qual did).quality_score } : CurationDecision))).map
        (·.identifier)) = l := by
  intro l
  induction l with
  | nil => rfl
  | cons a t ih => rw [List.map_cons, List.map_cons, ih]

/-- The decisions emitted by the duplicate-group loop carry exactly the
identifiers of the group members, one decision each. -/
theorem groupStage_decisions_ids (entries : List LibraryEntry)
    (qual : String → QualityResult) :
    ∀ gl : List (List String),
      (∀ g ∈ gl, g ≠ [] ∧ g.Nodup ∧ ∀ id ∈ g, ∃ e ∈ entries, e.identifier = id) →
      ((groupStage entries qual gl).decisions.map (·.identifier)).Perm gl.flatten := by
  intro gl
  induction gl with
  | nil =>
    intro _
    exact List.Perm.refl _
  | cons g gs ih =>
    intro hH
    obtain ⟨hgne, hnd, hex⟩ := hH g (List.mem_cons_self _ _)
    have hmapid := groupEntries_map_id entries g hex
    obtain ⟨hrepmem, _⟩ := group_rep_facts entries qual hgne hex
    have hrepg : ((choose_representative qual (g.filterMap (fun id =>
        entries.find? (fun e2 => e2.identifier = id)))).getD default).identifier ∈ g := by
      have h1 := List.mem_map_of_mem (fun x : LibraryEntry => x.identifier) hrepmem
      rwa [hmapid] at h1
    rw [groupStage_decisions_cons, hmapid, List.map_cons, List.map_append,
      mergeDecisions_map_id, List.flatten_cons]
    have hpg := cons_filter_perm g
      ((choose_representative qual (g.filterMap (fun id =>
        entries.find? (fun e2 => e2.identifier = id)))).getD default).identifier hnd hrepg
    have hrest := ih (fun g2 hg2 => hH g2 (List.mem_cons_of_mem _ hg2))
    exact List.Perm.append hpg hrest

theorem sum_sub_one : ∀ gl : List (List String), (∀ g ∈ gl, g ≠ []) →
    (gl.map (fun g => g.length - 1)).sum + gl.length = (gl.map (fun g => g.length)).sum := by
  intro gl
  induction gl with
  | nil => intro _; rfl
  | cons g gs ih =>
    intro h
    simp only [List.map_cons, List.sum_cons, List.length_cons]
    have h1 : 1 ≤ g.length := by
      have hne := h g (List.mem_cons_self _ _)
      cases g with
      | nil => exact absurd rfl hne
      | cons a t => simp
    have h2 := ih (fun g2 hg2 => h g2 (List.mem_cons_of_mem _ hg2))
    omega

theorem filter_mem_perm (entries : List LibraryEntry)
    (hnd : (entries.map (·.identifier)).Nodup)
    (S : List String) (hS : S.Nodup) (hsub : ∀ x ∈ S, ∃ e ∈ entries, e.identifier = x) :
    ((entries.filter (fun e => e.identifier ∈ S)).map (·.identifier)).Perm S := by
  have hnodupf : ((entries.filter (fun e => e.identifier ∈ S)).map (·.identifier)).Nodup :=
    List.Pairwise.sublist (List.Sublist.map _ (List.filter_sublist _)) hnd
  rw [List.perm_ext_iff_of_nodup hnodupf hS]
  intro x
  constructor
  · intro hx
    obtain ⟨e, he, heq⟩ := List.mem_map.mp hx
    rw [← heq]
    exact of_decide_eq_true (List.mem_filter.mp he).2
  · intro hx
    obtain ⟨e, he, heq⟩ := hsub x hx
    rw [← heq]
    refine List.mem_map_of_mem _ (List.mem_filter.mpr ⟨he, decide_eq_true ?_⟩)
    rw [heq]
    exact hx

theorem filter_mem_length (entries : List LibraryEntry)
    (hnd : (entries.map (·.identifier)).Nodup)
    (S : List String) (hS : S.Nodup) (hsub : ∀ x ∈ S, ∃ e ∈ entries, e.identifier = x) :
    (entries.filter (fun e => e.identifier ∈ S)).length = S.length := by
  have h := (filter_mem_perm entries hnd S hS hsub).length_eq
  rwa [List.length_map] at h

theorem groupsOf_facts (entries : List LibraryEntry) (th : QualityThresholds) (pt st : ℚ) :
    (groupsOf entries th pt st).flatten.Nodup ∧
    (∀ g ∈ groupsOf entries th pt st,
      1 < g.length ∧ g.Nodup ∧ g.Sorted strLe ∧
      (∀ id ∈ g, ∃ e ∈ candidates entries th, e.identifier = id) ∧
      (∀ id ∈ g, ∃ e ∈ entries, e.identifier = id)) := by
  obtain ⟨hnd, hfacts⟩ := detect_groups_facts (candidates entries th) pt st
  refine ⟨hnd, ?_⟩
  intro g hg
  obtain ⟨hlen, hsort, hex⟩ := hfacts g hg
  refine ⟨hlen, ?_, hsort, hex, ?_⟩
  · exact List.Pairwise.sublist (List.sublist_flatten_of_mem hg) hnd
  · intro id hid
    obtain ⟨e, he, heq⟩ := hex id hid
    exact ⟨e, List.mem_of_mem_filter he, heq⟩

theorem flatten_not_drop (entries : List LibraryEntry) (th : QualityThresholds) (pt st : ℚ) :
    ∀ x ∈ (groupsOf entries th pt st).flatten, ¬ x ∈ drop_ids entries th := by
  intro x hx hdrop
  obtain ⟨g, hg, hxg⟩ := List.mem_flatten.mp hx
  obtain ⟨_, hfacts⟩ := groupsOf_facts entries th pt st
  obtain ⟨e, he, heq⟩ := ((hfacts g hg).2.2.2.1) x hxg
  have hpred := (List.mem_filter.mp he).2
  rw [heq] at hpred
  exact (of_decide_eq_true hpred) hdrop

theorem drop_ids_nodup {entries : List LibraryEntry} (th : QualityThresholds)
    (hnd : (entries.map (·.identifier)).Nodup) : (drop_ids entries th).Nodup := by
  unfold drop_ids
  exact List.Pairwise.sublist (List.Sublist.map _ (List.filter_sublist _)) hnd

theorem drop_ids_mem_iff {entries : List LibraryEntry} {th : QualityThresholds}
    (hnd : (entries.map (·.identifier)).Nodup) {e : LibraryEntry} (he : e ∈ entries) :
    e.identifier ∈ drop_ids entries th ↔ (score_quality e th).issues ≠ [] := by
  constructor
  · intro hx
    unfold drop_ids at hx
    obtain ⟨e2, he2, heq⟩ := List.mem_map.mp hx
    have he2e : e2 = e := entries_id_inj hnd e2 (List.mem_of_mem_filter he2) e he heq
    have hpred := (List.mem_filter.mp he2).2
    rw [he2e] at hpred
    exact of_decide_eq_true hpred
  · intro hq
    unfold drop_ids
    exact List.mem_map_of_mem _ (List.mem_filter.mpr ⟨he, decide_eq_true hq⟩)

/-- Claim C8: for every duplicate group found during curation (on entries
with pairwise-distinct identifiers), the representative is a group member
that no member strictly exceeds in the lexicographic key
(quality score, total ion current, peak count, identifier); it appears in
the curated output with the sorted member list stored under the
`merged_ids` metadata key; and every non-representative member receives a
merge decision naming the representative and is excluded from the curated
entry list. -/
theorem claim_C8_duplicate_groups (entries : List LibraryEntry) (th : QualityThresholds)
    (pt st : ℚ) (hnd : (entries.map (·.identifier)).Nodup) :
    ∀ dg ∈ (curate_entries entries th pt st).duplicate_groups,
      dg.representative ∈ dg.members ∧
      dg.members.Sorted strLe ∧
      (∃ rep ∈ entries, rep.identifier = dg.representative ∧
        (∀ em ∈ entries, em.identifier ∈ dg.members →
          ¬ repKeyLt (repKey (score_quality rep th) rep.identifier)
            (repKey (score_quality em th) em.identifier)) ∧
        (∃ e ∈ (curate_entries entries th pt st).curated_entries,
          e.identifier = dg.representative ∧
          e.metadata = setMeta rep.metadata "merged_ids" dg.members)) ∧
      (∀ m ∈ dg.members, m ≠ dg.representative →
        (∃ d ∈ (curate_entries entries th pt st).decisions,
          d.identifier = m ∧ d.action = DecisionAction.merge ∧
          d.representative = some dg.representative ∧ d.reason = some "duplicate") ∧
        (∀ e ∈ (curate_entries entries th pt st).curated_entries, e.identifier ≠ m)) := by
  intro dg hdg
  obtain ⟨hflnd, hfacts⟩ := groupsOf_facts entries th pt st
  have hH : ∀ g ∈ groupsOf entries th pt st,
      1 < g.length ∧ g.Nodup ∧ ∀ id ∈ g, ∃ e ∈ entries, e.identifier = id := by
    intro g hg
    obtain ⟨h1, h2, _, _, h5⟩ := hfacts g hg
    exact ⟨h1, h2, h5⟩
  have hH2 : ∀ g ∈ groupsOf entries th pt st,
      g ≠ [] ∧ ∀ id ∈ g, ∃ e ∈ entries, e.identifier = id := by
    intro g hg
    obtain ⟨h1, h2, h3⟩ := hH g hg
    refine ⟨?_, h3⟩
    intro hc
    rw [hc] at h1
    exact absurd h1 (by decide)
  obtain ⟨g, hg, rep, hrent, hrepeq, hdrep, hdmem, hrg, hmax, hids, hcur, hdec⟩ :=
    groupStage_dupGroups_facts entries (qualOf entries th) (groupsOf entries th pt st)
      hH dg hdg
  obtain ⟨hlen, hgnd, hgsort, hexc, hexe⟩ := hfacts g hg
  have hrepmem : dg.representative ∈ dg.members := by
    rw [hdrep, hdmem]
    exact (List.mem_insertionSort strLe).mpr hrg
  have hsortEq : List.insertionSort strLe (rep.identifier ::
      g.filter (fun id => id ≠ rep.identifier)) = List.insertionSort strLe g := by
    refine List.eq_of_perm_of_sorted ?_ (List.sorted_insertionSort _ _)
      (List.sorted_insertionSort _ _)
    exact ((List.perm_insertionSort strLe _).trans
      (cons_filter_perm g rep.identifier hgnd hrg)).trans
      (List.perm_insertionSort strLe g).symm
  refine ⟨hrepmem, ?_, ⟨rep, hrent, hdrep.symm, ?_, ?_⟩, ?_⟩
  · rw [hdmem]
    exact List.sorted_insertionSort strLe g
  · intro em hem hmm
    rw [hdmem] at hmm
    have hmg : em.identifier ∈ g := (List.mem_insertionSort strLe).mp hmm
    obtain ⟨x, hxGE, hxid⟩ := hids em.identifier hmg
    have hxent : x ∈ entries := groupEntries_mem hxGE
    have hxe : x = em := entries_id_inj hnd x hxent em hem hxid
    have h := hmax x hxGE
    rw [qualOf_eq entries th hnd rep hrent] at h
    rw [hxe, qualOf_eq entries th hnd em hem] at h
    exact h
  · refine ⟨{ rep with metadata := (setMeta rep.metadata "merged_ids"
        (List.insertionSort strLe (rep.identifier ::
          g.filter (fun id => id ≠ rep.identifier)))) }, ?_, ?_, ?_⟩
    · show _ ∈ (groupAcc entries th pt st).curated ++ passEntries entries th pt st
      exact List.mem_append_left _ hcur
    · show rep.identifier = dg.representative
      exact hdrep.symm
    · show setMeta rep.metadata "merged_ids" (List.insertionSort strLe (rep.identifier ::
        g.filter (fun id => id ≠ rep.identifier))) =
        setMeta rep.metadata "merged_ids" dg.members
      rw [hsortEq, hdmem]
  · intro m hm hmne
    rw [hdmem] at hm
    have hmg : m ∈ g := (List.mem_insertionSort strLe).mp hm
    have hmner : m ≠ rep.identifier := by
      rw [← hdrep]
      exact hmne
    constructor
    · refine ⟨{ identifier := m, action := .merge,
                representative := some rep.identifier,
                reason := some "duplicate",
                quality_score := some ((qualOf entries th) m).quality_score },
        ?_, rfl, rfl, ?_, rfl⟩
      · show _ ∈ (groupAcc entries th pt st).decisions ++ _ ++ _
        exact List.mem_append_left _ (List.mem_append_left _ (hdec m hmg hmner))
      · show some rep.identifier = some dg.representative
        rw [hdrep]
    · intro e he heq
      rcases List.mem_append.mp he with hega | hepe
      · obtain ⟨g2, hg2, heid, hein⟩ := groupStage_curated_ids entries (qualOf entries th)
          (groupsOf entries th pt st) hH2 e hega
        have hmg2 : m ∈ g2 := by
          rw [← heq]
          exact hein
        have hgg : g2 = g := flatten_nodup_mem_unique (groupsOf entries th pt st) hflnd
          g2 hg2 g hg m hmg2 hmg
        rw [hgg] at heid
        rw [heq, ← hrepeq] at heid
        exact hmner heid
      · have hpred := (List.mem_filter.mp hepe).2
        obtain ⟨hnh, _⟩ := of_decide_eq_true hpred
        apply hnh
        rw [show (groupAcc entries th pt st).handled =
          (groupsOf entries th pt st).flatten from
            groupStage_handled entries (qualOf entries th) _]
        rw [heq]
        exact List.mem_flatten_of_mem hg hmg

/-- Claim C10: on entries with pairwise-distinct identifiers,
`curate_entries` emits exactly one decision per input entry, and the summary
satisfies kept = len(curated) = total − dropped − merged_entries with
merged_entries the sum over duplicate groups of (group size − 1). -/
theorem claim_C10_accounting (entries : List LibraryEntry) (th : QualityThresholds)
    (pt st : ℚ) (hnd : (entries.map (·.identifier)).Nodup) :
    ((curate_entries entries th pt st).decisions.map (·.identifier)).Perm
      (entries.map (·.identifier)) ∧
    (curate_entries entries th pt st).summary.kept =
      (curate_entries entries th pt st).curated_entries.length ∧
    (curate_entries entries th pt st).summary.total =
      (curate_entries entries th pt st).summary.kept +
        (curate_entries entries th pt st).summary.dropped +
        (curate_entries entries th pt st).summary.merged_entries ∧
    (curate_entries entries th pt st).summary.kept =
      (curate_entries entries th pt st).summary.total -
        (curate_entries entries th pt st).summary.dropped -
        (curate_entries entries th pt st).summary.merged_entries ∧
    (curate_entries entries th pt st).summary.merged_entries =
      ((curate_entries entries th pt st).duplicate_groups.map
        (fun dg => dg.members.length - 1)).sum := by
  obtain ⟨hflnd, hfacts⟩ := groupsOf_facts entries th pt st
  have hH : ∀ g ∈ groupsOf entries th pt st,
      g ≠ [] ∧ g.Nodup ∧ ∀ id ∈ g, ∃ e ∈ entries, e.identifier = id := by
    intro g hg
    obtain ⟨h1, h2, _, _, h5⟩ := hfacts g hg
    refine ⟨?_, h2, h5⟩
    intro hc
    rw [hc] at h1
    exact absurd h1 (by decide)
  have hflat_ex : ∀ x ∈ (groupsOf entries th pt st).flatten,
      ∃ e ∈ entries, e.identifier = x := by
    intro x hx
    obtain ⟨g, hg, hxg⟩ := List.mem_flatten.mp hx
    exact (hH g hg).2.2 x hxg
  have hdecEq : (curate_entries entries th pt st).decisions =
      (groupAcc entries th pt st).decisions ++
        ((passEntries entries th pt st).map (fun e =>
          ({ identifier := e.identifier, action := .keep,
             quality_score := some ((qualOf entries th) e.identifier).quality_score }
            : CurationDecision))) ++
        ((drop_ids entries th).map (fun did =>
          ({ identifier := did, action := .drop,
             reason := some (String.intercalate ";" ((qualOf entries th) did).issues),
             quality_score := some ((qualOf entries th) did).quality_score }
            : CurationDecision))) := rfl
  have hga : ((groupAcc entries th pt st).decisions.map (·.identifier)).Perm
      (groupsOf entries th pt st).flatten :=
    groupStage_decisions_ids entries (qualOf entries th) _ hH
  have hdropfilter : entries.filter (fun e => e.identifier ∈ drop_ids entries th) =
      entries.filter (fun e => (score_quality e th).issues ≠ []) := by
    refine List.filter_congr ?_
    intro e he
    rw [decide_eq_decide]
    exact drop_ids_mem_iff hnd he
  have hpermdrop : ((entries.filter (fun e =>
      e.identifier ∈ drop_ids entries th)).map (·.identifier)) = drop_ids entries th := by
    rw [hdropfilter]
    rfl
  have hdroplen : (entries.filter (fun e => e.identifier ∈ drop_ids entries th)).length =
      (drop_ids entries th).length := by
    have h1 := congrArg List.length hpermdrop
    rwa [List.length_map] at h1
  have hFfilter : (entries.filter (fun e =>
      !(decide (e.identifier ∈ drop_ids entries th)))).filter (fun e =>
        e.identifier ∈ (groupsOf entries th pt st).flatten) =
      entries.filter (fun e => e.identifier ∈ (groupsOf entries th pt st).flatten) := by
    rw [List.filter_filter]
    refine List.filter_congr ?_
    intro e _
    by_cases hf : e.identifier ∈ (groupsOf entries th pt st).flatten
    · rw [decide_eq_true hf, decide_eq_false (flatten_not_drop entries th pt st _ hf)]
      rfl
    · rw [decide_eq_false hf]
      rfl
  have hFlen : (entries.filter (fun e =>
      e.identifier ∈ (groupsOf entries th pt st).flatten)).length =
      (groupsOf entries th pt st).flatten.length :=
    filter_mem_length entries hnd _ hflnd hflat_ex
  have hhandEq : (groupAcc entries th pt st).handled = (groupsOf entries th pt st).flatten :=
    groupStage_handled entries (qualOf entries th) _
  have hPfilter : (entries.filter (fun e =>
      !(decide (e.identifier ∈ drop_ids entries th)))).filter (fun e =>
        !(decide (e.identifier ∈ (groupsOf entries th pt st).flatten))) =
      passEntries entries th pt st := by
    rw [List.filter_filter]
    unfold passEntries
    refine List.filter_congr ?_
    intro e _
    rw [hhandEq]
    simp only [Bool.decide_and, decide_not]
  have hpart1 := filter_partition_length (fun e : LibraryEntry =>
    decide (e.identifier ∈ drop_ids entries th)) entries
  have hpart2 := filter_partition_length (fun e : LibraryEntry =>
    decide (e.identifier ∈ (groupsOf entries th pt st).flatten))
    (entries.filter (fun e => !(decide (e.identifier ∈ drop_ids entries th))))
  have hFlen2 := congrArg List.length hFfilter
  have hPlen2 := congrArg List.length hPfilter
  have hcurlen : (groupAcc entries th pt st).curated.length =
      (groupsOf entries th pt st).length :=
    groupStage_curated_length entries (qualOf entries th) _
  have hmerged : (((groupAcc entries th pt st).dupGroups).map
      (fun dg => dg.members.length - 1)).sum =
      ((groupsOf entries th pt st).map (fun g => g.length - 1)).sum :=
    groupStage_members_lengths entries (qualOf entries th) _
  have hsumsub := sum_sub_one (groupsOf entries th pt st) (fun g hg => (hH g hg).1)
  have hflatlen : (groupsOf entries th pt st).flatten.length =
      ((groupsOf entries th pt st).map (fun g => g.length)).sum := by
    rw [List.length_flatten]
  have hkept : (curate_entries entries th pt st).summary.kept =
      (groupAcc entries th pt st).curated.length +
        (passEntries entries th pt st).length := by
    show ((groupAcc entries th pt st).curated ++ passEntries entries th pt st).length = _
    rw [List.length_append]
  have htotal : (curate_entries entries th pt st).summary.total = entries.length := rfl
  have hdropped : (curate_entries entries th pt st).summary.dropped =
      (drop_ids entries th).length := rfl
  have hmergedS : (curate_entries entries th pt st).summary.merged_entries =
      (((groupAcc entries th pt st).dupGroups).map (fun dg => dg.members.length - 1)).sum :=
    rfl
  have hperm : ((curate_entries entries th pt st).decisions.map (·.identifier)).Perm
      (entries.map (·.identifier)) := by
    rw [hdecEq, List.map_append, List.map_append, passDecisions_map_id, dropDecisions_map_id]
    refine List.Perm.trans ((hga.append_right _).append_right _) ?_
    refine List.Perm.trans List.perm_append_comm ?_
    have hnd2 := (List.filter_append_perm (fun e : LibraryEntry =>
      decide (e.identifier ∈ drop_ids entries th)) entries).map
      (fun e : LibraryEntry => e.identifier)
    rw [List.map_append] at hnd2
    rw [hpermdrop] at hnd2
    refine List.Perm.trans ?_ hnd2
    refine List.Perm.append_left _ ?_
    have hnd3 := (List.filter_append_perm (fun e : LibraryEntry =>
      decide (e.identifier ∈ (groupsOf entries th pt st).flatten))
      (entries.filter (fun e => !(decide (e.identifier ∈ drop_ids entries th))))).map
      (fun e : LibraryEntry => e.identifier)
    rw [List.map_append, hFfilter, hPfilter] at hnd3
    refine List.Perm.trans ?_ hnd3
    exact List.Perm.append_right _ (filter_mem_perm entries hnd _ hflnd hflat_ex).symm
  refine ⟨hperm, rfl, ?_, ?_, rfl⟩
  · rw [htotal, hkept, hdropped, hmergedS, hcurlen, hmerged]
    rw [hFlen2, hPlen2, hFlen] at hpart2
    omega
  · rw [htotal, hkept, hdropped, hmergedS, hcurlen, hmerged]
    rw [hFlen2, hPlen2, hFlen] at hpart2
    omega

unseal Rat.mul Rat.add Rat.sub Rat.inv in
/-- Witness for the C8 theorem on a four-entry library with one duplicate
pair, one singleton and one quality-dropped entry. -/
theorem claim_C8_witness :
    ("dup-2" : String) ∈ (["dup-1", "dup-2"] : List String) ∧
    (["dup-1", "dup-2"] : List String).Sorted strLe ∧
    (∃ rep ∈ ([⟨"dup-1", some 100, [], [("a", 1), ("b", 1), ("c", 1)]⟩,
        ⟨"dup-2", some 100, [], [("a", 1), ("b", 1), ("c", 1)]⟩,
        ⟨"keep-1", some 200, [], [("d", 1), ("e", 1), ("f", 1)]⟩,
        ⟨"low", none, [], [("g", 1), ("h", 1), ("i", 1)]⟩] : List LibraryEntry),
      rep.identifier = "dup-2" ∧
      (∀ em ∈ ([⟨"dup-1", some 100, [], [("a", 1), ("b", 1), ("c", 1)]⟩,
          ⟨"dup-2", some 100, [], [("a", 1), ("b", 1), ("c", 1)]⟩,
          ⟨"keep-1", some 200, [], [("d", 1), ("e", 1), ("f", 1)]⟩,
          ⟨"low", none, [], [("g", 1), ("h", 1), ("i", 1)]⟩] : List LibraryEntry),
        em.identifier ∈ (["dup-1", "dup-2"] : List String) →
        ¬ repKeyLt (repKey (score_quality rep {}) rep.identifier)
          (repKey (score_quality em {}) em.identifier)) ∧
      (∃ e ∈ (curate_entries
          [⟨"dup-1", some 100, [], [("a", 1), ("b", 1), ("c", 1)]⟩,
           ⟨"dup-2", some 100, [], [("a", 1), ("b", 1), ("c", 1)]⟩,
           ⟨"keep-1", some 200, [], [("d", 1), ("e", 1), ("f", 1)]⟩,
           ⟨"low", none, [], [("g", 1), ("h", 1), ("i", 1)]⟩]
          {} (1/100) (9/10)).curated_entries,
        e.identifier = "dup-2" ∧
        e.metadata = setMeta rep.metadata "merged_ids" ["dup-1", "dup-2"])) ∧
    (∀ m ∈ (["dup-1", "dup-2"] : List String), m ≠ "dup-2" →
      (∃ d ∈ (curate_entries
          [⟨"dup-1", some 100, [], [("a", 1), ("b", 1), ("c", 1)]⟩,
           ⟨"dup-2", some 100, [], [("a", 1), ("b", 1), ("c", 1)]⟩,
           ⟨"keep-1", some 200, [], [("d", 1), ("e", 1), ("f", 1)]⟩,
           ⟨"low", none, [], [("g", 1), ("h", 1), ("i", 1)]⟩]
          {} (1/100) (9/10)).decisions,
        d.identifier = m ∧ d.action = DecisionAction.merge ∧
        d.representative = some "dup-2" ∧ d.reason = some "duplicate") ∧
      (∀ e ∈ (curate_entries
          [⟨"dup-1", some 100, [], [("a", 1), ("b", 1), ("c", 1)]⟩,
           ⟨"dup-2", some 100, [], [("a", 1), ("b", 1), ("c", 1)]⟩,
           ⟨"keep-1", some 200, [], [("d", 1), ("e", 1), ("f", 1)]⟩,
           ⟨"low", none, [], [("g", 1), ("h", 1), ("i", 1)]⟩]
          {} (1/100) (9/10)).curated_entries, e.identifier ≠ m)) :=
  claim_C8_duplicate_groups
    [⟨"dup-1", some 100, [], [("a", 1), ("b", 1), ("c", 1)]⟩,
     ⟨"dup-2", some 100, [], [("a", 1), ("b", 1), ("c", 1)]⟩,
     ⟨"keep-1", some 200, [], [("d", 1), ("e", 1), ("f", 1)]⟩,
     ⟨"low", none, [], [("g", 1), ("h", 1), ("i", 1)]⟩]
    {} (1/100) (9/10) (by decide) ⟨"dup-2", ["dup-1", "dup-2"]⟩ (by decide)

unseal Rat.mul Rat.add Rat.sub Rat.inv in
/-- Witness for the C10 theorem on the same four-entry scenario: one
duplicate merge, one straight keep, one drop. -/
theorem claim_C10_witness :
    ((curate_entries
        [⟨"da", some 50, [], [("a", 1), ("b", 1), ("c", 1)]⟩,
         ⟨"db", some 50, [], [("a", 1), ("b", 1), ("c", 1)]⟩,
         ⟨"zz", none, [], [("g", 1), ("h", 1), ("i", 1)]⟩]
        {} (1/100) (9/10)).decisions.map (·.identifier)).Perm
      (([⟨"da", some 50, [], [("a", 1), ("b", 1), ("c", 1)]⟩,
         ⟨"db", some 50, [], [("a", 1), ("b", 1), ("c", 1)]⟩,
         ⟨"zz", none, [], [("g", 1), ("h", 1), ("i", 1)]⟩] : List LibraryEntry).map
        (·.identifier)) ∧
    (curate_entries
        [⟨"da", some 50, [], [("a", 1), ("b", 1), ("c", 1)]⟩,
         ⟨"db", some 50, [], [("a", 1), ("b", 1), ("c", 1)]⟩,
         ⟨"zz", none, [], [("g", 1), ("h", 1), ("i", 1)]⟩]
        {} (1/100) (9/10)).summary.kept =
      (curate_entries
        [⟨"da", some 50, [], [("a", 1), ("b", 1), ("c", 1)]⟩,
         ⟨"db", some 50, [], [("a", 1), ("b", 1), ("c", 1)]⟩,
         ⟨"zz", none, [], [("g", 1), ("h", 1), ("i", 1)]⟩]
        {} (1/100) (9/10)).curated_entries.length ∧
    (curate_entries
        [⟨"da", some 50, [], [("a", 1), ("b", 1), ("c", 1)]⟩,
         ⟨"db", some 50, [], [("a", 1), ("b", 1), ("c", 1)]⟩,
         ⟨"zz", none, [], [("g", 1), ("h", 1), ("i", 1)]⟩]
        {} (1/100) (9/10)).summary.total =
      (curate_entries
        [⟨"da", some 50, [], [("a", 1), ("b", 1), ("c", 1)]⟩,
         ⟨"db", some 50, [], [("a", 1), ("b", 1), ("c", 1)]⟩,
         ⟨"zz", none, [], [("g", 1), ("h", 1), ("i", 1)]⟩]
        {} (1/100) (9/10)).summary.kept +
        (curate_entries
          [⟨"da", some 50, [], [("a", 1), ("b", 1), ("c", 1)]⟩,
           ⟨"db", some 50, [], [("a", 1), ("b", 1), ("c", 1)]⟩,
           ⟨"zz", none, [], [("g", 1), ("h", 1), ("i", 1)]⟩]
          {} (1/100) (9/10)).summary.dropped +
        (curate_entries
          [⟨"da", some 50, [], [("a", 1), ("b", 1), ("c", 1)]⟩,
           ⟨"db", some 50, [], [("a", 1), ("b", 1), ("c", 1)]⟩,
           ⟨"zz", none, [], [("g", 1), ("h", 1), ("i", 1)]⟩]
          {} (1/100) (9/10)).summary.merged_entries ∧
    (curate_entries
        [⟨"da", some 50, [], [("a", 1), ("b", 1), ("c", 1)]⟩,
         ⟨"db", some 50, [], [("a", 1), ("b", 1), ("c", 1)]⟩,
         ⟨"zz", none, [], [("g", 1), ("h", 1), ("i", 1)]⟩]
        {} (1/100) (9/10)).summary.kept =
      (curate_entries
        [⟨"da", some 50, [], [("a", 1), ("b", 1), ("c", 1)]⟩,
         ⟨"db", some 50, [], [("a", 1), ("b", 1), ("c", 1)]⟩,
         ⟨"zz", none, [], [("g", 1), ("h", 1), ("i", 1)]⟩]
        {} (1/100) (9/10)).summary.total -
        (curate_entries
          [⟨"da", some 50, [], [("a", 1), ("b", 1), ("c", 1)]⟩,
           ⟨"db", some 50, [], [("a", 1), ("b", 1), ("c", 1)]⟩,
           ⟨"zz", none, [], [("g", 1), ("h", 1), ("i", 1)]⟩]
          {} (1/100) (9/10)).summary.dropped -
        (curate_entries
          [⟨"da", some 50, [], [("a", 1), ("b", 1), ("c", 1)]⟩,
           ⟨"db", some 50, [], [("a", 1), ("b", 1), ("c", 1)]⟩,
           ⟨"zz", none, [], [("g", 1), ("h", 1), ("i", 1)]⟩]
          {} (1/100) (9/10)).summary.merged_entries ∧
    (curate_entries
        [⟨"da", some 50, [], [("a", 1), ("b", 1), ("c", 1)]⟩,
         ⟨"db", some 50, [], [("a", 1), ("b", 1), ("c", 1)]⟩,
         ⟨"zz", none, [], [("g", 1), ("h", 1), ("i", 1)]⟩]
        {} (1/100) (9/10)).summary.merged_entries =
      ((curate_entries
        [⟨"da", some 50, [], [("a", 1), ("b", 1), ("c", 1)]⟩,
         ⟨"db", some 50, [], [("a", 1), ("b", 1), ("c", 1)]⟩,
         ⟨"zz", none, [], [("g", 1), ("h", 1), ("i", 1)]⟩]
        {} (1/100) (9/10)).duplicate_groups.map (fun dg => dg.members.length - 1)).sum :=
  claim_C10_accounting
    [⟨"da", some 50, [], [("a", 1), ("b", 1), ("c", 1)]⟩,
     ⟨"db", some 50, [], [("a", 1), ("b", 1), ("c", 1)]⟩,
     ⟨"zz", none, [], [("g", 1), ("h", 1), ("i", 1)]⟩]
    {} (1/100) (9/10) (by decide)

end Curation

end MassFlow
